import Mathlib

/-!
# A verification model of the palmtree B+ tree (bodil/palmtree)

This file gives a shallow embedding, in Lean, of the core of the `palmtree`
Rust crate: an in-memory ordered map implemented as a wide-fanout B+ tree.
Keys and values are specialised to `Nat` (the Rust code is generic over any
totally ordered key type; `Nat` is a faithful instance of that interface).

Conventions used throughout the embedding:

* Rust slices and the crate's fixed-capacity inline arrays become Lean
  `List`s holding exactly the logically initialised elements (the crate
  tracks a separate `length` over an uninitialised slab; the list models
  the first `length` slots).
* In-place mutation becomes explicit state passing: functions return the
  updated node or tree.
* `unsafe` indexing becomes `List.getD _ 0` (out-of-range reads are
  modelled as an arbitrary value, here 0; the theorems establish the
  accesses are in range where that matters).
* Loops whose termination is not structural carry an explicit `fuel : Nat`
  argument so that every definition is a computable structural recursion;
  callers pass fuel large enough for the loop bound, and the theorems show
  the fuel suffices.
* Node capacities `B` (branch fanout) and `L` (leaf fanout) are ordinary
  `Nat` parameters (the crate passes them as `typenum` type parameters,
  both required to exceed 3).
-/

set_option maxRecDepth 16000

namespace Palmtree

/-! ## Search primitives (src/search.rs) -/

/-- The binary-search loop of `find_key` (src/search.rs lines 38-47):
`while low != high { mid = (low+high)/2; if keys[mid] < key { low = mid+1 } else { high = mid } }`.
The loop is only entered with `low ≤ high`, so the source's `low != high`
test is rendered as `low < high`.  `fuel` bounds the iteration count; the
caller passes `keys.length`, which the lemmas show is always enough. -/
def findKeyLoop (keys : List Nat) (key : Nat) : Nat → Nat → Nat → Nat
  | low, _, 0 => low
  | low, high, fuel + 1 =>
    if low < high then
      if keys.getD ((low + high) / 2) 0 < key then
        findKeyLoop keys key ((low + high) / 2 + 1) high fuel
      else
        findKeyLoop keys key low ((low + high) / 2) fuel
    else low

/-- `find_key(keys, key)` (src/search.rs lines 29-53): `Some(i)` for the first
index with `keys[i] ≥ key`, or `None` when every key is smaller.  Mirrors the
source: early return on the empty slice, then the binary-search loop from
`low = 0`, `high = size - 1`, then the final check
`if low == size || keys[low] < key { None } else { Some(low) }`. -/
def find_key (keys : List Nat) (key : Nat) : Option Nat :=
  if keys.length = 0 then none
  else
    let low := findKeyLoop keys key 0 (keys.length - 1) keys.length
    if low = keys.length ∨ keys.getD low 0 < key then none else some low

/-- The index of the first element of `keys` that is `≥ key`
(`keys.length` when there is none): the specification value that
`find_key` is claimed to compute. -/
def firstGE (keys : List Nat) (key : Nat) : Nat :=
  (keys.takeWhile (fun x => x < key)).length

/-! ## Leaves (src/leaf.rs)

A leaf holds two parallel arrays of keys and values; the source tracks a
single `length` field for both.  The model keeps the logically initialised
prefixes of the two slabs as lists; well-formedness requires them to have
equal length. -/

structure LeafN where
  keys : List Nat
  values : List Nat
deriving Repr, DecidableEq

def nullLeaf : LeafN := ⟨[], []⟩

def LeafN.len (l : LeafN) : Nat := l.keys.length

def LeafN.isEmpty (l : LeafN) : Bool := l.len = 0

def LeafN.isFull (Lcap : Nat) (l : LeafN) : Bool := l.len = Lcap

/-- `Leaf::highest` (src/leaf.rs 74-76): `keys()[len - 1]`. -/
def LeafN.highest (l : LeafN) : Nat := l.keys.getD (l.len - 1) 0

/-- Model of Rust `slice::binary_search` as used on the (sorted) key slice
of a leaf: `.ok i` when `keys[i] = key`, else `.error i` with `i` the
insertion point (the number of elements `< key`). -/
def binarySearch (keys : List Nat) (key : Nat) : Except Nat Nat :=
  let i := firstGE keys key
  if i < keys.length ∧ keys.getD i 0 = key then .ok i else .error i

/-- `Leaf::get` (src/leaf.rs 170-175): binary search, then read the value
at the matching index. -/
def LeafN.get (l : LeafN) (key : Nat) : Option Nat :=
  match binarySearch l.keys key with
  | .ok i => some (l.values.getD i 0)
  | .error _ => none

/-- `Leaf::insert_unchecked` (src/leaf.rs 121-125): insert key and value
at `index`, shifting the tails right. -/
def LeafN.insertAt (l : LeafN) (index : Nat) (key value : Nat) : LeafN :=
  ⟨l.keys.insertIdx index key, l.values.insertIdx index value⟩

/-- `Leaf::remove_unchecked` (src/leaf.rs 127-134): read out the pair at
`index` and shift the tails left. -/
def LeafN.removeAt (l : LeafN) (index : Nat) : (Nat × Nat) × LeafN :=
  ((l.keys.getD index 0, l.values.getD index 0),
   ⟨l.keys.eraseIdx index, l.values.eraseIdx index⟩)

/-- `Leaf::pop_front` (src/leaf.rs 147-162): remove and return the first
pair, or `none` on the empty leaf. -/
def LeafN.popFront (l : LeafN) : Option ((Nat × Nat) × LeafN) :=
  if l.isEmpty then none
  else some ((l.keys.getD 0 0, l.values.getD 0 0), ⟨l.keys.tail, l.values.tail⟩)

/-- `Leaf::pop_back` (src/leaf.rs 136-145): remove and return the last
pair, or `none` on the empty leaf. -/
def LeafN.popBack (l : LeafN) : Option ((Nat × Nat) × LeafN) :=
  if l.isEmpty then none
  else some ((l.keys.getD (l.len - 1) 0, l.values.getD (l.len - 1) 0),
    ⟨l.keys.dropLast, l.values.dropLast⟩)

/-- `Leaf::split` (src/leaf.rs 94-113).  With `n` the current length and
`half = n / 2`, the source builds the right leaf from
`Array::steal_from(&mut this.keys, n, half)` — a raw copy of slots
`[half, n)` — but records its length as `half`, and shrinks the left
leaf's length to `n - half`.  Observably the left leaf keeps the first
`n - half` slots and the right leaf exposes the first `half` slots of the
copied region, i.e. slots `[half, half + half)` of the original. -/
def LeafN.split (l : LeafN) : LeafN × LeafN :=
  let n := l.len
  let half := n / 2
  (⟨l.keys.take (n - half), l.values.take (n - half)⟩,
   ⟨(l.keys.drop half).take half, (l.values.drop half).take half⟩)

/-- Result type of node-level insertion (src/types.rs / the crate's
`InsertResult`): the item was added, replaced a previous value, or the
node was full. -/
inductive InsertResult where
  | added
  | replaced (old : Nat)
  | full (key value : Nat)
deriving Repr, DecidableEq

/-- `Leaf::insert` (src/leaf.rs 194-209): replace on a key match,
insert at the ordered position when not full, else signal `Full`. -/
def LeafN.insert (Lcap : Nat) (l : LeafN) (key value : Nat) : InsertResult × LeafN :=
  match binarySearch l.keys key with
  | .ok i => (.replaced (l.values.getD i 0), ⟨l.keys, l.values.set i value⟩)
  | .error i =>
    if ¬ l.isFull Lcap then (.added, l.insertAt i key value)
    else (.full key value, l)

/-! ## Nodes and branches (src/branch.rs)

A branch stores a `height` (1 = its children are leaves, >1 = branches),
a list of high keys and a parallel list of type-erased child pointers;
the embedding replaces the erased pointer cell by a sum of the two node
shapes, using the recorded height for dispatch exactly where the source
consults its `has_branches` flag. -/

inductive Node where
  | leaf (l : LeafN)
  | branch (height : Nat) (keys : List Nat) (children : List Node)

def nullNode : Node := .leaf nullLeaf

def Node.heightOf : Node → Nat
  | .leaf _ => 0
  | .branch h _ _ => h

/-- `Branch::has_branches` (height > 1). -/
def Node.hasBranches : Node → Bool
  | .leaf _ => false
  | .branch h _ _ => h > 1

def Node.branchKeys : Node → List Nat
  | .leaf _ => []
  | .branch _ ks _ => ks

def Node.childrenOf : Node → List Node
  | .leaf _ => []
  | .branch _ _ cs => cs

/-- `Branch::len` — the number of keys. -/
def Node.branchLen (n : Node) : Nat := n.branchKeys.length

def Node.branchIsEmpty (n : Node) : Bool := n.branchLen = 0

def Node.branchIsFull (Bcap : Nat) (n : Node) : Bool := n.branchLen = Bcap

/-- `highest()` — the last key of the node (for a leaf, its greatest key;
for a branch, its last high key). -/
def Node.highestKey : Node → Nat
  | .leaf l => l.highest
  | .branch _ ks _ => ks.getD (ks.length - 1) 0

/-- All key/value pairs of the subtree, in storage order, with `fuel`
bounding the recursion depth (the node height is always enough). -/
def entriesF : Nat → Node → List (Nat × Nat)
  | _, .leaf l => l.keys.zip l.values
  | 0, .branch _ _ _ => []
  | fuel + 1, .branch _ _ cs => (cs.map (entriesF fuel)).flatten

/-- All keys of the subtree, in storage order. -/
def nodeKeysF (fuel : Nat) (n : Node) : List Nat := (entriesF fuel n).map Prod.fst

/-- The key at the end of the subtree's rightmost spine: descend through
last children to the rightmost leaf and take its last key.  This is the
slot the `highest()` cursor parks on, characterized structurally (with no
appeal to the branch high keys, which `remove` can leave stale). -/
def lastKeyF : Nat → Node → Nat
  | _, .leaf l => l.highest
  | 0, .branch _ _ _ => 0
  | fuel + 1, .branch _ _ cs => lastKeyF fuel (cs.getD (cs.length - 1) nullNode)

/-- The node stored at a child-index path below `n` (the model of a
pointer into the tree). -/
def nodeAt : Node → List Nat → Node
  | n, [] => n
  | n, i :: rest => nodeAt (n.childrenOf.getD i nullNode) rest

/-- Replace the node at a child-index path, rebuilding the spine (the
model of an in-place write through a pointer into the tree). -/
def updateAt : Node → List Nat → (Node → Node) → Node
  | n, [], f => f n
  | .branch h ks cs, i :: rest, f => .branch h ks (cs.set i (updateAt (cs.getD i nullNode) rest f))
  | .leaf l, _ :: _, _ => .leaf l

def leafAt (root : Node) (loc : List Nat) : LeafN :=
  match nodeAt root loc with
  | .leaf l => l
  | .branch _ _ _ => nullLeaf

/-- The path stays within the child-list bounds at every step: the
in-bounds condition under which a write through `updateAt` is read back
by `nodeAt` (a pointer obtained from a walk always satisfies it). -/
def pathOkB : Node → List Nat → Bool
  | _, [] => true
  | n, i :: rest =>
    decide (i < n.childrenOf.length) && pathOkB (n.childrenOf.getD i nullNode) rest

/-! ## Well-formedness checkers

Decidable renditions of the data-model invariants of the spec (§3, §8):
strictly ascending keys, parallel lengths, fanout bounds, kind/height
consistency, and per-child key bounds.  `wfNodeB` uses the *bound* form of
the high-key invariant (`keys[i]` is an upper bound of subtree `i`, and a
strict lower bound for subtree `i+1`), which is what searching needs;
`highKeyEqB` checks the *equality* form (`keys[i]` is the maximum of
subtree `i` and equals `highest(children[i])`). -/

def sortedB : List Nat → Bool
  | [] => true
  | [_] => true
  | a :: b :: t => a < b && sortedB (b :: t)

/-- Bound check for one child: every key of the child's subtree is
`≤ hi`, and (when a left neighbour key exists) `> lo`. -/
def childBoundsB (fuel : Nat) : Option Nat → List Nat → List Node → Bool
  | _, [], [] => true
  | lo, k :: ks, c :: cs =>
    (nodeKeysF fuel c).all (fun x =>
      decide (x ≤ k) && (match lo with | none => true | some l2 => decide (l2 < x)))
      && childBoundsB fuel (some k) ks cs
  | _, _, _ => false

/-- Structural well-formedness of a node of height `h` (the fuel): a leaf
at height 0 with equal-length, sorted, non-empty key/value lists within
the leaf fanout, or a branch at height `h ≥ 1` with sorted keys, matching
children count, children of the lower height each well-formed and within
the recorded key bounds, and at least one and at most `Bcap` children. -/
def wfNodeB (Lcap Bcap : Nat) : Nat → Node → Bool
  | 0, .leaf l =>
    decide (l.keys.length = l.values.length) && sortedB l.keys
      && decide (1 ≤ l.len) && decide (l.len ≤ Lcap)
  | 0, .branch _ _ _ => false
  | _ + 1, .leaf _ => false
  | h + 1, .branch hh ks cs =>
    decide (hh = h + 1) && decide (ks.length = cs.length) && sortedB ks
      && decide (1 ≤ ks.length) && decide (ks.length ≤ Bcap)
      && cs.all (wfNodeB Lcap Bcap h)
      && childBoundsB h none ks cs

/-- The C4 invariant: in every branch of the subtree, `keys[i]` equals the
maximum key of subtree `children[i]`, and equals `highest(children[i])`. -/
def highKeyEqB : Nat → Node → Bool
  | _, .leaf _ => true
  | 0, .branch _ _ _ => false
  | fuel + 1, .branch _ ks cs =>
    decide (ks.length = cs.length)
      && cs.all (highKeyEqB fuel)
      && (ks.zip cs).all fun p =>
        decide (p.2.highestKey = p.1)
          && (nodeKeysF fuel p.2).all (fun x => decide (x ≤ p.1))
          && decide (p.1 ∈ nodeKeysF fuel p.2)

/-! ## Lookup (src/branch.rs `Branch::get`, src/lib.rs `PalmTree::get`) -/

/-- `Branch::get` (src/branch.rs 169-182): loop `find_key` over the high
keys; descend into the child when `height > 1`, else finish with
`Leaf::get` on the leaf child.  `fuel` bounds the loop (height is
enough). -/
def nodeGet : Nat → Node → Nat → Option Nat
  | 0, _, _ => none
  | _ + 1, .leaf _, _ => none
  | fuel + 1, .branch h ks cs, key =>
    match find_key ks key with
    | none => none
    | some i =>
      if h > 1 then nodeGet fuel (cs.getD i nullNode) key
      else
        match cs.getD i nullNode with
        | .leaf l => l.get key
        | .branch _ _ _ => none

/-! ## The tree façade (src/lib.rs) -/

/-- `PalmTree`: an element count and an optional root branch. -/
structure PTree where
  size : Nat
  root : Option Node

/-- `PalmTree::new`. -/
def newTree : PTree := ⟨0, none⟩

/-- `PalmTree::get` (src/lib.rs 198-204). -/
def treeGet (t : PTree) (key : Nat) : Option Nat :=
  match t.root with
  | none => none
  | some r => nodeGet (r.heightOf + 1) r key

/-- `PalmTree::len`. -/
def treeLen (t : PTree) : Nat := t.size

/-- `Branch::new(height)`. -/
def newBranch (h : Nat) : Node := .branch h [] []

/-- `parent.push_key(child.highest()); parent.push_branch/push_leaf(child)`
as used by `load` (src/lib.rs 110-111, 143-144, 168-169). -/
def branchPushChild (parent child : Node) : Node :=
  match parent with
  | .branch h ks cs => .branch h (ks ++ [child.highestKey]) (cs ++ [child])
  | .leaf l => .leaf l

/-- `push_stack` (src/lib.rs 95-113): push a finished child node into the
stack of partially built spine branches, starting a new parent of the
same height when the current one is full.  The stack's top is the list
head (the source pushes/pops at the end of a `Vec`). -/
def pushStack (Bcap : Nat) : Node → List Node → List Node
  | child, [] => [branchPushChild (newBranch (child.heightOf + 1)) child]
  | child, parent :: rest =>
    if parent.branchIsFull Bcap then
      branchPushChild (newBranch parent.heightOf) child :: pushStack Bcap parent rest
    else
      branchPushChild parent child :: rest

/-- The state of `load`'s input loop: element count, spine stack, current
level-1 parent, current leaf. -/
structure LoadState where
  size : Nat
  stack : List Node
  parent : Node
  leaf : LeafN

/-- One iteration of `load`'s input loop (src/lib.rs 125-153): flush the
leaf into the parent when full (flushing the parent into the stack when
it is full in turn), then push the pair onto the leaf. -/
def loadStep (Lcap Bcap : Nat) (s : LoadState) (kv : Nat × Nat) : LoadState :=
  let s1 :=
    if s.leaf.isFull Lcap then
      if s.parent.branchIsFull Bcap then
        { s with stack := pushStack Bcap s.parent s.stack,
                 parent := branchPushChild (newBranch 1) (.leaf s.leaf),
                 leaf := nullLeaf }
      else
        { s with parent := branchPushChild s.parent (.leaf s.leaf), leaf := nullLeaf }
    else s
  { s1 with
      leaf := ⟨s1.leaf.keys ++ [kv.1], s1.leaf.values ++ [kv.2]⟩,
      size := s1.size + 1 }

/-- The stack-folding loop of `load` (src/lib.rs 175-178):
`while stack.len() > 1 { push_stack(stack.pop(), stack) }`.  The fuel
`3 * length + 3` dominates the loop's potential. -/
def foldStackF (Bcap : Nat) : Nat → List Node → List Node
  | 0, stack => stack
  | fuel + 1, stack =>
    match stack with
    | x :: y :: rest => foldStackF Bcap fuel (pushStack Bcap x (y :: rest))
    | _ => stack

/-- `trim_root`'s loop (src/lib.rs 360-367): while the root is a branch
of branches with a single child, replace it by that child
(`remove_last_branch`). -/
def trimRootLoop : Nat → Node → Node
  | 0, n => n
  | fuel + 1, n =>
    if n.hasBranches && n.branchLen = 1 then
      trimRootLoop fuel (n.childrenOf.getD (n.childrenOf.length - 1) nullNode)
    else n

def trimRoot (t : PTree) : PTree :=
  match t.root with
  | none => t
  | some r => ⟨t.size, some (trimRootLoop (r.heightOf + 1) r)⟩

/-- The tail of `PalmTree::load` after the input loop (src/lib.rs
155-186): flush the last leaf and parent, fold the stack and trim. -/
def loadFinish (Lcap Bcap : Nat) (s : LoadState) : PTree :=
  let _ := Lcap
  if s.size = 0 then ⟨0, none⟩
  else
    let (stack1, parent1) :=
      if s.parent.branchIsFull Bcap then (pushStack Bcap s.parent s.stack, newBranch 1)
      else (s.stack, s.parent)
    let parent2 := branchPushChild parent1 (.leaf s.leaf)
    let stack2 := pushStack Bcap parent2 stack1
    let stack3 := foldStackF Bcap (3 * stack2.length + 3) stack2
    trimRoot ⟨s.size, stack3.head?⟩

/-- `PalmTree::load` (src/lib.rs 91-187): fill one leaf at a time from
the ordered stream, flushing full leaves into level-1 parents and full
parents up the stack; at the end flush the last leaf and parent, fold
the stack into a single root, and trim it.  An empty stream yields the
empty tree. -/
def load (Lcap Bcap : Nat) (input : List (Nat × Nat)) : PTree :=
  loadFinish Lcap Bcap (input.foldl (loadStep Lcap Bcap) ⟨0, [], newBranch 1, nullLeaf⟩)

/-- Entries of the whole tree, in storage order. -/
def treeEntries (t : PTree) : List (Nat × Nat) :=
  match t.root with
  | none => []
  | some r => entriesF (r.heightOf + 1) r

/-! ## The pathed pointer (src/search.rs `PathedPointer`)

The source cursor is a fixed stack of `(branch pointer, child index)`
frames plus a leaf pointer and a slot.  The model replaces each pointer
by the child-index path (a `List Nat`) locating that node below the root,
so a frame is `(location, index)`; the recorded index is an `Int`, as in
the source (`isize`), because `step_forward` pushes `-1` sentinel frames.
A null cursor has `leaf = none`.  The stack's top is the list's last
element, as in the source `ArrayVec`. -/

structure Cursor where
  stack : List (List Nat × Int)
  leaf : Option (List Nat)
  slot : Nat
deriving Repr

def nullCursor : Cursor := ⟨[], none, 0⟩

/-- `walk_path` (src/search.rs 128-149): from the branch at `loc`,
repeatedly `find_key` the high keys, pushing a `(branch, index)` frame
and descending while the node has branch children; ends at a leaf
location, or `none` when some branch's keys are all below `key`.
`fuel` bounds the descent (the height is enough). -/
def walkPath (root : Node) (key : Nat) :
    Nat → List Nat → List (List Nat × Int) → Option (List (List Nat × Int) × List Nat)
  | 0, _, _ => none
  | fuel + 1, loc, stack =>
    let b := nodeAt root loc
    match find_key b.branchKeys key with
    | none => none
    | some i =>
      let stack' := stack ++ [(loc, (i : Int))]
      if b.hasBranches then walkPath root key fuel (loc ++ [i]) stack'
      else some (stack', loc ++ [i])

/-- `PathedPointer::exact_key` (src/search.rs 181-200): walk the path for
`key`; on success binary-search the leaf, giving `Ok(cursor)` on an exact
match or `Err(cursor)` at the insertion slot; when the walk fails the
result is `Err` with the null cursor.  The `Result` is flattened to
`(found?, cursor)` with `found? = true` modelling `Ok`. -/
def exactKeyR (root : Node) (key : Nat) : Bool × Cursor :=
  match walkPath root key (root.heightOf + 1) [] [] with
  | none => (false, nullCursor)
  | some (stack, leafLoc) =>
    match binarySearch (leafAt root leafLoc).keys key with
    | .ok i => (true, ⟨stack, some leafLoc, i⟩)
    | .error i => (false, ⟨stack, some leafLoc, i⟩)

/-- `PathedPointer::lowest` (src/search.rs 282-301): descend through
index 0, pushing frames, to slot 0 of the leftmost leaf; null on an
empty branch. -/
def lowestCursor (root : Node) : Nat → List Nat → List (List Nat × Int) → Cursor
  | 0, _, _ => nullCursor
  | fuel + 1, loc, stack =>
    let b := nodeAt root loc
    if b.branchIsEmpty then nullCursor
    else
      let stack' := stack ++ [(loc, (0 : Int))]
      if b.hasBranches then lowestCursor root fuel (loc ++ [0]) stack'
      else ⟨stack', some (loc ++ [0]), 0⟩

/-- `PathedPointer::highest` (src/search.rs 304-325): descend through the
last index, pushing frames, to the last slot of the rightmost leaf. -/
def highestCursor (root : Node) : Nat → List Nat → List (List Nat × Int) → Cursor
  | 0, _, _ => nullCursor
  | fuel + 1, loc, stack =>
    let b := nodeAt root loc
    if b.branchIsEmpty then nullCursor
    else
      let i := b.branchLen - 1
      let stack' := stack ++ [(loc, (i : Int))]
      if b.hasBranches then highestCursor root fuel (loc ++ [i]) stack'
      else ⟨stack', some (loc ++ [i]), (leafAt root (loc ++ [i])).len - 1⟩

/-- The stack walk of `step_forward` (src/search.rs 336-366): pop a
frame, advance its index; descend into a successor child through `-1`
sentinel frames, or keep popping when the branch is exhausted.  Returns
the new stack and leaf location, or `none` when the stack runs out. -/
def stepForwardLoop (root : Node) : Nat → List (List Nat × Int) → Option (List (List Nat × Int) × List Nat)
  | 0, _ => none
  | fuel + 1, stack =>
    match stack.getLast? with
    | none => none
    | some (loc, idx) =>
      let stack0 := stack.dropLast
      let b := nodeAt root loc
      let idx1 := idx + 1
      if idx1 < (b.branchLen : Int) then
        let stack1 := stack0 ++ [(loc, idx1)]
        if b.hasBranches then
          stepForwardLoop root fuel (stack1 ++ [(loc ++ [idx1.toNat], (-1 : Int))])
        else some (stack1, loc ++ [idx1.toNat])
      else stepForwardLoop root fuel stack0

/-- `PathedPointer::step_forward` (src/search.rs 331-370): advance the
slot; roll over to the next leaf through the stack when the leaf is
exhausted.  Returns `false` and the cleared cursor past the last entry. -/
def stepForward (root : Node) (c : Cursor) : Bool × Cursor :=
  match c.leaf with
  | none => (true, c)
  | some leafLoc =>
    let slot1 := c.slot + 1
    if slot1 ≥ (leafAt root leafLoc).len then
      match stepForwardLoop root (c.stack.length + 2 * root.heightOf + 4) c.stack with
      | some (stack', newLeaf) => (true, ⟨stack', some newLeaf, 0⟩)
      | none => (false, ⟨[], none, slot1⟩)
    else (true, ⟨c.stack, some leafLoc, slot1⟩)

/-- The stack walk of `step_back` (src/search.rs 380-410), symmetric to
`stepForwardLoop`: descend into predecessor children through `len`
sentinel frames. -/
def stepBackLoop (root : Node) : Nat → List (List Nat × Int) → Option (List (List Nat × Int) × List Nat)
  | 0, _ => none
  | fuel + 1, stack =>
    match stack.getLast? with
    | none => none
    | some (loc, idx) =>
      let stack0 := stack.dropLast
      let b := nodeAt root loc
      if idx > 0 then
        let idx1 := idx - 1
        let stack1 := stack0 ++ [(loc, idx1)]
        if b.hasBranches then
          let child := loc ++ [idx1.toNat]
          stepBackLoop root fuel (stack1 ++ [(child, ((nodeAt root child).branchLen : Int))])
        else some (stack1, loc ++ [idx1.toNat])
      else stepBackLoop root fuel stack0

/-- `PathedPointer::step_back` (src/search.rs 375-414). -/
def stepBack (root : Node) (c : Cursor) : Bool × Cursor :=
  match c.leaf with
  | none => (true, c)
  | some leafLoc =>
    if c.slot > 0 then (true, ⟨c.stack, some leafLoc, c.slot - 1⟩)
    else
      match stepBackLoop root (c.stack.length + 2 * root.heightOf + 4) c.stack with
      | some (stack', newLeaf) =>
        (true, ⟨stack', some newLeaf, (leafAt root newLeaf).len - 1⟩)
      | none => (false, ⟨[], none, c.slot⟩)

/-- Modelled from the spec: the `Branch::remove_leaf`/`Branch::remove_branch`
of the current-generation branch module, whose file is not in the tree
(only its callers are — e.g. src/search.rs 463, 480 destructure
`let (removed_key, removed_child) = branch.remove_leaf(index)`).  Per
spec §4.5 step 3, removing child `i` removes both `keys[i]` and
`children[i]`; the removed pair is returned. -/
def branchRemoveAt (n : Node) (i : Nat) : (Nat × Node) × Node :=
  match n with
  | .branch h ks cs =>
    ((ks.getD i 0, cs.getD i nullNode), .branch h (ks.eraseIdx i) (cs.eraseIdx i))
  | .leaf l => ((0, nullNode), .leaf l)

/-- The cleanup walk of `PathedPointer::remove` (src/search.rs 424-437),
over the reversed stack (top first): remove the newly emptied child from
its parent, continuing while parents empty in turn. -/
def removeCleanup : Node → List (List Nat × Int) → Node
  | root, [] => root
  | root, (loc, idx) :: rest =>
    let root' := updateAt root loc (fun b => (branchRemoveAt b idx.toNat).2)
    if (nodeAt root' loc).branchIsEmpty then removeCleanup root' rest
    else root'

/-- `PathedPointer::remove` (src/search.rs 419-440): take the pair out of
the leaf; when the leaf empties, walk the recorded path upwards removing
the emptied child at each parent, stopping at the first parent left
non-empty. -/
def cursorRemove (root : Node) (c : Cursor) : (Nat × Nat) × Node :=
  match c.leaf with
  | none => ((0, 0), root)
  | some leafLoc =>
    let l := leafAt root leafLoc
    let (kv, l') := l.removeAt c.slot
    let root' := updateAt root leafLoc (fun _ => .leaf l')
    if l'.isEmpty then (kv, removeCleanup root' c.stack.reverse)
    else (kv, root')

/-- `PalmTree::remove` (src/lib.rs 267-276): `exact_key`, then cursor
removal and a size decrement; `none` when the key is absent. -/
def treeRemove (t : PTree) (key : Nat) : Option (Nat × Nat) × PTree :=
  match t.root with
  | none => (none, t)
  | some root =>
    match exactKeyR root key with
    | (true, c) =>
      let (kv, root') := cursorRemove root c
      (some kv, ⟨t.size - 1, some root'⟩)
    | (false, _) => (none, t)

/-- `PalmTree::remove_lowest` (src/lib.rs 278-286). -/
def treeRemoveLowest (t : PTree) : Option (Nat × Nat) × PTree :=
  if t.size = 0 then (none, t)
  else
    match t.root with
    | none => (none, t)
    | some root =>
      let c := lowestCursor root (root.heightOf + 1) [] []
      let (kv, root') := cursorRemove root c
      (some kv, ⟨t.size - 1, some root'⟩)

/-- `PalmTree::remove_highest` (src/lib.rs 288-296). -/
def treeRemoveHighest (t : PTree) : Option (Nat × Nat) × PTree :=
  if t.size = 0 then (none, t)
  else
    match t.root with
    | none => (none, t)
    | some root =>
      let c := highestCursor root (root.heightOf + 1) [] []
      let (kv, root') := cursorRemove root c
      (some kv, ⟨t.size - 1, some root'⟩)

/-! ## Insertion (src/search.rs `PathedPointer::insert`/`push_last`,
src/entry.rs, src/lib.rs `insert`/`split_root`) -/

/-- Modelled from the spec: `Branch::split` of the current-generation
branch module, whose file is not in the tree (src/search.rs 464, 481 and
src/lib.rs 250 call it).  Per spec §4.3, splitting yields two branches
whose child lists are the original's halves, high keys carried over
unchanged; the left half takes `len / 2` children (as in the older
`Branch::split` retained in src/branch.rs 130-138, via
`Chunk::from_front(half)`). -/
def branchSplit : Node → Node × Node
  | .branch h ks cs =>
    let half := ks.length / 2
    (.branch h (ks.take half) (cs.take half), .branch h (ks.drop half) (cs.drop half))
  | .leaf l => (.leaf l, .leaf l)

/-- The split dispatch of `PathedPointer::insert`: `Branch::split` when
the popped frame's branch has branch children, `Leaf::split` when it has
leaf children. -/
def nodeSplit : Node → Node × Node
  | .leaf l => (.leaf l.split.1, .leaf l.split.2)
  | .branch h ks cs => branchSplit (.branch h ks cs)

/-- Modelled from the spec: `Branch::insert_branch_pair` /
`Branch::insert_leaf_pair` of the missing branch module (called at
src/search.rs 471-477, 488-494): shift keys and children right by two
from `i` and write the two key/child pairs there (cf. the inline-array
`insert_pair`, src/array.rs 117-127). -/
def branchInsertPair (n : Node) (i : Nat) (k1 : Nat) (c1 : Node) (k2 : Nat) (c2 : Node) : Node :=
  match n with
  | .branch h ks cs =>
    .branch h (ks.take i ++ [k1, k2] ++ ks.drop i) (cs.take i ++ [c1, c2] ++ cs.drop i)
  | .leaf l => .leaf l

/-- Outcome of a cursor insertion: the rewritten root, the `Err((k, v))`
"root is full" signal, or `stuck` for paths the source declares
unreachable (`unreachable!`, `expect_err`) and for fuel exhaustion. -/
inductive InsertOutcome where
  | ok (root : Node)
  | fullSig (key value : Nat)
  | stuck

/-- The split-and-retry loop of `PathedPointer::insert`
(src/search.rs 456-534).  Each iteration pops the deepest frame; a full
branch is skipped; otherwise the child at the recorded index is removed,
split, and the two halves reinserted with the left half's highest key,
the new key's half is chosen by comparison with that key, and the walk
descends from the chosen half to a leaf (pushing fresh frames); a
non-full leaf receives the key at its binary-search slot, a full one
sends the loop back to popping.  An exhausted stack returns the `Full`
signal. -/
def insertLoop (Lcap Bcap : Nat) (key value : Nat) :
    Nat → Node → List (List Nat × Int) → InsertOutcome
  | 0, _, _ => .stuck
  | fuel + 1, root, stack =>
    match stack.getLast? with
    | none => .fullSig key value
    | some (loc, idxI) =>
      let stack0 := stack.dropLast
      let idx := idxI.toNat
      let b := nodeAt root loc
      if ¬ b.branchIsFull Bcap then
        let rc := branchRemoveAt b idx
        let removedKey := rc.1.1
        let halves := nodeSplit rc.1.2
        let leftHighest := halves.1.highestKey
        let chooseIdx := if key ≤ leftHighest then idx else idx + 1
        let b2 := branchInsertPair rc.2 idx leftHighest halves.1 removedKey halves.2
        let root' := updateAt root loc (fun _ => b2)
        let found :=
          if b.hasBranches then
            walkPath root' key (root'.heightOf + 1) (loc ++ [chooseIdx]) stack0
          else some (stack0, loc ++ [chooseIdx])
        match found with
        | none => .stuck
        | some (stack1, leafLoc) =>
          let l := leafAt root' leafLoc
          if ¬ l.isFull Lcap then
            match binarySearch l.keys key with
            | .error i =>
              .ok (updateAt root' leafLoc (fun _ => .leaf (l.insertAt i key value)))
            | .ok _ => .stuck
          else insertLoop Lcap Bcap key value fuel root' stack1
      else insertLoop Lcap Bcap key value fuel root stack0

/-- `PathedPointer::insert` (src/search.rs 449-536): insert in place when
the cursor's leaf is not full, else run the split loop over the recorded
stack. -/
def cursorInsert (Lcap Bcap : Nat) (root : Node) (c : Cursor) (key value : Nat)
    (fuel : Nat) : InsertOutcome :=
  match c.leaf with
  | none => .stuck
  | some leafLoc =>
    let l := leafAt root leafLoc
    if ¬ l.isFull Lcap then
      .ok (updateAt root leafLoc (fun _ => .leaf (l.insertAt c.slot key value)))
    else insertLoop Lcap Bcap key value fuel root c.stack

def setBranchKey (i : Nat) (key : Nat) : Node → Node
  | .branch h ks cs => .branch h (ks.set i key) cs
  | .leaf l => .leaf l

/-- The right-spine walk of `PathedPointer::push_last`
(src/search.rs 549-561): at each level overwrite the last high key with
the new key and push the frame, descending through last children to the
rightmost leaf.  The source's `debug_assert!(branch.highest() < &key)` is
omitted (release semantics); the claims address where it can fire. -/
def pushLastWalk (key : Nat) :
    Nat → Node → List Nat → List (List Nat × Int) → Node × List (List Nat × Int) × List Nat
  | 0, root, loc, stack => (root, stack, loc)
  | fuel + 1, root, loc, stack =>
    let b := nodeAt root loc
    let i := b.branchLen - 1
    let root' := updateAt root loc (setBranchKey i key)
    let stack' := stack ++ [(loc, (i : Int))]
    if b.hasBranches then pushLastWalk key fuel root' (loc ++ [i]) stack'
    else (root', stack', loc ++ [i])

/-- `PathedPointer::push_last` (src/search.rs 543-565): the right-spine
walk, then the ordinary cursor insertion at the end slot of the
rightmost leaf. -/
def pushLast (Lcap Bcap : Nat) (root : Node) (key value : Nat) (fuel : Nat) : InsertOutcome :=
  let w := pushLastWalk key (root.heightOf + 1) root [] []
  cursorInsert Lcap Bcap w.1 ⟨w.2.1, some w.2.2, (leafAt w.1 w.2.2).len⟩ key value fuel

/-- `PalmTree::split_root` (src/lib.rs 248-255): replace the root with a
one-higher branch holding the two halves of the old root under their
highest keys. -/
def splitRoot (root : Node) : Node :=
  let halves := branchSplit root
  .branch (root.heightOf + 1) [halves.1.highestKey, halves.2.highestKey] [halves.1, halves.2]

/-- Fuel that dominates the `PathedPointer::insert` loop for a tree of
the given root. -/
def insertFuel (root : Node) : Nat := (root.heightOf + 2) * (root.heightOf + 3) + 8

/-- `VacantEntry::insert` (src/entry.rs 73-111): a fresh unit root for
the empty tree; otherwise `push_last` for a null cursor or the cursor
insertion, bumping the size on success; on the `Full` signal split the
root, rebuild the cursor with `exact_key(..).unwrap_err()` and retry.
`none` models the source's unreachable panics (and fuel exhaustion). -/
def vacantInsert (Lcap Bcap : Nat) :
    Nat → PTree → Cursor → Nat → Nat → Option PTree
  | 0, _, _, _, _ => none
  | fuel + 1, t, c, key, value =>
    if t.size = 0 then
      some ⟨1, some (.branch 1 [key] [.leaf ⟨[key], [value]⟩])⟩
    else
      match t.root with
      | none => none
      | some root =>
        let result :=
          if c.leaf.isNone then pushLast Lcap Bcap root key value (insertFuel root)
          else cursorInsert Lcap Bcap root c key value (insertFuel root)
        match result with
        | .ok root' => some ⟨t.size + 1, some root'⟩
        | .fullSig k v =>
          let root' := splitRoot root
          match exactKeyR root' k with
          | (false, c') => vacantInsert Lcap Bcap fuel ⟨t.size, some root'⟩ c' k v
          | (true, _) => none
        | .stuck => none

/-- `PalmTree::insert` (src/lib.rs 257-265) through `Entry::new`
(src/entry.rs 29-42): an occupied entry replaces the value in place and
returns the old one; a vacant entry runs `VacantEntry::insert` and
returns `None`.  The outer `Option` is the model's `stuck` sentinel for
the source's unreachable panics. -/
def treeInsert (Lcap Bcap : Nat) (t : PTree) (key value : Nat) :
    Option (Option Nat × PTree) :=
  let retries := (match t.root with | none => 0 | some r => r.heightOf) + 4
  match t.root with
  | none =>
    match vacantInsert Lcap Bcap retries t nullCursor key value with
    | some t' => some (none, t')
    | none => none
  | some root =>
    match exactKeyR root key with
    | (true, c) =>
      match c.leaf with
      | some leafLoc =>
        let l := leafAt root leafLoc
        let old := l.values.getD c.slot 0
        some (some old,
          ⟨t.size, some (updateAt root leafLoc (fun _ => .leaf ⟨l.keys, l.values.set c.slot value⟩))⟩)
      | none => none
    | (false, c) =>
      match vacantInsert Lcap Bcap retries t c key value with
      | some t' => some (none, t')
      | none => none

/-! ## Range bounds and iterator construction (src/iter/mod.rs) -/

/-- `find_key_or_next` (src/search.rs 64-80): the same loop as
`find_key`, with no emptiness or final bounds check. -/
def findKeyOrNext (keys : List Nat) (key : Nat) : Nat :=
  findKeyLoop keys key 0 (keys.length - 1) keys.length

/-- The loop of `find_key_or_prev` (src/search.rs 85-101):
`mid = (low+high+1)/2; if keys[mid] > key { high = mid-1 } else { low = mid }`. -/
def findKeyPrevLoop (keys : List Nat) (key : Nat) : Nat → Nat → Nat → Nat
  | low, _, 0 => low
  | low, high, fuel + 1 =>
    if low < high then
      if keys.getD ((low + high + 1) / 2) 0 > key then
        findKeyPrevLoop keys key low ((low + high + 1) / 2 - 1) fuel
      else
        findKeyPrevLoop keys key ((low + high + 1) / 2) high fuel
    else low

def findKeyOrPrev (keys : List Nat) (key : Nat) : Nat :=
  findKeyPrevLoop keys key 0 (keys.length - 1) keys.length

/-- `PathedPointer::key_or_higher` (src/search.rs 203-224): walk to the
leaf for `key`, take `find_key_or_next`'s slot, and step forward once
when the slot's key is still below `key` (null when stepping fails). -/
def keyOrHigher (root : Node) (key : Nat) : Cursor :=
  match walkPath root key (root.heightOf + 1) [] [] with
  | none => nullCursor
  | some (stack, leafLoc) =>
    let idx := findKeyOrNext (leafAt root leafLoc).keys key
    let c : Cursor := ⟨stack, some leafLoc, idx⟩
    if (leafAt root leafLoc).keys.getD idx 0 < key then
      match stepForward root c with
      | (true, c') => c'
      | (false, _) => nullCursor
    else c

/-- `PathedPointer::higher_than_key` (src/search.rs 227-243). -/
def higherThanKey (root : Node) (key : Nat) : Cursor :=
  match walkPath root key (root.heightOf + 1) [] [] with
  | none => nullCursor
  | some (stack, leafLoc) =>
    let idx := findKeyOrNext (leafAt root leafLoc).keys key
    let c : Cursor := ⟨stack, some leafLoc, idx⟩
    if (leafAt root leafLoc).keys.getD idx 0 = key then
      match stepForward root c with
      | (true, c') => c'
      | (false, _) => nullCursor
    else c

/-- `PathedPointer::key_or_lower` (src/search.rs 246-257): note the
source takes `find_key_or_next`'s slot without a backward adjustment;
walk failure falls back to the highest cursor. -/
def keyOrLower (root : Node) (key : Nat) : Cursor :=
  match walkPath root key (root.heightOf + 1) [] [] with
  | none => highestCursor root (root.heightOf + 1) [] []
  | some (stack, leafLoc) =>
    ⟨stack, some leafLoc, findKeyOrNext (leafAt root leafLoc).keys key⟩

/-- `PathedPointer::lower_than_key` (src/search.rs 260-279). -/
def lowerThanKey (root : Node) (key : Nat) : Cursor :=
  match walkPath root key (root.heightOf + 1) [] [] with
  | none => highestCursor root (root.heightOf + 1) [] []
  | some (stack, leafLoc) =>
    let idx := findKeyOrPrev (leafAt root leafLoc).keys key
    let c : Cursor := ⟨stack, some leafLoc, idx⟩
    if key ≤ (leafAt root leafLoc).keys.getD idx 0 then
      match stepBack root c with
      | (true, c') => c'
      | (false, _) => nullCursor
    else c

/-- `std::ops::Bound`. -/
inductive RBound where
  | included (key : Nat)
  | excluded (key : Nat)
  | unbounded
deriving Repr, DecidableEq

/-- The two panic guards at the top of `paths_from_range`
(src/iter/mod.rs 33-46): equal mutually excluding bounds, and a start
bound greater than the end bound. -/
def rangePanics (lo hi : RBound) : Bool :=
  (match lo, hi with
   | .excluded l, .excluded r => decide (l = r)
   | _, _ => false) ||
  (match lo, hi with
   | .included l, .included r => decide (l > r)
   | .included l, .excluded r => decide (l > r)
   | .excluded l, .included r => decide (l > r)
   | .excluded l, .excluded r => decide (l > r)
   | _, _ => false)

/-- `paths_from_range` (src/iter/mod.rs 21-75): panic on an invalid
range (modelled as `.error`); otherwise build the left cursor from the
start bound and the right cursor from the end bound, `none` when either
is null or the tree has no root. -/
def pathsFromRange (t : PTree) (lo hi : RBound) : Except String (Option (Cursor × Cursor)) :=
  if (match lo, hi with | .excluded l, .excluded r => decide (l = r) | _, _ => false) then
    .error "PalmTreeIter: start and end bounds are equal and excluding each other"
  else if (match lo, hi with
           | .included l, .included r => decide (l > r)
           | .included l, .excluded r => decide (l > r)
           | .excluded l, .included r => decide (l > r)
           | .excluded l, .excluded r => decide (l > r)
           | _, _ => false) then
    .error "PalmTreeIter: range start is greater than range end"
  else
    .ok (match t.root with
      | none => none
      | some root =>
        let left := match lo with
          | .included key => keyOrHigher root key
          | .excluded key => higherThanKey root key
          | .unbounded => lowestCursor root (root.heightOf + 1) [] []
        if left.leaf.isNone then none
        else
          let right := match hi with
            | .included key => keyOrLower root key
            | .excluded key => lowerThanKey root key
            | .unbounded => highestCursor root (root.heightOf + 1) [] []
          if right.leaf.isNone then none
          else some (left, right))

/-! ## The shared-reference iterator (src/iter/ref_iter.rs) -/

structure RIter where
  left : Cursor
  right : Cursor

def clearCursor (c : Cursor) : Cursor := ⟨c.stack, none, c.slot⟩

/-- `Iter::new` (src/iter/ref_iter.rs 48-57): the cursor pair from
`paths_from_range`, or the null iterator. -/
def riterNew (t : PTree) (lo hi : RBound) : Except String RIter :=
  (pathsFromRange t lo hi).map fun
    | some (l, r) => ⟨l, r⟩
    | none => ⟨nullCursor, nullCursor⟩

/-- `Iter::next` (src/iter/ref_iter.rs 101-119): stop (clearing both
cursors) when the left key exceeds the right, emit-and-clear on equality,
else emit and step the left cursor forward. -/
def riterNext (root : Node) (it : RIter) : Option (Nat × Nat) × RIter :=
  match it.left.leaf, it.right.leaf with
  | some lloc, some rloc =>
    let lk := (leafAt root lloc).keys.getD it.left.slot 0
    let rk := (leafAt root rloc).keys.getD it.right.slot 0
    if lk > rk then (none, ⟨clearCursor it.left, clearCursor it.right⟩)
    else
      let v := (leafAt root lloc).values.getD it.left.slot 0
      if lk = rk then (some (lk, v), ⟨clearCursor it.left, clearCursor it.right⟩)
      else (some (lk, v), ⟨(stepForward root it.left).2, it.right⟩)
  | _, _ => (none, it)

/-- `Iter::next_back` (src/iter/ref_iter.rs 128-146). -/
def riterNextBack (root : Node) (it : RIter) : Option (Nat × Nat) × RIter :=
  match it.left.leaf, it.right.leaf with
  | some lloc, some rloc =>
    let lk := (leafAt root lloc).keys.getD it.left.slot 0
    let rk := (leafAt root rloc).keys.getD it.right.slot 0
    if lk > rk then (none, ⟨clearCursor it.left, clearCursor it.right⟩)
    else
      let v := (leafAt root rloc).values.getD it.right.slot 0
      if lk = rk then (some (rk, v), ⟨clearCursor it.left, clearCursor it.right⟩)
      else (some (rk, v), ⟨it.left, (stepBack root it.right).2⟩)
  | _, _ => (none, it)

/-- Collect the forward iteration (`fuel` bounds the number of `next`
calls; `size + 1` is enough). -/
def riterCollect (root : Node) : Nat → RIter → List (Nat × Nat)
  | 0, _ => []
  | fuel + 1, it =>
    match riterNext root it with
    | (none, _) => []
    | (some kv, it') => kv :: riterCollect root fuel it'

/-- `PalmTree::iter()` collected to a list: the full-range iterator. -/
def treeIterList (t : PTree) : List (Nat × Nat) :=
  match riterNew t .unbounded .unbounded with
  | .error _ => []
  | .ok it =>
    match t.root with
    | none => []
    | some root => riterCollect root (t.size + 1) it

/-- The continuation of the forward iteration after the cursor leaves a
subtree whose frames sat above the stack `S`: the outcome of the
stack walk on `S` with the fuel `step_forward` supplies at that point. -/
def iterCont (root : Node) (R : Cursor) (fuel : Nat) (S : List (List Nat × Int)) :
    List (Nat × Nat) :=
  match stepForwardLoop root (S.length + 2 * root.heightOf + 4) S with
  | some (S2, lf2) => riterCollect root fuel ⟨⟨S2, some lf2, 0⟩, R⟩
  | none => []

/-- The `PartialEq` implementation for `PalmTree` (src/lib.rs 456-466):
`self.len() == other.len() && self.iter().eq(other.iter())`. -/
def treeEqModel (t1 t2 : PTree) : Bool :=
  treeLen t1 == treeLen t2 && treeIterList t1 == treeIterList t2

/-! ## The owning iterator (src/iter/owned.rs) -/

structure OIter where
  tree : Option Node
  left : Cursor
  right : Cursor
  remaining : Nat

/-- `OwnedIter::new` (src/iter/owned.rs 29-45). -/
def ownedIterNew (root : Option Node) (remaining : Nat) : OIter :=
  match root with
  | some r =>
    ⟨some r, lowestCursor r (r.heightOf + 1) [] [],
     highestCursor r (r.heightOf + 1) [] [], remaining⟩
  | none => ⟨none, nullCursor, nullCursor, remaining⟩

/-- One pass of the loop in `OwnedIter::next` (src/iter/owned.rs 60-71):
`Sum.inl` is the loop continuing with the new state, `Sum.inr` a return. -/
def onextStep (s : OIter) : OIter ⊕ (Option (Nat × Nat) × OIter) :=
  match s.tree with
  | none => .inr (none, s)
  | some root =>
    match s.left.leaf with
    | none => .inr (none, s)
    | some lloc =>
      let l := leafAt root lloc
      if l.keys.isEmpty then .inl { s with left := (stepForward root s.left).2 }
      else
        match l.popFront with
        | some (kv, l') =>
          .inr (some kv,
            { s with tree := some (updateAt root lloc (fun _ => .leaf l')),
                     remaining := s.remaining - 1 })
        | none => .inr (none, s)

/-- One pass of the loop in `OwnedIter::next_back`
(src/iter/owned.rs 89-100).  Note that on an emptied right leaf the
source steps `self.left.step_back()` — the *left* cursor. -/
def obackStep (s : OIter) : OIter ⊕ (Option (Nat × Nat) × OIter) :=
  match s.tree with
  | none => .inr (none, s)
  | some root =>
    match s.right.leaf with
    | none => .inr (none, s)
    | some rloc =>
      let l := leafAt root rloc
      if l.keys.isEmpty then .inl { s with left := (stepBack root s.left).2 }
      else
        match l.popBack with
        | some (kv, l') =>
          .inr (some kv,
            { s with tree := some (updateAt root rloc (fun _ => .leaf l')),
                     remaining := s.remaining - 1 })
        | none => .inr (none, s)

/-- Run a loop body until it returns, within `fuel` passes; `none` means
the loop was still running when the fuel ran out. -/
def runSteps (step : OIter → OIter ⊕ (Option (Nat × Nat) × OIter)) :
    Nat → OIter → Option (Option (Nat × Nat) × OIter)
  | 0, _ => none
  | fuel + 1, s =>
    match step s with
    | .inl s' => runSteps step fuel s'
    | .inr r => some r

/-- `OwnedIter::next` (src/iter/owned.rs 56-72). -/
def onext (fuel : Nat) (s : OIter) : Option (Option (Nat × Nat) × OIter) :=
  if s.tree.isNone then some (none, s) else runSteps onextStep fuel s

/-- `OwnedIter::next_back` (src/iter/owned.rs 85-101). -/
def onextBack (fuel : Nat) (s : OIter) : Option (Option (Nat × Nat) × OIter) :=
  if s.tree.isNone then some (none, s) else runSteps obackStep fuel s

/-! ## The merge iterator (src/iter/merge.rs) -/

inductive MNext where
  | left
  | right
deriving Repr, DecidableEq

/-- The streams are modelled as lists; `nextLeft`/`nextRight` are the
buffered heads (`MergeIter`'s fields), `left`/`right` the unconsumed
tails. -/
structure MergeSt (A : Type) where
  left : List A
  right : List A
  nextLeft : Option A
  nextRight : Option A
  next : MNext

/-- `MergeIter::choose_next` (src/iter/merge.rs 42-48). -/
def chooseNext {A : Type} (cmp : A → A → Bool) : Option A → Option A → MNext
  | some l, some r => if cmp l r then .right else .left
  | none, some _ => .right
  | _, _ => .left

/-- `MergeIter::check_eq` (src/iter/merge.rs 50-59): when the two
buffered heads are equal, drop the one on the side `next` does not
prefer, refilling it from its stream. -/
def checkEq {A : Type} (eq : A → A → Bool) (s : MergeSt A) : MergeSt A :=
  match s.nextLeft, s.nextRight with
  | some l, some r =>
    if eq l r then
      match s.next with
      | .left => { s with nextRight := s.right.head?, right := s.right.tail }
      | .right => { s with nextLeft := s.left.head?, left := s.left.tail }
    else s
  | _, _ => s

/-- `MergeIter::merge` (src/iter/merge.rs 25-40). -/
def mergeInit {A : Type} (cmp eq : A → A → Bool) (l r : List A) : MergeSt A :=
  let nextLeft := l.head?
  let nextRight := r.head?
  checkEq eq ⟨l.tail, r.tail, nextLeft, nextRight, chooseNext cmp nextLeft nextRight⟩

/-- `MergeIter::next` (src/iter/merge.rs 71-79). -/
def mergeNext {A : Type} (cmp eq : A → A → Bool) (s : MergeSt A) : Option A × MergeSt A :=
  let (res, s1) :=
    match s.next with
    | .left => (s.nextLeft, { s with nextLeft := s.left.head?, left := s.left.tail })
    | .right => (s.nextRight, { s with nextRight := s.right.head?, right := s.right.tail })
  let s2 := { s1 with next := chooseNext cmp s1.nextLeft s1.nextRight }
  (res, checkEq eq s2)

/-- Collect the merge iterator (`fuel` ≥ both stream lengths + 1). -/
def mergeRun {A : Type} (cmp eq : A → A → Bool) : Nat → MergeSt A → List A
  | 0, _ => []
  | fuel + 1, s =>
    match mergeNext cmp eq s with
    | (none, _) => []
    | (some a, s') => a :: mergeRun cmp eq fuel s'

/-- The comparator and equality of `merge_left_from` (src/lib.rs
298-308): `|(l, _), (r, _)| l > r` and key equality. -/
def mergeLeftList (l r : List (Nat × Nat)) : List (Nat × Nat) :=
  mergeRun (fun a b => decide (a.1 > b.1)) (fun a b => decide (a.1 = b.1))
    (l.length + r.length + 1)
    (mergeInit (fun a b => decide (a.1 > b.1)) (fun a b => decide (a.1 = b.1)) l r)

/-- The comparator of `merge_right_from` (src/lib.rs 310-320):
`|(l, _), (r, _)| l >= r`. -/
def mergeRightList (l r : List (Nat × Nat)) : List (Nat × Nat) :=
  mergeRun (fun a b => decide (a.1 ≥ b.1)) (fun a b => decide (a.1 = b.1))
    (l.length + r.length + 1)
    (mergeInit (fun a b => decide (a.1 ≥ b.1)) (fun a b => decide (a.1 = b.1)) l r)

/-- The reference merge: union of two sorted streams, preferring the
left or right element on equal keys. -/
def unionWithPref (preferLeft : Bool) : Nat → List (Nat × Nat) → List (Nat × Nat) → List (Nat × Nat)
  | 0, _, _ => []
  | _ + 1, [], r => r
  | _ + 1, a :: l, [] => a :: l
  | fuel + 1, a :: l, b :: r =>
    if a.1 < b.1 then a :: unionWithPref preferLeft fuel l (b :: r)
    else if b.1 < a.1 then b :: unionWithPref preferLeft fuel (a :: l) r
    else (if preferLeft then a else b) :: unionWithPref preferLeft fuel l r

/-- The shared shape of the two merge comparators: strict key comparison
for `merge_left`, non-strict for `merge_right`. -/
def mcmp (pref : Bool) (a b : Nat × Nat) : Bool :=
  if pref then decide (a.1 > b.1) else decide (a.1 ≥ b.1)

/-- The equality predicate of both merge entry points: key equality. -/
def keyEq (a b : Nat × Nat) : Bool := decide (a.1 = b.1)

/-- Key order on pairs, for sortedness statements. -/
abbrev keyLt (a b : Nat × Nat) : Prop := a.1 < b.1

/-- The two remaining virtual streams of a merge state: the buffered
head followed by the unconsumed tail. -/
def vstreamL (s : MergeSt (Nat × Nat)) : List (Nat × Nat) := s.nextLeft.toList ++ s.left

def vstreamR (s : MergeSt (Nat × Nat)) : List (Nat × Nat) := s.nextRight.toList ++ s.right

/-- Entries of a node at its own height (the canonical fuel). -/
def entriesOf (n : Node) : List (Nat × Nat) := entriesF n.heightOf n

/-- Keys of a node's subtree at its own height. -/
def keysOf (n : Node) : List Nat := nodeKeysF n.heightOf n

/-- A completed node of height `h`: structurally well-formed with the
exact high-key equality invariant. -/
def goodNode (Lcap Bcap h : Nat) (n : Node) : Bool :=
  wfNodeB Lcap Bcap h n && highKeyEqB h n

/-- A well-formed tree: the root (when present) is a good branch of its
recorded height, and the cached size matches the entry count.  The
`h = 0` root case never occurs (roots are branches). -/
def goodTree (Lcap Bcap : Nat) (t : PTree) : Prop :=
  match t.root with
  | none => t.size = 0
  | some r => 1 ≤ r.heightOf ∧ goodNode Lcap Bcap r.heightOf r = true ∧
      t.size = (entriesOf r).length

/-- Bound-form well-formedness of a tree, the invariant iteration needs:
the root (when present) is a bound-form well-formed branch of its
recorded height — or the emptied branch `remove` leaves behind when the
last entry goes — and the cached size matches the entry count.  Unlike
`goodTree` this does not include the high-key *equality* invariant,
which `remove` breaks (stale ancestor high keys); iteration is driven by
structure and leaf keys alone, so equality-form staleness is harmless. -/
def wfTreeB (Lcap Bcap : Nat) (t : PTree) : Bool :=
  match t.root with
  | none => decide (t.size = 0)
  | some r =>
    decide (1 ≤ r.heightOf) && decide (t.size = (entriesOf r).length) &&
      (wfNodeB Lcap Bcap r.heightOf r
        || (decide (r.branchKeys.length = 0) && decide (r.childrenOf.length = 0)))

/-- The invariant of `load`'s spine stack: heights are contiguous from
`h` at the head upward, every element a good (partial) branch. -/
def StackGood (Lcap Bcap : Nat) : Nat → List Node → Prop
  | _, [] => True
  | h, n :: rest =>
    n.heightOf = h ∧ goodNode Lcap Bcap h n = true ∧ StackGood Lcap Bcap (h + 1) rest

/-- The flattened contents of the spine stack, oldest (deepest) first. -/
def stackFlat (stack : List Node) : List (Nat × Nat) :=
  (stack.reverse.map entriesOf).flatten

/-- The number of full branches on the stack. -/
def fullCount (Bcap : Nat) (stack : List Node) : Nat :=
  (stack.filter (fun n => n.branchIsFull Bcap)).length

/-- Termination potential of the stack-folding loop of `load`. -/
def stackPhi (Bcap : Nat) (stack : List Node) : Nat :=
  2 * stack.length + fullCount Bcap stack

/-- The invariant of `load`'s input loop: the consumed prefix of the
stream is laid out, in order, across the spine stack, the level-1 parent
and the current leaf; every finished node is good, the leaf is within
capacity, and the stack heights ascend from 2. -/
def LoadInv (Lcap Bcap : Nat) (consumed : List (Nat × Nat)) (s : LoadState) : Prop :=
  s.size = consumed.length ∧
  consumed = stackFlat s.stack ++ entriesOf s.parent ++ s.leaf.keys.zip s.leaf.values ∧
  s.leaf.keys.length = s.leaf.values.length ∧
  s.leaf.len ≤ Lcap ∧
  (s.parent = newBranch 1 ∨ goodNode Lcap Bcap 1 s.parent = true) ∧
  s.parent.heightOf = 1 ∧
  s.parent.branchLen ≤ Bcap ∧
  StackGood Lcap Bcap 2 s.stack ∧
  (consumed ≠ [] → 1 ≤ s.leaf.len)

/-! ## Concrete scenarios used by the analysis

All of these use the smallest admissible fanouts `B = L = 4` (the crate
requires both to exceed 3) so that multi-level trees stay small. -/

/-- `load` of `(1,1) … (17,17)`: a height-2 tree with root keys
`[16, 17]`, left child over four full leaves, right child over `[(17,17)]`. -/
def c1Tree0 : PTree := load 4 4 ((List.range 17).map fun i => (i + 1, i + 1))

/-- The same tree after removing 13, 14, 15 and 16: the left height-1
child loses its last leaf and its key 16, but the root keeps the stale
high key 16 above a subtree whose keys now end at 12. -/
def c1Tree : PTree :=
  (treeRemove (treeRemove (treeRemove (treeRemove c1Tree0 13).2 14).2 15).2 16).2

/-- `c1Tree.insert(14, 100)`: `exact_key` fails mid-descent on the stale
key, so the insert takes the `push_last` fast path. -/
def c1After1 : PTree := ((treeInsert 4 4 c1Tree 14 100).getD (none, newTree)).2

/-- The result of the second `insert(14, 200)`. -/
def c1Result : Option Nat × PTree := (treeInsert 4 4 c1After1 14 200).getD (none, newTree)

/-- The five-pair load at `B = L = 4`: leaves `[1..4]` and `[5]`. -/
def c5Pairs : List (Nat × Nat) := [(1, 1), (2, 2), (3, 3), (4, 4), (5, 5)]

/-- The owning iterator over that tree. -/
def c5Iter : OIter := ownedIterNew (load 4 4 c5Pairs).root 5

/-- The iterator state after the first `next_back` (which yields `(5,5)`
and leaves the rightmost leaf empty). -/
def c5S1 : OIter := ((onextBack 50 c5Iter).getD (none, c5Iter)).2

/-- The state after one pass of the second `next_back`'s loop: the right
leaf is empty, so the loop steps (and thereby nulls) the *left* cursor. -/
def c5S2 : OIter :=
  match obackStep c5S1 with
  | .inl s => s
  | .inr r => r.2

/-- A full five-element leaf with keys `1..5` (an odd length). -/
def c7Leaf : LeafN := ⟨[1, 2, 3, 4, 5], [10, 20, 30, 40, 50]⟩

/-- The two-pair tree for the C4 counterexample. -/
def c4Tree0 : PTree := load 4 4 [(1, 10), (2, 20)]

/-- The same tree after `remove(&2)`: the leaf drops to `[1]` but the
root branch keeps the high key 2. -/
def c4Tree : PTree := (treeRemove c4Tree0 2).2

/-- The one-pair tree for the C3 counterexample. -/
def c3Tree : PTree := load 4 4 [(1, 10)]

/-- `c3Tree.insert(1, 20)`: the key is present, so the value is replaced. -/
def c3After : PTree := ((treeInsert 4 4 c3Tree 1 20).getD (none, newTree)).2

/-- `… .remove(&1)`: the single entry disappears entirely. -/
def c3Final : PTree := (treeRemove c3After 1).2

/-! ## Properties -/

theorem firstGE_le_length (keys : List Nat) (key : Nat) :
    firstGE keys key ≤ keys.length := by
  unfold firstGE
  exact (List.takeWhile_prefix _).length_le

theorem getD_lt_of_lt_firstGE {keys : List Nat} {key : Nat} {j : Nat}
    (h : j < firstGE keys key) : keys.getD j 0 < key := by
  induction keys generalizing j with
  | nil => simp [firstGE] at h
  | cons a as ih =>
    unfold firstGE at h
    by_cases ha : a < key
    · simp [List.takeWhile_cons, ha] at h
      cases j with
      | zero => simpa using ha
      | succ j =>
        simp only [List.getD_cons_succ]
        exact ih (by simpa [firstGE] using Nat.lt_of_succ_lt_succ h)
    · simp [List.takeWhile_cons, ha] at h

theorem le_getD_firstGE {keys : List Nat} {key : Nat}
    (h : firstGE keys key < keys.length) : key ≤ keys.getD (firstGE keys key) 0 := by
  induction keys with
  | nil => simp at h
  | cons a as ih =>
    by_cases ha : a < key
    · have hfge : firstGE (a :: as) key = firstGE as key + 1 := by
        simp [firstGE, List.takeWhile_cons, ha]
      rw [hfge]
      simp only [List.getD_cons_succ]
      apply ih
      rw [hfge] at h
      simpa using Nat.lt_of_succ_lt_succ h
    · have hfge : firstGE (a :: as) key = 0 := by
        simp [firstGE, List.takeWhile_cons, ha]
      rw [hfge]
      simpa using Nat.le_of_not_lt ha

theorem sorted_getD_lt {keys : List Nat} (h : keys.Pairwise (· < ·)) {i j : Nat}
    (hij : i < j) (hj : j < keys.length) : keys.getD i 0 < keys.getD j 0 := by
  rw [List.getD_eq_getElem keys 0 (by omega), List.getD_eq_getElem keys 0 hj]
  rw [List.pairwise_iff_getElem] at h
  exact h i j (by omega) hj hij

theorem getD_firstGE_le {keys : List Nat} {key : Nat} (h : keys.Pairwise (· < ·))
    {j : Nat} (hfj : firstGE keys key ≤ j) (hj : j < keys.length) :
    key ≤ keys.getD j 0 := by
  rcases Nat.eq_or_lt_of_le hfj with heq | hlt
  · rw [← heq]; exact le_getD_firstGE (heq ▸ hj)
  · have h1 : key ≤ keys.getD (firstGE keys key) 0 := le_getD_firstGE (by omega)
    exact le_of_lt (lt_of_le_of_lt h1 (sorted_getD_lt h hlt hj))

/-- The binary-search loop computes the first index `≥ key` within
`[low, high]`, clamped to that interval, whenever the fuel covers the
interval width. -/
theorem findKeyLoop_eq {keys : List Nat} {key : Nat} (h : keys.Pairwise (· < ·)) :
    ∀ fuel low high, high < keys.length → low ≤ high → high - low ≤ fuel →
      findKeyLoop keys key low high fuel = max low (min (firstGE keys key) high) := by
  intro fuel
  induction fuel with
  | zero =>
    intro low high _ hlh hf
    have : low = high := by omega
    subst this
    simp [findKeyLoop]
  | succ fuel ih =>
    intro low high hhl hlh hf
    rcases Nat.eq_or_lt_of_le hlh with heq | hlow
    · subst heq
      simp [findKeyLoop]
    · have hmid_lo : low ≤ (low + high) / 2 := by omega
      have hmid_hi : (low + high) / 2 < high := by omega
      have hmid_len : (low + high) / 2 < keys.length := by omega
      by_cases hcmp : keys.getD ((low + high) / 2) 0 < key
      · have hrec := ih ((low + high) / 2 + 1) high hhl (by omega) (by omega)
        have hfge : (low + high) / 2 + 1 ≤ firstGE keys key := by
          by_contra hc
          have h1 : firstGE keys key ≤ (low + high) / 2 := by omega
          have := getD_firstGE_le h h1 hmid_len
          omega
        rw [findKeyLoop]
        simp only [if_pos hlow, if_pos hcmp]
        rw [hrec]
        omega
      · have hrec := ih low ((low + high) / 2) (by omega) (by omega) (by omega)
        have hfge : firstGE keys key ≤ (low + high) / 2 := by
          by_contra hc
          have h1 := @getD_lt_of_lt_firstGE keys key ((low + high) / 2) (by omega)
          omega
        rw [findKeyLoop]
        simp only [if_pos hlow, if_neg hcmp]
        rw [hrec]
        omega

/-- `find_key` computes `firstGE`, returning `none` when no element is
`≥ key`, provided the keys are strictly ascending. -/
theorem find_key_eq {keys : List Nat} {key : Nat} (h : keys.Pairwise (· < ·)) :
    find_key keys key =
      if firstGE keys key < keys.length then some (firstGE keys key) else none := by
  unfold find_key
  by_cases hlen : keys.length = 0
  · simp [hlen]
  · have hloop := @findKeyLoop_eq keys key h keys.length 0 (keys.length - 1)
      (by omega) (by omega) (by omega)
    simp only [if_neg hlen]
    rw [hloop]
    have hfle := firstGE_le_length keys key
    by_cases hf : firstGE keys key < keys.length
    · have hval : max 0 (min (firstGE keys key) (keys.length - 1)) = firstGE keys key := by
        omega
      rw [hval, if_pos hf]
      have hge : ¬ (firstGE keys key = keys.length ∨ keys.getD (firstGE keys key) 0 < key) := by
        push_neg
        refine ⟨by omega, ?_⟩
        exact le_getD_firstGE hf
      rw [if_neg hge]
    · have hval : max 0 (min (firstGE keys key) (keys.length - 1)) = keys.length - 1 := by
        omega
      rw [hval, if_neg hf]
      have hlt : keys.getD (keys.length - 1) 0 < key := getD_lt_of_lt_firstGE (by omega)
      rw [if_pos (Or.inr hlt)]

/-- C8: for a strictly ascending key slice, `find_key(keys, k)` returns
`Some i` exactly when `i` is the least index with `keys[i] ≥ k` (in
particular `i` is in bounds), and returns `None` exactly when every
element of `keys` is less than `k`; on the empty slice it returns `None`. -/
theorem find_key_spec (keys : List Nat) (key : Nat)
    (h : keys.Pairwise (· < ·)) :
    (∀ i, find_key keys key = some i ↔
      i < keys.length ∧ key ≤ keys.getD i 0 ∧ ∀ j, j < i → keys.getD j 0 < key) ∧
    (find_key keys key = none ↔ ∀ x ∈ keys, x < key) := by
  have heq := @find_key_eq keys key h
  constructor
  · intro i
    constructor
    · intro hi
      rw [heq] at hi
      by_cases hf : firstGE keys key < keys.length
      · rw [if_pos hf] at hi
        injection hi with hi
        subst hi
        exact ⟨hf, le_getD_firstGE hf, fun j hj => getD_lt_of_lt_firstGE hj⟩
      · rw [if_neg hf] at hi; cases hi
    · rintro ⟨hlen, hgei, hltj⟩
      have hif : firstGE keys key = i := by
        by_contra hne
        rcases Nat.lt_or_ge (firstGE keys key) i with hlt | hge
        · have := hltj _ hlt
          have h2 := @le_getD_firstGE keys key (by omega)
          omega
        · have hgt : i < firstGE keys key := by omega
          have := getD_lt_of_lt_firstGE hgt
          omega
      rw [heq, hif, if_pos hlen]
  · rw [heq]
    constructor
    · intro hnone x hx
      by_cases hf : firstGE keys key < keys.length
      · rw [if_pos hf] at hnone; cases hnone
      · rcases List.mem_iff_getElem.mp hx with ⟨j, hj, hxj⟩
        have : keys.getD j 0 < key := getD_lt_of_lt_firstGE (by
          have := firstGE_le_length keys key
          omega)
        rw [List.getD_eq_getElem keys 0 hj] at this
        omega
    · intro hall
      by_cases hf : firstGE keys key < keys.length
      · exfalso
        have h1 := @le_getD_firstGE keys key hf
        have h2 : keys.getD (firstGE keys key) 0 ∈ keys := by
          rw [List.getD_eq_getElem keys 0 hf]
          exact List.getElem_mem hf
        have := hall _ h2
        omega
      · rw [if_neg hf]

/-- Witness for `find_key_spec` at a concrete sorted slice. -/
theorem find_key_spec_witness :
    List.Pairwise (· < ·) [2, 4, 6, 8] ∧
      (find_key [2, 4, 6, 8] 5 = some 2 ↔
        2 < 4 ∧ 5 ≤ 6 ∧ ∀ j, j < 2 → [2, 4, 6, 8].getD j 0 < 5) := by
  refine ⟨by decide, ?_⟩
  have h := (find_key_spec [2, 4, 6, 8] 5 (by decide)).1 2
  simpa using h

/-- C1: insertion is not a map update on every reachable tree.  On the
tree reached by `load [(1,1)…(17,17)]` (at fanout 4) followed by
`remove(&13) … remove(&16)`, the key 14 is absent, yet
`insert(14, 100); insert(14, 200)` returns `None` from the second call
(the claim requires `Some(100)`), leaves *two* slots holding key 14, and
afterwards `get(&14)` is `None`.  The root's stale high key 16 makes
`exact_key` fail mid-descent, so both inserts take the `push_last` right-
spine path, whose own `debug_assert!(branch.highest() < &key)`
(src/search.rs 553) is violated here. -/
theorem insert_is_not_a_map_update_on_reachable_tree :
    treeGet c1Tree 14 = none ∧
    (treeInsert 4 4 c1Tree 14 100).map Prod.fst = some none ∧
    (treeInsert 4 4 c1After1 14 200).map Prod.fst = some none ∧
    ((treeEntries c1Result.2).filter (fun p => p.1 == 14)).length = 2 ∧
    c1Result.2.size = 15 ∧
    treeGet c1Result.2 14 = none := by
  refine ⟨rfl, rfl, rfl, rfl, rfl, rfl⟩

/-- C5: the owning iterator's `next_back` steps the wrong cursor.  Over
the two-leaf tree `load [(1,1)…(5,5)]` (fanout 4), the first `next_back`
yields `(5,5)` and empties the right leaf; the second `next_back` never
returns: its loop keeps re-examining the empty right leaf while stepping
the *left* cursor back (src/iter/owned.rs 95), reaching a state that the
loop body maps to itself, with 4 entries still unconsumed. -/
theorem owned_next_back_loses_entries :
    (onextBack 50 c5Iter).map Prod.fst = some (some (5, 5)) ∧
    c5S1.remaining = 4 ∧
    onextBack 1000 c5S1 = none ∧
    obackStep c5S2 = Sum.inl c5S2 := by
  refine ⟨rfl, rfl, rfl, rfl⟩

/-- C6 counterexample: on equal keys `merge_left` emits the *left*
stream's element and `merge_right` the *right* stream's — the opposite
of the claimed tie-breaking. -/
theorem merge_tie_break_counterexample :
    mergeLeftList [(0, 1)] [(0, 2)] = [(0, 1)] ∧
    mergeRightList [(0, 1)] [(0, 2)] = [(0, 2)] ∧
    mergeLeftList [(0, 1)] [(0, 2)] ≠ [(0, 2)] ∧
    mergeRightList [(0, 1)] [(0, 2)] ≠ [(0, 1)] := by
  refine ⟨rfl, rfl, by decide, by decide⟩

/-- C7: splitting a leaf of odd length `n = 5` does not partition it:
the left half keeps `⌈n/2⌉ = 3` entries, but the right half exposes
slots `[2, 4)` — entry 3 appears in both halves and entry 5 is lost
(`split` records the right length as `n/2` while `steal_from` copies
from index `n/2`). -/
theorem leaf_split_loses_entry_on_odd_length :
    c7Leaf.split.1 = ⟨[1, 2, 3], [10, 20, 30]⟩ ∧
    c7Leaf.split.2 = ⟨[3, 4], [30, 40]⟩ ∧
    c7Leaf.split.1.keys ++ c7Leaf.split.2.keys ≠ c7Leaf.keys ∧
    (c7Leaf.split.1.keys ++ c7Leaf.split.2.keys).count 3 = 2 ∧
    (c7Leaf.split.1.keys ++ c7Leaf.split.2.keys).count 5 = 0 := by
  refine ⟨rfl, rfl, by decide, by decide, by decide⟩

/-- C4 counterexample: after `load [(1,10), (2,20)]` and `remove(&2)` —
both public operations — the root branch still carries the high key 2
over a subtree whose only (and hence maximum) key is 1, which is also
what `highest` returns for the child; the claimed equality invariant
fails on this reachable tree. -/
theorem high_key_equality_fails_after_remove :
    c4Tree.root = some (.branch 1 [2] [.leaf ⟨[1], [10]⟩]) ∧
    highKeyEqB 2 (.branch 1 [2] [.leaf ⟨[1], [10]⟩]) = false ∧
    (Node.branch 1 [2] [.leaf ⟨[1], [10]⟩]).branchKeys.getD 0 0 = 2 ∧
    nodeKeysF 2 (Node.leaf ⟨[1], [10]⟩) = [1] ∧
    (Node.leaf ⟨[1], [10]⟩).highestKey = 1 := by
  refine ⟨rfl, rfl, rfl, rfl, rfl⟩

/-- C3 counterexample: with `T = load [(1,10)]` (key 1 already present),
`T.insert(1,20); T.remove(&1)` leaves the empty map, not a map equal by
iteration to `T`, and the size drops to 0 rather than returning to 1. -/
theorem insert_remove_does_not_restore_when_present :
    treeEntries c3Tree = [(1, 10)] ∧ c3Tree.size = 1 ∧
    treeEntries c3Final = [] ∧ c3Final.size = 0 := by
  refine ⟨rfl, rfl, rfl, rfl⟩

/-- The error cases of `pathsFromRange` are exactly the two panic
guards. -/
theorem pathsFromRange_error_iff (t : PTree) (lo hi : RBound) :
    (∃ msg, pathsFromRange t lo hi = .error msg) ↔ rangePanics lo hi = true := by
  unfold pathsFromRange rangePanics
  split_ifs with h1 h2 <;> simp_all

/-- C9: for every tree (the empty tree included), constructing a range
iterator panics exactly when the two bounds are excluded and equal, or
when the start bound's key is strictly greater than the end bound's key;
in every other case construction returns an iterator. -/
theorem range_construction_panics_iff (t : PTree) (lo hi : RBound) :
    ((∃ msg, pathsFromRange t lo hi = .error msg) ↔
      ((∃ k, lo = RBound.excluded k ∧ hi = RBound.excluded k) ∨
       (∃ a b, a > b ∧ (lo = RBound.included a ∨ lo = RBound.excluded a) ∧
         (hi = RBound.included b ∨ hi = RBound.excluded b)))) ∧
    ((¬ ∃ msg, pathsFromRange t lo hi = .error msg) →
      ∃ it, riterNew t lo hi = .ok it) := by
  constructor
  · rw [pathsFromRange_error_iff]
    cases lo <;> cases hi <;> simp [rangePanics] <;> omega
  · intro hne
    unfold riterNew
    cases hpr : pathsFromRange t lo hi with
    | error m => exact absurd ⟨m, hpr⟩ hne
    | ok v =>
      cases v with
      | none => exact ⟨⟨nullCursor, nullCursor⟩, rfl⟩
      | some p =>
        obtain ⟨l, r⟩ := p
        exact ⟨⟨l, r⟩, rfl⟩

/-! ### Merge iterator correctness -/

theorem headD_toList_append {A : Type} (l : List A) : l.head?.toList ++ l.tail = l := by
  cases l <;> rfl

theorem unionWithPref_fuel_eq (pref : Bool) :
    ∀ f1 f2 (l r : List (Nat × Nat)), l.length + r.length < f1 →
      l.length + r.length < f2 →
      unionWithPref pref f1 l r = unionWithPref pref f2 l r := by
  intro f1
  induction f1 with
  | zero => intro f2 l r h1 _; omega
  | succ f1 ih =>
    intro f2 l r h1 h2
    cases f2 with
    | zero => omega
    | succ f2 =>
      cases l with
      | nil => cases r <;> rfl
      | cons a l =>
        cases r with
        | nil => rfl
        | cons b r =>
          simp only [List.length_cons] at h1 h2
          have e1 : l.length + (b :: r).length < f1 := by
            simp only [List.length_cons]; omega
          have e2 : l.length + (b :: r).length < f2 := by
            simp only [List.length_cons]; omega
          have e3 : (a :: l).length + r.length < f1 := by
            simp only [List.length_cons]; omega
          have e4 : (a :: l).length + r.length < f2 := by
            simp only [List.length_cons]; omega
          have e5 : l.length + r.length < f1 := by omega
          have e6 : l.length + r.length < f2 := by omega
          simp only [unionWithPref]
          split_ifs with hab hba <;>
            first
              | rw [ih f2 l (b :: r) e1 e2]
              | rw [ih f2 (a :: l) r e3 e4]
              | rw [ih f2 l r e5 e6]

theorem unionWithPref_nil_left (pref : Bool) (fuel : Nat) (r : List (Nat × Nat))
    (h : 0 < fuel) : unionWithPref pref fuel [] r = r := by
  cases fuel with
  | zero => omega
  | succ f => cases r <;> rfl

theorem unionWithPref_nil_right (pref : Bool) (fuel : Nat) (l : List (Nat × Nat))
    (h : 0 < fuel) : unionWithPref pref fuel l [] = l := by
  cases fuel with
  | zero => omega
  | succ f => cases l <;> rfl

theorem unionWithPref_mem (pref : Bool) :
    ∀ fuel (l r : List (Nat × Nat)) (p : Nat × Nat),
      p ∈ unionWithPref pref fuel l r → p ∈ l ∨ p ∈ r := by
  intro fuel
  induction fuel with
  | zero => intro l r p hp; simp [unionWithPref] at hp
  | succ fuel ih =>
    intro l r p hp
    cases l with
    | nil => cases r with
      | nil => simp [unionWithPref] at hp
      | cons b r => right; simpa [unionWithPref] using hp
    | cons a l =>
      cases r with
      | nil => left; simpa [unionWithPref] using hp
      | cons b r =>
        simp only [unionWithPref] at hp
        split_ifs at hp with hab hba hpf
        · rcases List.mem_cons.mp hp with h | h
          · left; simp [h]
          · rcases ih l (b :: r) p h with h2 | h2
            · left; simp [h2]
            · right; exact h2
        · rcases List.mem_cons.mp hp with h | h
          · right; simp [h]
          · rcases ih (a :: l) r p h with h2 | h2
            · left; exact h2
            · right; simp [h2]
        · rcases List.mem_cons.mp hp with h | h
          · left; simp [h]
          · rcases ih l r p h with h2 | h2
            · left; simp [h2]
            · right; simp [h2]
        · rcases List.mem_cons.mp hp with h | h
          · right; simp [h]
          · rcases ih l r p h with h2 | h2
            · left; simp [h2]
            · right; simp [h2]

theorem unionWithPref_sorted (pref : Bool) :
    ∀ fuel (l r : List (Nat × Nat)), l.Pairwise keyLt → r.Pairwise keyLt →
      (unionWithPref pref fuel l r).Pairwise keyLt := by
  intro fuel
  induction fuel with
  | zero => intro l r _ _; simp [unionWithPref]
  | succ fuel ih =>
    intro l r hl hr
    cases l with
    | nil => cases r with
      | nil => simp [unionWithPref]
      | cons b r => simpa [unionWithPref] using hr
    | cons a l =>
      cases r with
      | nil => simpa [unionWithPref] using hl
      | cons b r =>
        rcases List.pairwise_cons.mp hl with ⟨hal, hl'⟩
        rcases List.pairwise_cons.mp hr with ⟨hbr, hr'⟩
        simp only [unionWithPref]
        split_ifs with hab hba hpf
        · refine List.pairwise_cons.mpr ⟨?_, ih l (b :: r) hl' hr⟩
          intro q hq
          rcases unionWithPref_mem pref fuel l (b :: r) q hq with h | h
          · exact hal q h
          · rcases List.mem_cons.mp h with h2 | h2
            · rw [h2]; exact hab
            · exact lt_trans hab (hbr q h2)
        · refine List.pairwise_cons.mpr ⟨?_, ih (a :: l) r hl hr'⟩
          intro q hq
          rcases unionWithPref_mem pref fuel (a :: l) r q hq with h | h
          · rcases List.mem_cons.mp h with h2 | h2
            · rw [h2]; exact hba
            · exact lt_trans hba (hal q h2)
          · exact hbr q h
        · refine List.pairwise_cons.mpr ⟨?_, ih l r hl' hr'⟩
          intro q hq
          rcases unionWithPref_mem pref fuel l r q hq with h | h
          · exact hal q h
          · have := hbr q h; simp only [keyLt] at *; omega
        · refine List.pairwise_cons.mpr ⟨?_, ih l r hl' hr'⟩
          intro q hq
          rcases unionWithPref_mem pref fuel l r q hq with h | h
          · have := hal q h; simp only [keyLt] at *; omega
          · exact hbr q h

theorem unionWithPref_mem_keys (pref : Bool) :
    ∀ fuel (l r : List (Nat × Nat)), l.length + r.length < fuel → ∀ k,
      (k ∈ (unionWithPref pref fuel l r).map Prod.fst ↔
        k ∈ l.map Prod.fst ∨ k ∈ r.map Prod.fst) := by
  intro fuel
  induction fuel with
  | zero => intro l r h; omega
  | succ fuel ih =>
    intro l r hf k
    cases l with
    | nil => cases r with
      | nil => simp [unionWithPref]
      | cons b r => simp [unionWithPref]
    | cons a l =>
      cases r with
      | nil => simp [unionWithPref]
      | cons b r =>
        simp only [unionWithPref]
        simp only [List.length_cons] at hf
        split_ifs with hab hba hpf
        · simp only [List.map_cons, List.mem_cons]
          rw [ih l (b :: r) (by simp; omega) k]
          simp [List.mem_cons]
          tauto
        · simp only [List.map_cons, List.mem_cons]
          rw [ih (a :: l) r (by simp; omega) k]
          simp [List.mem_cons]
          tauto
        · have hk : a.1 = b.1 := by omega
          simp only [List.map_cons, List.mem_cons]
          rw [ih l r (by omega) k]
          rw [hk]
          tauto
        · have hk : a.1 = b.1 := by omega
          simp only [List.map_cons, List.mem_cons]
          rw [ih l r (by omega) k]
          rw [hk]
          tauto

theorem unionWithPref_pref_left :
    ∀ fuel (l r : List (Nat × Nat)), l.Pairwise keyLt → r.Pairwise keyLt →
      ∀ p ∈ unionWithPref true fuel l r, p ∈ l ∨ (p ∈ r ∧ p.1 ∉ l.map Prod.fst) := by
  intro fuel
  induction fuel with
  | zero => intro l r _ _ p hp; simp [unionWithPref] at hp
  | succ fuel ih =>
    intro l r hl hr p hp
    cases l with
    | nil =>
      cases r with
      | nil => simp [unionWithPref] at hp
      | cons b r => right; exact ⟨by simpa [unionWithPref] using hp, by simp⟩
    | cons a l =>
      cases r with
      | nil => left; simpa [unionWithPref] using hp
      | cons b r =>
        rcases List.pairwise_cons.mp hl with ⟨hal, hl'⟩
        rcases List.pairwise_cons.mp hr with ⟨hbr, hr'⟩
        simp only [unionWithPref] at hp
        split_ifs at hp with hab hba
        · rcases List.mem_cons.mp hp with h | h
          · left; simp [h]
          · rcases ih l (b :: r) hl' hr p h with h2 | ⟨h2, h3⟩
            · left; simp [h2]
            · right
              refine ⟨h2, ?_⟩
              simp only [List.map_cons, List.mem_cons]
              push_neg
              refine ⟨?_, by simpa using h3⟩
              rcases List.mem_cons.mp h2 with h4 | h4
              · subst h4; omega
              · have := hbr p h4
                simp only [keyLt] at this hab
                omega
        · rcases List.mem_cons.mp hp with h | h
          · right
            refine ⟨by simp [h], ?_⟩
            subst h
            simp only [List.map_cons, List.mem_cons]
            push_neg
            constructor
            · omega
            · intro hmem
              rcases List.mem_map.mp hmem with ⟨q, hq, hq2⟩
              have := hal q hq
              simp only [keyLt] at this hba
              omega
          · rcases ih (a :: l) r hl hr' p h with h2 | ⟨h2, h3⟩
            · left; exact h2
            · right; exact ⟨by simp [h2], h3⟩
        · rcases List.mem_cons.mp hp with h | h
          · left; simp [h]
          · rcases ih l r hl' hr' p h with h2 | ⟨h2, h3⟩
            · left; simp [h2]
            · right
              refine ⟨by simp [h2], ?_⟩
              simp only [List.map_cons, List.mem_cons]
              push_neg
              refine ⟨?_, by simpa using h3⟩
              have := hbr p h2
              simp only [keyLt] at this
              omega

theorem unionWithPref_pref_right :
    ∀ fuel (l r : List (Nat × Nat)), l.Pairwise keyLt → r.Pairwise keyLt →
      ∀ p ∈ unionWithPref false fuel l r, p ∈ r ∨ (p ∈ l ∧ p.1 ∉ r.map Prod.fst) := by
  intro fuel
  induction fuel with
  | zero => intro l r _ _ p hp; simp [unionWithPref] at hp
  | succ fuel ih =>
    intro l r hl hr p hp
    cases l with
    | nil =>
      cases r with
      | nil => simp [unionWithPref] at hp
      | cons b r => left; simpa [unionWithPref] using hp
    | cons a l =>
      cases r with
      | nil => right; exact ⟨by simpa [unionWithPref] using hp, by simp⟩
      | cons b r =>
        rcases List.pairwise_cons.mp hl with ⟨hal, hl'⟩
        rcases List.pairwise_cons.mp hr with ⟨hbr, hr'⟩
        simp only [unionWithPref] at hp
        split_ifs at hp with hab hba
        · rcases List.mem_cons.mp hp with h | h
          · right
            refine ⟨by simp [h], ?_⟩
            subst h
            simp only [List.map_cons, List.mem_cons]
            push_neg
            constructor
            · omega
            · intro hmem
              rcases List.mem_map.mp hmem with ⟨q, hq, hq2⟩
              have := hbr q hq
              simp only [keyLt] at this hab
              omega
          · rcases ih l (b :: r) hl' hr p h with h2 | ⟨h2, h3⟩
            · left; exact h2
            · right; exact ⟨by simp [h2], h3⟩
        · rcases List.mem_cons.mp hp with h | h
          · left; simp [h]
          · rcases ih (a :: l) r hl hr' p h with h2 | ⟨h2, h3⟩
            · left; simp [h2]
            · right
              refine ⟨h2, ?_⟩
              simp only [List.map_cons, List.mem_cons]
              push_neg
              refine ⟨?_, by simpa using h3⟩
              rcases List.mem_cons.mp h2 with h4 | h4
              · subst h4; omega
              · have := hal p h4
                simp only [keyLt] at this hba
                omega
        · simp_all
        · rcases List.mem_cons.mp hp with h | h
          · left; simp [h]
          · rcases ih l r hl' hr' p h with h2 | ⟨h2, h3⟩
            · left; simp [h2]
            · right
              refine ⟨by simp [h2], ?_⟩
              simp only [List.map_cons, List.mem_cons]
              push_neg
              refine ⟨?_, by simpa using h3⟩
              have := hal p h2
              simp only [keyLt] at this
              omega

/-- `check_eq` preserves the merge invariant, removes any tie between the
buffered heads, and leaves the merged union of the two remaining virtual
streams unchanged (the dropped element is exactly the one the union
would discard). -/
theorem checkEq_spec (pref : Bool) (s : MergeSt (Nat × Nat))
    (hl : s.nextLeft = none → s.left = [])
    (hr : s.nextRight = none → s.right = [])
    (hsl : (vstreamL s).Pairwise keyLt)
    (hsr : (vstreamR s).Pairwise keyLt)
    (hn : s.next = chooseNext (mcmp pref) s.nextLeft s.nextRight) :
    ((checkEq keyEq s).nextLeft = none → (checkEq keyEq s).left = []) ∧
    ((checkEq keyEq s).nextRight = none → (checkEq keyEq s).right = []) ∧
    (vstreamL (checkEq keyEq s)).Pairwise keyLt ∧
    (vstreamR (checkEq keyEq s)).Pairwise keyLt ∧
    (checkEq keyEq s).next =
      chooseNext (mcmp pref) (checkEq keyEq s).nextLeft (checkEq keyEq s).nextRight ∧
    (∀ a b, (checkEq keyEq s).nextLeft = some a →
      (checkEq keyEq s).nextRight = some b → a.1 ≠ b.1) ∧
    (vstreamL (checkEq keyEq s)).length + (vstreamR (checkEq keyEq s)).length ≤
      (vstreamL s).length + (vstreamR s).length ∧
    (∀ fuel, (vstreamL s).length + (vstreamR s).length < fuel →
      unionWithPref pref fuel (vstreamL s) (vstreamR s) =
        unionWithPref pref fuel (vstreamL (checkEq keyEq s)) (vstreamR (checkEq keyEq s))) := by
  obtain ⟨L, R, nl, nr, nx⟩ := s
  cases nl with
  | none =>
    refine ⟨hl, hr, hsl, hsr, hn, (by intro a b ha; cases ha), le_refl _, fun _ _ => rfl⟩
  | some l =>
    cases nr with
    | none =>
      refine ⟨hl, hr, hsl, hsr, hn, (by intro a b _ hb; cases hb), le_refl _, fun _ _ => rfl⟩
    | some r =>
      by_cases heq : l.1 = r.1
      · have hkeq : keyEq l r = true := by simp [keyEq, heq]
        simp only [vstreamL, vstreamR] at hsl hsr ⊢
        simp only [Option.toList_some, List.cons_append, List.nil_append] at hsl hsr ⊢
        rcases List.pairwise_cons.mp hsl with ⟨halL, hslL⟩
        rcases List.pairwise_cons.mp hsr with ⟨hbrR, hsrR⟩
        cases pref with
        | true =>
          have hnx : nx = MNext.left := by
            have h2 : nx = chooseNext (mcmp true) (some l) (some r) := hn
            rw [h2]; simp [chooseNext, mcmp]; omega
          subst hnx
          have hck : checkEq keyEq ⟨L, R, some l, some r, .left⟩ =
              ⟨L, R.tail, some l, R.head?, .left⟩ := by
            simp [checkEq, hkeq]
          rw [hck]
          have hRview : R.head?.toList ++ R.tail = R := headD_toList_append R
          refine ⟨(by intro h; cases h), ?_, ?_, ?_, ?_, ?_, ?_, ?_⟩
          · intro h; cases R with
            | nil => rfl
            | cons x xs => simp at h
          · simp only [Option.toList_some, List.cons_append, List.nil_append]
            exact List.pairwise_cons.mpr ⟨halL, hslL⟩
          · simp only [vstreamR]
            rw [hRview]; exact hsrR
          · cases hR : R.head? with
            | none => rfl
            | some r' =>
              have hrR : r' ∈ R := List.mem_of_mem_head? (by simp [hR])
              have h3 := hbrR r' hrR
              simp only [keyLt] at h3
              have h4 : ¬ (l.1 > r'.1) := by omega
              simp [chooseNext, mcmp, h4]
          · intro a b ha hb
            injection ha with ha
            cases hR : R.head? with
            | none => rw [hR] at hb; cases hb
            | some r' =>
              rw [hR] at hb
              injection hb with hb
              have hrR : r' ∈ R := List.mem_of_mem_head? (by simp [hR])
              have h3 := hbrR r' hrR
              simp only [keyLt] at h3
              rw [← ha, ← hb]
              omega
          · simp only [vstreamL, vstreamR, Option.toList_some]
            rw [hRview]
            simp
          · intro fuel hfuel
            simp only [vstreamL, vstreamR, Option.toList_some,
              List.cons_append, List.nil_append] at hfuel ⊢
            rw [hRview]
            cases fuel with
            | zero => omega
            | succ f =>
              simp only [List.length_cons] at hfuel
              have hnl : ¬ l.1 < r.1 := by omega
              have hnr : ¬ r.1 < l.1 := by omega
              simp only [unionWithPref, if_neg hnl, if_neg hnr, if_pos rfl]
              cases R with
              | nil =>
                have : unionWithPref true f L [] = L :=
                  unionWithPref_nil_right true f L (by omega)
                rw [this]
                cases L <;> rfl
              | cons r' R' =>
                have hlr' : l.1 < r'.1 := by
                  have := hbrR r' (by simp)
                  simp only [keyLt] at this
                  omega
                simp only [unionWithPref, if_pos hlr']
                simp
        | false =>
          have hnx : nx = MNext.right := by
            have h2 : nx = chooseNext (mcmp false) (some l) (some r) := hn
            rw [h2]; simp [chooseNext, mcmp]; omega
          subst hnx
          have hck : checkEq keyEq ⟨L, R, some l, some r, .right⟩ =
              ⟨L.tail, R, L.head?, some r, .right⟩ := by
            simp [checkEq, hkeq]
          rw [hck]
          have hLview : L.head?.toList ++ L.tail = L := headD_toList_append L
          refine ⟨?_, (by intro h; cases h), ?_, ?_, ?_, ?_, ?_, ?_⟩
          · intro h; cases L with
            | nil => rfl
            | cons x xs => simp at h
          · simp only [vstreamL]
            rw [hLview]; exact hslL
          · simp only [Option.toList_some, List.cons_append, List.nil_append]
            exact List.pairwise_cons.mpr ⟨hbrR, hsrR⟩
          · cases hL : L.head? with
            | none => rfl
            | some l' =>
              have hlL : l' ∈ L := List.mem_of_mem_head? (by simp [hL])
              have h3 := halL l' hlL
              simp only [keyLt] at h3
              have h4 : r.1 ≤ l'.1 := by omega
              simp [chooseNext, mcmp, h4]
          · intro a b ha hb
            injection hb with hb
            cases hL : L.head? with
            | none => rw [hL] at ha; cases ha
            | some l' =>
              rw [hL] at ha
              injection ha with ha
              have hlL : l' ∈ L := List.mem_of_mem_head? (by simp [hL])
              have h3 := halL l' hlL
              simp only [keyLt] at h3
              rw [← ha, ← hb]
              omega
          · simp only [vstreamL, vstreamR, Option.toList_some]
            rw [hLview]
            simp
          · intro fuel hfuel
            simp only [vstreamL, vstreamR, Option.toList_some,
              List.cons_append, List.nil_append] at hfuel ⊢
            rw [hLview]
            cases fuel with
            | zero => omega
            | succ f =>
              simp only [List.length_cons] at hfuel
              have hnl : ¬ l.1 < r.1 := by omega
              have hnr : ¬ r.1 < l.1 := by omega
              simp only [unionWithPref, if_neg hnl, if_neg hnr]
              cases L with
              | nil =>
                have : unionWithPref false f [] R = R :=
                  unionWithPref_nil_left false f R (by omega)
                simp only [this]
                cases R <;> rfl
              | cons l' L' =>
                have hrl' : r.1 < l'.1 := by
                  have := halL l' (by simp)
                  simp only [keyLt] at this
                  omega
                have hnll : ¬ l'.1 < r.1 := by omega
                simp only [unionWithPref, if_neg hnll, if_pos hrl']
                simp
      · have hkeq : keyEq l r = false := by simp [keyEq, heq]
        have hck : checkEq keyEq ⟨L, R, some l, some r, nx⟩ =
            ⟨L, R, some l, some r, nx⟩ := by
          simp [checkEq, hkeq]
        rw [hck]
        refine ⟨hl, hr, hsl, hsr, hn, ?_, le_refl _, fun _ _ => rfl⟩
        intro a b ha hb
        injection ha with ha
        injection hb with hb
        subst ha; subst hb
        exact heq

/-- The merge iterator, collected, equals the sorted union of its two
remaining virtual streams (left-preferring for `merge_left`'s comparator,
right-preferring for `merge_right`'s). -/
theorem mergeRun_eq_union (pref : Bool) :
    ∀ fuel (s : MergeSt (Nat × Nat)),
      (s.nextLeft = none → s.left = []) →
      (s.nextRight = none → s.right = []) →
      (vstreamL s).Pairwise keyLt →
      (vstreamR s).Pairwise keyLt →
      s.next = chooseNext (mcmp pref) s.nextLeft s.nextRight →
      (∀ a b, s.nextLeft = some a → s.nextRight = some b → a.1 ≠ b.1) →
      (vstreamL s).length + (vstreamR s).length < fuel →
      mergeRun (mcmp pref) keyEq fuel s =
        unionWithPref pref fuel (vstreamL s) (vstreamR s) := by
  intro fuel
  induction fuel with
  | zero => intro s _ _ _ _ _ _ h; omega
  | succ fuel ih =>
    intro s hl hr hsl hsr hn hne hfuel
    obtain ⟨L, R, nl, nr, nx⟩ := s
    cases nl with
    | none =>
      have hL : L = [] := hl rfl
      subst hL
      cases nr with
      | none =>
        have hR : R = [] := hr rfl
        subst hR
        have hnx : nx = MNext.left := hn
        subst hnx
        rfl
      | some r =>
        have hnx : nx = MNext.right := hn
        subst hnx
        have hstep : mergeRun (mcmp pref) keyEq (fuel + 1)
            ⟨[], R, none, some r, .right⟩ =
            r :: mergeRun (mcmp pref) keyEq fuel
              ⟨[], R.tail, none, R.head?, chooseNext (mcmp pref) none R.head?⟩ := by
          rfl
        rw [hstep]
        have hRlen : (vstreamR ⟨[], R, none, some r, MNext.right⟩).length = R.length + 1 := by
          simp [vstreamR]
        have hfr : R.length < fuel := by
          simp [vstreamL, vstreamR] at hfuel
          omega
        have hih := ih ⟨[], R.tail, none, R.head?, chooseNext (mcmp pref) none R.head?⟩
          (fun _ => rfl)
          (fun h => by cases R with
            | nil => rfl
            | cons x xs => simp at h)
          (by simp [vstreamL])
          (by
            simp only [vstreamR, headD_toList_append]
            exact (List.pairwise_cons.mp (by simpa [vstreamR] using hsr)).2)
          rfl
          (by intro a b ha; cases ha)
          (by
            simp only [vstreamL, vstreamR, headD_toList_append]
            simpa using hfr)
        rw [hih]
        simp only [vstreamL, vstreamR, headD_toList_append,
          Option.toList_none, List.nil_append, Option.toList_some, List.cons_append]
        rw [unionWithPref_nil_left pref fuel R (by omega)]
        rfl
    | some l =>
      cases nr with
      | none =>
        have hR : R = [] := hr rfl
        subst hR
        have hnx : nx = MNext.left := hn
        subst hnx
        have hstep : mergeRun (mcmp pref) keyEq (fuel + 1)
            ⟨L, [], some l, none, .left⟩ =
            l :: mergeRun (mcmp pref) keyEq fuel
              ⟨L.tail, [], L.head?, none, chooseNext (mcmp pref) L.head? none⟩ := by
          cases L <;> rfl
        rw [hstep]
        have hfl : L.length < fuel := by
          simp [vstreamL, vstreamR] at hfuel
          omega
        have hih := ih ⟨L.tail, [], L.head?, none, chooseNext (mcmp pref) L.head? none⟩
          (fun h => by cases L with
            | nil => rfl
            | cons x xs => simp at h)
          (fun _ => rfl)
          (by
            simp only [vstreamL, headD_toList_append]
            exact (List.pairwise_cons.mp (by simpa [vstreamL] using hsl)).2)
          (by simp [vstreamR])
          rfl
          (by intro a b _ hb; cases hb)
          (by
            simp only [vstreamL, vstreamR, headD_toList_append]
            simpa using hfl)
        rw [hih]
        simp only [vstreamL, vstreamR, headD_toList_append,
          Option.toList_none, List.nil_append, Option.toList_some, List.cons_append]
        rw [unionWithPref_nil_right pref fuel L (by omega)]
        rfl
      | some r =>
        have hner : l.1 ≠ r.1 := hne l r rfl rfl
        have hsl' : (l :: L).Pairwise keyLt := by simpa [vstreamL] using hsl
        have hsr' : (r :: R).Pairwise keyLt := by simpa [vstreamR] using hsr
        have hflen : L.length + R.length + 2 < fuel + 1 := by
          have h2 := hfuel
          simp [vstreamL, vstreamR] at h2
          omega
        rcases Nat.lt_or_ge r.1 l.1 with hgt | hge
        · have hnx : nx = MNext.right := by
            have h2 : nx = chooseNext (mcmp pref) (some l) (some r) := hn
            rw [h2]
            cases pref <;> simp [chooseNext, mcmp] <;> omega
          subst hnx
          have hstep : mergeRun (mcmp pref) keyEq (fuel + 1)
              ⟨L, R, some l, some r, .right⟩ =
              r :: mergeRun (mcmp pref) keyEq fuel
                (checkEq keyEq ⟨L, R.tail, some l, R.head?,
                  chooseNext (mcmp pref) (some l) R.head?⟩) := by
            cases R <;> rfl
          rw [hstep]
          have hspec := checkEq_spec pref
            ⟨L, R.tail, some l, R.head?, chooseNext (mcmp pref) (some l) R.head?⟩
            (by intro h; cases h)
            (fun h => by cases R with
              | nil => rfl
              | cons x xs => simp at h)
            (by simpa [vstreamL] using hsl)
            (by
              simp only [vstreamR, headD_toList_append]
              exact (List.pairwise_cons.mp hsr').2)
            rfl
          obtain ⟨g1, g2, g3, g4, g5, g6, g7, g8⟩ := hspec
          have hlen2 : (vstreamL ⟨L, R.tail, some l, R.head?,
              chooseNext (mcmp pref) (some l) R.head?⟩).length +
              (vstreamR ⟨L, R.tail, some l, R.head?,
              chooseNext (mcmp pref) (some l) R.head?⟩).length = L.length + R.length + 1 := by
            simp [vstreamL, vstreamR, headD_toList_append]
            omega
          have hih := ih _ g1 g2 g3 g4 g5 g6 (by omega)
          rw [hih]
          rw [← g8 fuel (by omega)]
          simp only [vstreamL, vstreamR, headD_toList_append,
            Option.toList_some, List.cons_append, List.nil_append]
          have hnl : ¬ l.1 < r.1 := by omega
          simp only [unionWithPref, if_neg hnl, if_pos hgt]
        · have hlt : l.1 < r.1 := by omega
          have hnx : nx = MNext.left := by
            have h2 : nx = chooseNext (mcmp pref) (some l) (some r) := hn
            rw [h2]
            cases pref <;> simp [chooseNext, mcmp] <;> omega
          subst hnx
          have hstep : mergeRun (mcmp pref) keyEq (fuel + 1)
              ⟨L, R, some l, some r, .left⟩ =
              l :: mergeRun (mcmp pref) keyEq fuel
                (checkEq keyEq ⟨L.tail, R, L.head?, some r,
                  chooseNext (mcmp pref) L.head? (some r)⟩) := by
            cases L <;> rfl
          rw [hstep]
          have hspec := checkEq_spec pref
            ⟨L.tail, R, L.head?, some r, chooseNext (mcmp pref) L.head? (some r)⟩
            (fun h => by cases L with
              | nil => rfl
              | cons x xs => simp at h)
            (by intro h; cases h)
            (by
              simp only [vstreamL, headD_toList_append]
              exact (List.pairwise_cons.mp hsl').2)
            (by simpa [vstreamR] using hsr)
            rfl
          obtain ⟨g1, g2, g3, g4, g5, g6, g7, g8⟩ := hspec
          have hlen2 : (vstreamL ⟨L.tail, R, L.head?, some r,
              chooseNext (mcmp pref) L.head? (some r)⟩).length +
              (vstreamR ⟨L.tail, R, L.head?, some r,
              chooseNext (mcmp pref) L.head? (some r)⟩).length = L.length + R.length + 1 := by
            simp [vstreamL, vstreamR, headD_toList_append]
            omega
          have hih := ih _ g1 g2 g3 g4 g5 g6 (by omega)
          rw [hih]
          rw [← g8 fuel (by omega)]
          simp only [vstreamL, vstreamR, headD_toList_append,
            Option.toList_some, List.cons_append, List.nil_append]
          simp only [unionWithPref, if_pos hlt]

theorem mergeLeftList_eq_union (l r : List (Nat × Nat))
    (hl : l.Pairwise keyLt) (hr : r.Pairwise keyLt) :
    mergeLeftList l r = unionWithPref true (l.length + r.length + 1) l r := by
  show mergeRun (mcmp true) keyEq (l.length + r.length + 1)
    (mergeInit (mcmp true) keyEq l r) = _
  have hinit : mergeInit (mcmp true) keyEq l r =
      checkEq keyEq ⟨l.tail, r.tail, l.head?, r.head?,
        chooseNext (mcmp true) l.head? r.head?⟩ := rfl
  rw [hinit]
  have hspec := checkEq_spec true
    ⟨l.tail, r.tail, l.head?, r.head?, chooseNext (mcmp true) l.head? r.head?⟩
    (fun h => by cases l with
      | nil => rfl
      | cons x xs => simp at h)
    (fun h => by cases r with
      | nil => rfl
      | cons x xs => simp at h)
    (by simp only [vstreamL, headD_toList_append]; exact hl)
    (by simp only [vstreamR, headD_toList_append]; exact hr)
    rfl
  obtain ⟨g1, g2, g3, g4, g5, g6, g7, g8⟩ := hspec
  have hlen0 : (vstreamL ⟨l.tail, r.tail, l.head?, r.head?,
      chooseNext (mcmp true) l.head? r.head?⟩).length +
      (vstreamR ⟨l.tail, r.tail, l.head?, r.head?,
      chooseNext (mcmp true) l.head? r.head?⟩).length = l.length + r.length := by
    simp only [vstreamL, vstreamR, headD_toList_append]
  rw [mergeRun_eq_union true _ _ g1 g2 g3 g4 g5 g6 (by omega)]
  rw [← g8 _ (by omega)]
  simp only [vstreamL, vstreamR, headD_toList_append]

theorem mergeRightList_eq_union (l r : List (Nat × Nat))
    (hl : l.Pairwise keyLt) (hr : r.Pairwise keyLt) :
    mergeRightList l r = unionWithPref false (l.length + r.length + 1) l r := by
  show mergeRun (mcmp false) keyEq (l.length + r.length + 1)
    (mergeInit (mcmp false) keyEq l r) = _
  have hinit : mergeInit (mcmp false) keyEq l r =
      checkEq keyEq ⟨l.tail, r.tail, l.head?, r.head?,
        chooseNext (mcmp false) l.head? r.head?⟩ := rfl
  rw [hinit]
  have hspec := checkEq_spec false
    ⟨l.tail, r.tail, l.head?, r.head?, chooseNext (mcmp false) l.head? r.head?⟩
    (fun h => by cases l with
      | nil => rfl
      | cons x xs => simp at h)
    (fun h => by cases r with
      | nil => rfl
      | cons x xs => simp at h)
    (by simp only [vstreamL, headD_toList_append]; exact hl)
    (by simp only [vstreamR, headD_toList_append]; exact hr)
    rfl
  obtain ⟨g1, g2, g3, g4, g5, g6, g7, g8⟩ := hspec
  have hlen0 : (vstreamL ⟨l.tail, r.tail, l.head?, r.head?,
      chooseNext (mcmp false) l.head? r.head?⟩).length +
      (vstreamR ⟨l.tail, r.tail, l.head?, r.head?,
      chooseNext (mcmp false) l.head? r.head?⟩).length = l.length + r.length := by
    simp only [vstreamL, vstreamR, headD_toList_append]
  rw [mergeRun_eq_union false _ _ g1 g2 g3 g4 g5 g6 (by omega)]
  rw [← g8 _ (by omega)]
  simp only [vstreamL, vstreamR, headD_toList_append]

/-- C6 (amended): for sorted duplicate-free streams, each merge entry
point emits the union of the two streams in strictly ascending key
order, emitting exactly one element per key; on a key present in both,
`merge_left` keeps the *left* stream's element and `merge_right` keeps
the *right* stream's element (the spec claims the opposite preference;
see the counterexample). -/
theorem merge_iterators_emit_preferred_union (l r : List (Nat × Nat))
    (hl : l.Pairwise keyLt) (hr : r.Pairwise keyLt) :
    mergeLeftList l r = unionWithPref true (l.length + r.length + 1) l r ∧
    mergeRightList l r = unionWithPref false (l.length + r.length + 1) l r ∧
    (mergeLeftList l r).Pairwise keyLt ∧
    (mergeRightList l r).Pairwise keyLt ∧
    (∀ k, k ∈ (mergeLeftList l r).map Prod.fst ↔
      k ∈ l.map Prod.fst ∨ k ∈ r.map Prod.fst) ∧
    (∀ k, k ∈ (mergeRightList l r).map Prod.fst ↔
      k ∈ l.map Prod.fst ∨ k ∈ r.map Prod.fst) ∧
    (∀ p ∈ mergeLeftList l r, p ∈ l ∨ (p ∈ r ∧ p.1 ∉ l.map Prod.fst)) ∧
    (∀ p ∈ mergeRightList l r, p ∈ r ∨ (p ∈ l ∧ p.1 ∉ r.map Prod.fst)) := by
  have h1 := mergeLeftList_eq_union l r hl hr
  have h2 := mergeRightList_eq_union l r hl hr
  refine ⟨h1, h2, ?_, ?_, ?_, ?_, ?_, ?_⟩
  · rw [h1]; exact unionWithPref_sorted true _ l r hl hr
  · rw [h2]; exact unionWithPref_sorted false _ l r hl hr
  · intro k
    rw [h1]
    exact unionWithPref_mem_keys true _ l r (by omega) k
  · intro k
    rw [h2]
    exact unionWithPref_mem_keys false _ l r (by omega) k
  · intro p hp
    rw [h1] at hp
    exact unionWithPref_pref_left _ l r hl hr p hp
  · intro p hp
    rw [h2] at hp
    exact unionWithPref_pref_right _ l r hl hr p hp

/-- Witness for `merge_iterators_emit_preferred_union` at concrete
sorted streams. -/
theorem merge_iterators_union_witness :
    List.Pairwise keyLt [(0, 1), (2, 5)] ∧
    mergeLeftList [(0, 1), (2, 5)] [(0, 2), (1, 9)] = [(0, 1), (1, 9), (2, 5)] ∧
    mergeRightList [(0, 1), (2, 5)] [(0, 2), (1, 9)] = [(0, 2), (1, 9), (2, 5)] := by
  have h := merge_iterators_emit_preferred_union [(0, 1), (2, 5)] [(0, 2), (1, 9)]
    (by decide) (by decide)
  refine ⟨by decide, ?_, ?_⟩
  · rw [h.1]; rfl
  · rw [h.2.1]; rfl

/-! ### Well-formedness: unfolding and consequences -/

theorem sortedB_iff_chain : ∀ ks : List Nat, sortedB ks = true ↔ ks.Chain' (· < ·) := by
  intro ks
  induction ks with
  | nil => simp [sortedB]
  | cons a t ih =>
    cases t with
    | nil => simp [sortedB]
    | cons b t2 =>
      rw [List.chain'_cons]
      simp only [sortedB, Bool.and_eq_true, decide_eq_true_eq]
      exact and_congr Iff.rfl ih

theorem sortedB_iff_pairwise (ks : List Nat) :
    sortedB ks = true ↔ ks.Pairwise (· < ·) := by
  rw [sortedB_iff_chain, List.chain'_iff_pairwise]

theorem wfNodeB_leaf {Lcap Bcap : Nat} {l : LeafN} :
    wfNodeB Lcap Bcap 0 (.leaf l) = true ↔
      (l.keys.length = l.values.length ∧ l.keys.Pairwise (· < ·) ∧
        1 ≤ l.len ∧ l.len ≤ Lcap) := by
  simp [wfNodeB, Bool.and_eq_true, decide_eq_true_eq, sortedB_iff_pairwise, and_assoc]

theorem wfNodeB_branch {Lcap Bcap h : Nat} {hh : Nat} {ks : List Nat} {cs : List Node} :
    wfNodeB Lcap Bcap (h + 1) (.branch hh ks cs) = true ↔
      (hh = h + 1 ∧ ks.length = cs.length ∧ ks.Pairwise (· < ·) ∧
        1 ≤ ks.length ∧ ks.length ≤ Bcap ∧
        (∀ c ∈ cs, wfNodeB Lcap Bcap h c = true) ∧
        childBoundsB h none ks cs = true) := by
  simp [wfNodeB, Bool.and_eq_true, decide_eq_true_eq, sortedB_iff_pairwise,
    List.all_eq_true, and_assoc]

theorem highKeyEqB_branch {h : Nat} {hh : Nat} {ks : List Nat} {cs : List Node} :
    highKeyEqB (h + 1) (.branch hh ks cs) = true ↔
      (ks.length = cs.length ∧ (∀ c ∈ cs, highKeyEqB h c = true) ∧
        ∀ p ∈ ks.zip cs, p.2.highestKey = p.1 ∧
          (∀ x ∈ nodeKeysF h p.2, x ≤ p.1) ∧ p.1 ∈ nodeKeysF h p.2) := by
  simp [highKeyEqB, Bool.and_eq_true, decide_eq_true_eq, List.all_eq_true, and_assoc]

/-- Entries are insensitive to extra fuel above the (well-formed)
height. -/
theorem entriesF_stable {Lcap Bcap : Nat} :
    ∀ (h : Nat) (n : Node), wfNodeB Lcap Bcap h n = true →
      ∀ f, h ≤ f → entriesF f n = entriesF h n := by
  intro h
  induction h with
  | zero =>
    intro n hwf f _
    cases n with
    | leaf l => cases f <;> rfl
    | branch hh ks cs => simp [wfNodeB] at hwf
  | succ h ih =>
    intro n hwf f hf
    cases n with
    | leaf l => simp [wfNodeB] at hwf
    | branch hh ks cs =>
      rcases wfNodeB_branch.mp hwf with ⟨_, _, _, _, _, hcs, _⟩
      cases f with
      | zero => omega
      | succ f =>
        simp only [entriesF]
        congr 1
        apply List.map_congr_left
        intro c hc
        rw [ih c (hcs c hc) f (by omega)]

/-- A well-formed node of height `h` has height `h`. -/
theorem wfNodeB_height {Lcap Bcap : Nat} :
    ∀ (h : Nat) (n : Node), wfNodeB Lcap Bcap h n = true → n.heightOf = h := by
  intro h
  cases h with
  | zero =>
    intro n hwf
    cases n with
    | leaf l => rfl
    | branch hh ks cs => simp [wfNodeB] at hwf
  | succ h =>
    intro n hwf
    cases n with
    | leaf l => simp [wfNodeB] at hwf
    | branch hh ks cs =>
      rcases wfNodeB_branch.mp hwf with ⟨h1, _⟩
      simpa [Node.heightOf] using h1

/-! ### Lookup correctness -/

theorem sorted_getD_inj {keys : List Nat} (h : keys.Pairwise (· < ·)) {i j : Nat}
    (hi : i < keys.length) (hj : j < keys.length)
    (heq : keys.getD i 0 = keys.getD j 0) : i = j := by
  rcases Nat.lt_trichotomy i j with hlt | he | hgt
  · have := sorted_getD_lt h hlt hj; omega
  · exact he
  · have := sorted_getD_lt h hgt hi; omega

theorem leafN_get_spec {l : LeafN} (hlen : l.keys.length = l.values.length)
    (hsort : l.keys.Pairwise (· < ·)) (key : Nat) :
    (∀ v, l.get key = some v ↔ (key, v) ∈ l.keys.zip l.values) ∧
    (l.get key = none ↔ key ∉ l.keys) := by
  have hbs : binarySearch l.keys key =
      (if firstGE l.keys key < l.keys.length ∧ l.keys.getD (firstGE l.keys key) 0 = key
       then .ok (firstGE l.keys key) else .error (firstGE l.keys key)) := rfl
  by_cases hc : firstGE l.keys key < l.keys.length ∧ l.keys.getD (firstGE l.keys key) 0 = key
  · have hget : l.get key = some (l.values.getD (firstGE l.keys key) 0) := by
      unfold LeafN.get; rw [hbs, if_pos hc]
    rw [hget]
    obtain ⟨hflt, hfeq⟩ := hc
    have hzlen : (l.keys.zip l.values).length = l.keys.length := by
      rw [List.length_zip]; omega
    have hmem : (key, l.values.getD (firstGE l.keys key) 0) ∈ l.keys.zip l.values := by
      rw [List.mem_iff_getElem]
      refine ⟨firstGE l.keys key, by omega, ?_⟩
      rw [List.getElem_zip]
      rw [List.getD_eq_getElem l.keys 0 hflt] at hfeq
      rw [List.getD_eq_getElem l.values 0 (by omega)]
      simp [hfeq]
    constructor
    · intro v
      constructor
      · intro hv
        injection hv with hv
        rw [← hv]
        exact hmem
      · intro hv
        rw [List.mem_iff_getElem] at hv
        obtain ⟨j, hj, hjv⟩ := hv
        rw [List.getElem_zip] at hjv
        have hjlen : j < l.keys.length := by rw [hzlen] at hj; omega
        have hkj : l.keys.getD j 0 = key := by
          rw [List.getD_eq_getElem l.keys 0 hjlen]
          exact congrArg Prod.fst hjv
        have hij : firstGE l.keys key = j :=
          sorted_getD_inj hsort hflt hjlen (by rw [hfeq, hkj])
        have hvv : l.values.getD j 0 = v := by
          rw [List.getD_eq_getElem l.values 0 (by omega)]
          exact congrArg Prod.snd hjv
        rw [hij, hvv]
    · constructor
      · intro h; cases h
      · intro habs
        exfalso
        apply habs
        rw [← hfeq, List.getD_eq_getElem l.keys 0 hflt]
        exact List.getElem_mem hflt
  · have hget : l.get key = none := by
      unfold LeafN.get; rw [hbs, if_neg hc]
    rw [hget]
    have hnot : key ∉ l.keys := by
      intro hmem
      rw [List.mem_iff_getElem] at hmem
      obtain ⟨j, hj, hjk⟩ := hmem
      have hjk' : l.keys.getD j 0 = key := by
        rw [List.getD_eq_getElem l.keys 0 hj]; exact hjk
      have hge : firstGE l.keys key ≤ j := by
        by_contra hlt
        have := @getD_lt_of_lt_firstGE l.keys key j (by omega)
        omega
      have hflt : firstGE l.keys key < l.keys.length := by omega
      apply hc
      refine ⟨hflt, ?_⟩
      have h1 := @le_getD_firstGE l.keys key hflt
      rcases Nat.eq_or_lt_of_le hge with he | hlt2
      · rw [he]; exact hjk'
      · have := sorted_getD_lt hsort hlt2 hj
        omega
    refine ⟨?_, by simp [hnot]⟩
    intro v
    constructor
    · intro h; cases h
    · intro hv
      exact absurd (List.mem_zip hv).1 hnot

theorem childBoundsB_head_lower {fuel : Nat} {l0 k : Nat} {ks : List Nat}
    {c : Node} {cs : List Node}
    (h : childBoundsB fuel (some l0) (k :: ks) (c :: cs) = true) :
    ∀ x ∈ nodeKeysF fuel c, l0 < x := by
  simp only [childBoundsB, Bool.and_eq_true, List.all_eq_true] at h
  intro x hx
  have := h.1 x hx
  simp only [Bool.and_eq_true, decide_eq_true_eq] at this
  exact this.2

theorem childBoundsB_tail {fuel : Nat} {lo : Option Nat} {k : Nat} {ks : List Nat}
    {c : Node} {cs : List Node}
    (h : childBoundsB fuel lo (k :: ks) (c :: cs) = true) :
    childBoundsB fuel (some k) ks cs = true := by
  simp only [childBoundsB, Bool.and_eq_true] at h
  exact h.2

theorem childBoundsB_upper :
    ∀ (ks : List Nat) (cs : List Node) (fuel : Nat) (lo : Option Nat),
      childBoundsB fuel lo ks cs = true →
      ∀ i, i < ks.length → ∀ x ∈ nodeKeysF fuel (cs.getD i nullNode), x ≤ ks.getD i 0 := by
  intro ks
  induction ks with
  | nil => intro cs fuel lo _ i hi; simp at hi
  | cons k ks ih =>
    intro cs fuel lo hcb i hi x hx
    cases cs with
    | nil => simp [childBoundsB] at hcb
    | cons c cs =>
      cases i with
      | zero =>
        simp only [childBoundsB, Bool.and_eq_true, List.all_eq_true] at hcb
        have := hcb.1 x (by simpa using hx)
        simp only [Bool.and_eq_true, decide_eq_true_eq] at this
        simpa using this.1
      | succ i =>
        simp only [List.getD_cons_succ] at hx ⊢
        exact ih cs fuel (some k) (childBoundsB_tail hcb) i
          (by simpa using Nat.lt_of_succ_lt_succ hi) x hx

theorem childBoundsB_lower :
    ∀ (ks : List Nat) (cs : List Node) (fuel : Nat) (lo : Option Nat),
      childBoundsB fuel lo ks cs = true →
      ∀ j, j + 1 < ks.length →
        ∀ x ∈ nodeKeysF fuel (cs.getD (j + 1) nullNode), ks.getD j 0 < x := by
  intro ks
  induction ks with
  | nil => intro cs fuel lo _ j hj; simp at hj
  | cons k ks ih =>
    intro cs fuel lo hcb j hj x hx
    cases cs with
    | nil => simp [childBoundsB] at hcb
    | cons c cs =>
      cases j with
      | zero =>
        simp only [List.getD_cons_succ, List.getD_cons_zero] at hx ⊢
        cases ks with
        | nil => simp at hj
        | cons k2 ks2 =>
          cases cs with
          | nil => simp [childBoundsB] at hcb
          | cons c2 cs2 =>
            exact childBoundsB_head_lower (childBoundsB_tail hcb) x (by simpa using hx)
      | succ j =>
        simp only [List.getD_cons_succ] at hx ⊢
        exact ih cs fuel (some k) (childBoundsB_tail hcb) j
          (by simpa using Nat.lt_of_succ_lt_succ hj) x hx

theorem nodeKeysF_branch (fuel : Nat) (hh : Nat) (ks : List Nat) (cs : List Node) :
    nodeKeysF (fuel + 1) (.branch hh ks cs) = (cs.map (nodeKeysF fuel)).flatten := by
  simp only [nodeKeysF, entriesF, List.map_flatten, List.map_map]
  rfl

theorem sorted_getD_le {keys : List Nat} (h : keys.Pairwise (· < ·)) {i j : Nat}
    (hij : i ≤ j) (hj : j < keys.length) : keys.getD i 0 ≤ keys.getD j 0 := by
  rcases Nat.eq_or_lt_of_le hij with he | hlt
  · rw [he]
  · exact Nat.le_of_lt (sorted_getD_lt h hlt hj)

theorem mem_entriesF_branch {h hh : Nat} {ks : List Nat} {cs : List Node} {p : Nat × Nat} :
    p ∈ entriesF (h + 1) (.branch hh ks cs) ↔ ∃ c ∈ cs, p ∈ entriesF h c := by
  simp [entriesF, List.mem_flatten]

theorem mem_nodeKeysF {fuel : Nat} {n : Node} {k : Nat} :
    k ∈ nodeKeysF fuel n ↔ ∃ v, (k, v) ∈ entriesF fuel n := by
  unfold nodeKeysF
  rw [List.mem_map]
  constructor
  · rintro ⟨⟨a, b⟩, hm, he⟩
    simp only at he
    subst he
    exact ⟨b, hm⟩
  · rintro ⟨v, hv⟩
    exact ⟨(k, v), hv, rfl⟩

theorem branchGet_core {Lcap Bcap h hh : Nat} {ks : List Nat} {cs : List Node}
    (hwf : wfNodeB Lcap Bcap (h + 1) (.branch hh ks cs) = true)
    (key : Nat) (childGet : Node → Option Nat)
    (hchild : ∀ c ∈ cs,
      (∀ v, childGet c = some v ↔ (key, v) ∈ entriesF h c) ∧
      (childGet c = none ↔ key ∉ nodeKeysF h c)) :
    (∀ v, (match find_key ks key with
           | none => none
           | some i => childGet (cs.getD i nullNode)) = some v ↔
        (key, v) ∈ entriesF (h + 1) (.branch hh ks cs)) ∧
    ((match find_key ks key with
      | none => none
      | some i => childGet (cs.getD i nullNode)) = none ↔
        key ∉ nodeKeysF (h + 1) (.branch hh ks cs)) := by
  obtain ⟨-, hlen, hsort, -, -, -, hcb⟩ := wfNodeB_branch.mp hwf
  have hfs := find_key_spec ks key hsort
  have hemem : ∀ p : Nat × Nat, p ∈ entriesF (h + 1) (.branch hh ks cs) ↔
      ∃ j, j < cs.length ∧ p ∈ entriesF h (cs.getD j nullNode) := by
    intro p
    rw [mem_entriesF_branch]
    constructor
    · rintro ⟨c, hc, hp⟩
      obtain ⟨j, hj, hje⟩ := List.mem_iff_getElem.mp hc
      refine ⟨j, hj, ?_⟩
      rw [List.getD_eq_getElem cs nullNode hj, hje]
      exact hp
    · rintro ⟨j, hj, hp⟩
      refine ⟨cs.getD j nullNode, ?_, hp⟩
      rw [List.getD_eq_getElem cs nullNode hj]
      exact List.getElem_mem hj
  have hkmem : key ∈ nodeKeysF (h + 1) (.branch hh ks cs) ↔
      ∃ j, j < cs.length ∧ key ∈ nodeKeysF h (cs.getD j nullNode) := by
    rw [mem_nodeKeysF]
    constructor
    · rintro ⟨v, hv⟩
      obtain ⟨j, hj, hp⟩ := (hemem (key, v)).mp hv
      exact ⟨j, hj, mem_nodeKeysF.mpr ⟨v, hp⟩⟩
    · rintro ⟨j, hj, hk⟩
      obtain ⟨v, hv⟩ := mem_nodeKeysF.mp hk
      exact ⟨v, (hemem (key, v)).mpr ⟨j, hj, hv⟩⟩
  cases hfk : find_key ks key with
  | none =>
    have hall := hfs.2.mp hfk
    have hnotin : ∀ j, j < cs.length → key ∉ nodeKeysF h (cs.getD j nullNode) := by
      intro j hj hk
      have hjk : j < ks.length := by omega
      have hup := childBoundsB_upper ks cs h none hcb j hjk key hk
      have hklt : ks.getD j 0 < key := by
        apply hall
        rw [List.getD_eq_getElem ks 0 hjk]
        exact List.getElem_mem hjk
      omega
    constructor
    · intro v
      constructor
      · intro hv
        exact Option.noConfusion hv
      · intro hv
        obtain ⟨j, hj, hp⟩ := (hemem (key, v)).mp hv
        exact absurd (mem_nodeKeysF.mpr ⟨v, hp⟩) (hnotin j hj)
    · constructor
      · intro _ hk
        obtain ⟨j, hj, hk2⟩ := hkmem.mp hk
        exact hnotin j hj hk2
      · intro _
        rfl
  | some i =>
    obtain ⟨hi, hile, hlow⟩ := (hfs.1 i).mp hfk
    have hic : i < cs.length := by omega
    have hcmem : cs.getD i nullNode ∈ cs := by
      rw [List.getD_eq_getElem cs nullNode hic]
      exact List.getElem_mem hic
    have hc := hchild _ hcmem
    have honly : ∀ j, j < cs.length → j ≠ i → key ∉ nodeKeysF h (cs.getD j nullNode) := by
      intro j hj hne2 hk
      have hjk : j < ks.length := by omega
      rcases Nat.lt_or_ge j i with hlt | hge
      · have hup := childBoundsB_upper ks cs h none hcb j hjk key hk
        have := hlow j hlt
        omega
      · have hgt : i < j := Nat.lt_of_le_of_ne hge (Ne.symm hne2)
        obtain ⟨j', rfl⟩ : ∃ j', j = j' + 1 := ⟨j - 1, by omega⟩
        have hlo := childBoundsB_lower ks cs h none hcb j' (by omega) key hk
        have hmono : ks.getD i 0 ≤ ks.getD j' 0 := sorted_getD_le hsort (by omega) (by omega)
        omega
    constructor
    · intro v
      show childGet (cs.getD i nullNode) = some v ↔ _
      rw [hc.1 v]
      constructor
      · intro hp
        exact (hemem (key, v)).mpr ⟨i, hic, hp⟩
      · intro hp
        obtain ⟨j, hj, hp2⟩ := (hemem (key, v)).mp hp
        by_cases hji : j = i
        · subst hji
          exact hp2
        · exact absurd (mem_nodeKeysF.mpr ⟨v, hp2⟩) (honly j hj hji)
    · show childGet (cs.getD i nullNode) = none ↔ _
      rw [hc.2]
      constructor
      · intro hnk hk
        obtain ⟨j, hj, hk2⟩ := hkmem.mp hk
        by_cases hji : j = i
        · subst hji
          exact hnk hk2
        · exact honly j hj hji hk2
      · intro hnk hk
        exact hnk (hkmem.mpr ⟨i, hic, hk⟩)

/-- `PalmTree::get` correctness on well-formed branches: for a branch of
height `h + 1` and any fuel at least `h + 2`, `nodeGet` returns exactly the
value stored with the key, and `none` exactly when the key is absent. -/
theorem nodeGet_spec {Lcap Bcap : Nat} :
    ∀ (h : Nat) (n : Node), wfNodeB Lcap Bcap (h + 1) n = true →
      ∀ (key fuel : Nat), h + 2 ≤ fuel →
      (∀ v, nodeGet fuel n key = some v ↔ (key, v) ∈ entriesF (h + 1) n) ∧
      (nodeGet fuel n key = none ↔ key ∉ nodeKeysF (h + 1) n) := by
  intro h
  induction h with
  | zero =>
    intro n hwf key fuel hfuel
    cases n with
    | leaf l => simp [wfNodeB] at hwf
    | branch hh ks cs =>
      obtain ⟨fuel, rfl⟩ : ∃ f, fuel = f + 1 := ⟨fuel - 1, by omega⟩
      have hb := wfNodeB_branch.mp hwf
      have hh1 : hh = 0 + 1 := hb.1
      subst hh1
      have hchild : ∀ c ∈ cs,
          (∀ v, (fun c2 => match c2 with
                 | Node.leaf l => l.get key
                 | Node.branch _ _ _ => none) c = some v ↔ (key, v) ∈ entriesF 0 c) ∧
          ((fun c2 => match c2 with
            | Node.leaf l => l.get key
            | Node.branch _ _ _ => none) c = none ↔ key ∉ nodeKeysF 0 c) := by
        intro c hcmem
        have hcwf := hb.2.2.2.2.2.1 c hcmem
        cases c with
        | branch _ _ _ => simp [wfNodeB] at hcwf
        | leaf l =>
          obtain ⟨hl1, hl2, -, -⟩ := wfNodeB_leaf.mp hcwf
          have hspec := leafN_get_spec hl1 hl2 key
          have hmz : nodeKeysF 0 (.leaf l) = l.keys := by
            show (l.keys.zip l.values).map Prod.fst = l.keys
            exact List.map_fst_zip l.keys l.values (le_of_eq hl1)
          refine ⟨fun v => ?_, ?_⟩
          · exact hspec.1 v
          · show l.get key = none ↔ key ∉ nodeKeysF 0 (.leaf l)
            rw [hmz]
            exact hspec.2
      have hcore := branchGet_core hwf key
        (fun c2 => match c2 with
                   | Node.leaf l => l.get key
                   | Node.branch _ _ _ => none) hchild
      have hlt : (0 + 1 > 1) = False := eq_false (by omega)
      refine ⟨fun v => ?_, ?_⟩
      · simp only [nodeGet, hlt, if_false]
        exact hcore.1 v
      · simp only [nodeGet, hlt, if_false]
        exact hcore.2
  | succ h ih =>
    intro n hwf key fuel hfuel
    cases n with
    | leaf l => simp [wfNodeB] at hwf
    | branch hh ks cs =>
      obtain ⟨fuel, rfl⟩ : ∃ f, fuel = f + 1 := ⟨fuel - 1, by omega⟩
      have hb := wfNodeB_branch.mp hwf
      have hh2 : hh = h + 1 + 1 := hb.1
      subst hh2
      have hchild : ∀ c ∈ cs,
          (∀ v, nodeGet fuel c key = some v ↔ (key, v) ∈ entriesF (h + 1) c) ∧
          (nodeGet fuel c key = none ↔ key ∉ nodeKeysF (h + 1) c) := by
        intro c hcmem
        have hcwf := hb.2.2.2.2.2.1 c hcmem
        exact ih c hcwf key fuel (by omega)
      have hcore := branchGet_core hwf key (fun c => nodeGet fuel c key) hchild
      have hgt : (h + 1 + 1 > 1) = True := eq_true (by omega)
      refine ⟨fun v => ?_, ?_⟩
      · simp only [nodeGet, hgt, if_true]
        exact hcore.1 v
      · simp only [nodeGet, hgt, if_true]
        exact hcore.2

/-! ### Good nodes: structural facts -/

theorem pairwise_append_left {A : Type} {R : A → A → Prop} {l1 l2 : List A}
    (h : (l1 ++ l2).Pairwise R) : l1.Pairwise R :=
  h.sublist (List.sublist_append_left l1 l2)

theorem pairwise_append_right {A : Type} {R : A → A → Prop} {l1 l2 : List A}
    (h : (l1 ++ l2).Pairwise R) : l2.Pairwise R :=
  h.sublist (List.sublist_append_right l1 l2)

theorem pairwise_append_cross {A : Type} {R : A → A → Prop} {l1 l2 : List A}
    (h : (l1 ++ l2).Pairwise R) : ∀ a ∈ l1, ∀ b ∈ l2, R a b :=
  (List.pairwise_append.mp h).2.2

theorem goodNode_iff {Lcap Bcap h : Nat} {n : Node} :
    goodNode Lcap Bcap h n = true ↔
      (wfNodeB Lcap Bcap h n = true ∧ highKeyEqB h n = true) := by
  simp [goodNode, Bool.and_eq_true]

theorem goodNode_heightOf {Lcap Bcap h : Nat} {n : Node}
    (hg : goodNode Lcap Bcap h n = true) : n.heightOf = h :=
  wfNodeB_height h n (goodNode_iff.mp hg).1

theorem entriesOf_good {Lcap Bcap h : Nat} {n : Node}
    (hg : goodNode Lcap Bcap h n = true) : entriesOf n = entriesF h n := by
  unfold entriesOf
  rw [goodNode_heightOf hg]

theorem keysOf_good {Lcap Bcap h : Nat} {n : Node}
    (hg : goodNode Lcap Bcap h n = true) : keysOf n = nodeKeysF h n := by
  unfold keysOf nodeKeysF
  rw [goodNode_heightOf hg]

theorem keysOf_eq_map (n : Node) : keysOf n = (entriesOf n).map Prod.fst := rfl

theorem entriesF_leaf (fuel : Nat) (lf : LeafN) :
    entriesF fuel (.leaf lf) = lf.keys.zip lf.values := by
  cases fuel <;> rfl

theorem nodeKeysF_leaf (fuel : Nat) {lf : LeafN} (h : lf.keys.length ≤ lf.values.length) :
    nodeKeysF fuel (.leaf lf) = lf.keys := by
  unfold nodeKeysF
  rw [entriesF_leaf]
  exact List.map_fst_zip _ _ h

theorem mem_nodeKeysF_branch {h hh : Nat} {ks : List Nat} {cs : List Node} {k : Nat} :
    k ∈ nodeKeysF (h + 1) (.branch hh ks cs) ↔ ∃ c ∈ cs, k ∈ nodeKeysF h c := by
  rw [mem_nodeKeysF]
  constructor
  · rintro ⟨v, hv⟩
    obtain ⟨c, hc, hp⟩ := mem_entriesF_branch.mp hv
    exact ⟨c, hc, mem_nodeKeysF.mpr ⟨v, hp⟩⟩
  · rintro ⟨c, hc, hk⟩
    obtain ⟨v, hv⟩ := mem_nodeKeysF.mp hk
    exact ⟨v, mem_entriesF_branch.mpr ⟨c, hc, hv⟩⟩

theorem goodNode_branch_shape {Lcap Bcap hf : Nat} {n : Node}
    (hg : goodNode Lcap Bcap (hf + 1) n = true) :
    ∃ ks cs, n = .branch (hf + 1) ks cs := by
  obtain ⟨hwf, -⟩ := goodNode_iff.mp hg
  cases n with
  | leaf _ => simp [wfNodeB] at hwf
  | branch hh ks cs =>
    exact ⟨ks, cs, by rw [(wfNodeB_branch.mp hwf).1]⟩

theorem goodNode_facts {Lcap Bcap : Nat} {h : Nat} {n : Node}
    (hg : goodNode Lcap Bcap h n = true) :
    n.highestKey ∈ nodeKeysF h n ∧ ∀ x ∈ nodeKeysF h n, x ≤ n.highestKey := by
  obtain ⟨hwf, hhk⟩ := goodNode_iff.mp hg
  cases h with
  | zero =>
    cases n with
    | branch _ _ _ => simp [wfNodeB] at hwf
    | leaf l =>
      obtain ⟨hl1, hl2, hl3, -⟩ := wfNodeB_leaf.mp hwf
      have hlL : l.len = l.keys.length := rfl
      have hmz : nodeKeysF 0 (.leaf l) = l.keys := nodeKeysF_leaf 0 (le_of_eq hl1)
      rw [hmz]
      constructor
      · show l.keys.getD (l.len - 1) 0 ∈ l.keys
        rw [List.getD_eq_getElem l.keys 0 (by omega)]
        exact List.getElem_mem (by omega)
      · intro x hx
        obtain ⟨j, hj, hje⟩ := List.mem_iff_getElem.mp hx
        show x ≤ l.keys.getD (l.len - 1) 0
        have hxj : l.keys.getD j 0 = x := by
          rw [List.getD_eq_getElem l.keys 0 hj]
          exact hje
        rw [← hxj]
        exact sorted_getD_le hl2 (by omega) (by omega)
  | succ hf =>
    cases n with
    | leaf _ => simp [wfNodeB] at hwf
    | branch hh ks cs =>
      obtain ⟨-, hlen, hsort, hne, -, -, hcb⟩ := wfNodeB_branch.mp hwf
      obtain ⟨-, -, hzip⟩ := highKeyEqB_branch.mp hhk
      have hmlt : ks.length - 1 < ks.length := by omega
      have hmc : ks.length - 1 < cs.length := by omega
      have hpair : (ks[ks.length - 1], cs[ks.length - 1]) ∈ ks.zip cs := by
        rw [List.mem_iff_getElem]
        refine ⟨ks.length - 1, by rw [List.length_zip]; omega, ?_⟩
        rw [List.getElem_zip]
      have hp := hzip _ hpair
      have hhigh : (Node.branch hh ks cs).highestKey = ks[ks.length - 1] := by
        show ks.getD (ks.length - 1) 0 = ks[ks.length - 1]
        rw [List.getD_eq_getElem ks 0 hmlt]
      constructor
      · rw [hhigh]
        exact mem_nodeKeysF_branch.mpr ⟨cs[ks.length - 1], List.getElem_mem hmc, hp.2.2⟩
      · intro x hx
        obtain ⟨c, hc, hxc⟩ := mem_nodeKeysF_branch.mp hx
        obtain ⟨j, hj, hje⟩ := List.mem_iff_getElem.mp hc
        have hjk : j < ks.length := by omega
        have hup := childBoundsB_upper ks cs hf none hcb j hjk x
          (by rw [List.getD_eq_getElem cs nullNode hj, hje]; exact hxc)
        rw [hhigh]
        have hmono : ks.getD j 0 ≤ ks.getD (ks.length - 1) 0 :=
          sorted_getD_le hsort (by omega) hmlt
        rw [List.getD_eq_getElem ks 0 hmlt] at hmono
        omega

theorem goodNode_keys_mem {Lcap Bcap hf hh : Nat} {ks : List Nat} {cs : List Node}
    (hg : goodNode Lcap Bcap (hf + 1) (.branch hh ks cs) = true) :
    ∀ a ∈ ks, a ∈ nodeKeysF (hf + 1) (.branch hh ks cs) := by
  obtain ⟨hwf, hhk⟩ := goodNode_iff.mp hg
  obtain ⟨-, hlen, -, -, -, -, -⟩ := wfNodeB_branch.mp hwf
  obtain ⟨-, -, hzip⟩ := highKeyEqB_branch.mp hhk
  intro a ha
  obtain ⟨i, hi, hie⟩ := List.mem_iff_getElem.mp ha
  have hic : i < cs.length := by omega
  have hpair : (ks[i], cs[i]) ∈ ks.zip cs := by
    rw [List.mem_iff_getElem]
    exact ⟨i, by rw [List.length_zip]; omega, by rw [List.getElem_zip]⟩
  have hp := hzip _ hpair
  exact mem_nodeKeysF_branch.mpr ⟨cs[i], List.getElem_mem hic, hie ▸ hp.2.2⟩

theorem childBoundsB_append :
    ∀ (ks : List Nat) (cs : List Node) (fuel : Nat) (lo : Option Nat) (k : Nat) (c : Node),
      childBoundsB fuel lo ks cs = true →
      (∀ x ∈ nodeKeysF fuel c, x ≤ k) →
      (∀ x ∈ nodeKeysF fuel c, ∀ a ∈ ks, a < x) →
      (∀ x ∈ nodeKeysF fuel c, ∀ l2, lo = some l2 → l2 < x) →
      childBoundsB fuel lo (ks ++ [k]) (cs ++ [c]) = true := by
  intro ks
  induction ks with
  | nil =>
    intro cs fuel lo k c hcb hup hks hlo
    cases cs with
    | cons _ _ => simp [childBoundsB] at hcb
    | nil =>
      simp only [List.nil_append, childBoundsB, Bool.and_eq_true, List.all_eq_true]
      refine ⟨?_, trivial⟩
      intro x hx
      simp only [Bool.and_eq_true, decide_eq_true_eq]
      refine ⟨hup x hx, ?_⟩
      cases lo with
      | none => rfl
      | some l2 =>
        simp only [decide_eq_true_eq]
        exact hlo x hx l2 rfl
  | cons k0 ks ih =>
    intro cs fuel lo k c hcb hup hks hlo
    cases cs with
    | nil => simp [childBoundsB] at hcb
    | cons c0 cs =>
      simp only [List.cons_append, childBoundsB, Bool.and_eq_true] at hcb ⊢
      refine ⟨hcb.1, ?_⟩
      apply ih cs fuel (some k0) k c hcb.2 hup
      · intro x hx a ha
        exact hks x hx a (List.mem_cons_of_mem k0 ha)
      · intro x hx l2 hl2
        injection hl2 with hl2
        rw [← hl2]
        exact hks x hx k0 (List.mem_cons_self k0 ks)

theorem branchPushChild_entriesF {hf hh : Nat} (ks : List Nat) (cs : List Node) (c : Node) :
    entriesF (hf + 1) (branchPushChild (.branch hh ks cs) c) =
      entriesF (hf + 1) (.branch hh ks cs) ++ entriesF hf c := by
  simp [branchPushChild, entriesF, List.map_append, List.flatten_append]

theorem branchPushChild_new_good {Lcap Bcap hf : Nat} {c : Node}
    (hB : 1 ≤ Bcap) (hc : goodNode Lcap Bcap hf c = true) :
    goodNode Lcap Bcap (hf + 1) (branchPushChild (newBranch (hf + 1)) c) = true := by
  obtain ⟨hmem, hmax⟩ := goodNode_facts hc
  obtain ⟨hcwf, hchk⟩ := goodNode_iff.mp hc
  show goodNode Lcap Bcap (hf + 1) (.branch (hf + 1) [c.highestKey] [c]) = true
  apply goodNode_iff.mpr
  constructor
  · apply wfNodeB_branch.mpr
    refine ⟨rfl, rfl, by simp, by simp, by simpa using hB, ?_, ?_⟩
    · intro x hx
      rw [List.mem_singleton] at hx
      rw [hx]
      exact hcwf
    · simp only [childBoundsB, Bool.and_eq_true, List.all_eq_true]
      refine ⟨?_, trivial⟩
      intro x hx
      simp only [Bool.and_eq_true, decide_eq_true_eq]
      exact ⟨hmax x hx, trivial⟩
  · apply highKeyEqB_branch.mpr
    refine ⟨rfl, ?_, ?_⟩
    · intro x hx
      rw [List.mem_singleton] at hx
      rw [hx]
      exact hchk
    · intro p hp
      simp only [List.zip_cons_cons, List.zip_nil_right, List.mem_singleton] at hp
      subst hp
      exact ⟨rfl, hmax, hmem⟩

theorem branchPushChild_good {Lcap Bcap hf hh : Nat} {ks : List Nat} {cs : List Node} {c : Node}
    (hg : goodNode Lcap Bcap (hf + 1) (.branch hh ks cs) = true)
    (hlt : ks.length < Bcap)
    (hc : goodNode Lcap Bcap hf c = true)
    (hcross : ∀ x ∈ nodeKeysF (hf + 1) (.branch hh ks cs), ∀ y ∈ nodeKeysF hf c, x < y) :
    goodNode Lcap Bcap (hf + 1) (branchPushChild (.branch hh ks cs) c) = true := by
  obtain ⟨hwf, hhk⟩ := goodNode_iff.mp hg
  obtain ⟨hh1, hlen, hsort, hne, hle, hcwf, hcb⟩ := wfNodeB_branch.mp hwf
  obtain ⟨-, hcok, hzip⟩ := highKeyEqB_branch.mp hhk
  obtain ⟨hmem, hmax⟩ := goodNode_facts hc
  have hkm := goodNode_keys_mem hg
  have hklt : ∀ a ∈ ks, a < c.highestKey := fun a ha => hcross a (hkm a ha) _ hmem
  show goodNode Lcap Bcap (hf + 1) (.branch hh (ks ++ [c.highestKey]) (cs ++ [c])) = true
  apply goodNode_iff.mpr
  constructor
  · apply wfNodeB_branch.mpr
    refine ⟨hh1, by simp [hlen],
      ?_, by simp only [List.length_append, List.length_singleton]; omega,
      by simp only [List.length_append, List.length_singleton]; omega, ?_, ?_⟩
    · rw [List.pairwise_append]
      refine ⟨hsort, by simp, ?_⟩
      intro a ha b hb
      rw [List.mem_singleton] at hb
      rw [hb]
      exact hklt a ha
    · intro x hx
      rcases List.mem_append.mp hx with h1 | h1
      · exact hcwf x h1
      · rw [List.mem_singleton] at h1
        rw [h1]
        exact (goodNode_iff.mp hc).1
    · apply childBoundsB_append ks cs hf none c.highestKey c hcb hmax
      · intro x hx a ha
        exact hcross a (hkm a ha) x hx
      · intro x hx l2 hl2
        cases hl2
  · apply highKeyEqB_branch.mpr
    refine ⟨by simp [hlen], ?_, ?_⟩
    · intro x hx
      rcases List.mem_append.mp hx with h1 | h1
      · exact hcok x h1
      · rw [List.mem_singleton] at h1
        rw [h1]
        exact (goodNode_iff.mp hc).2
    · intro p hp
      rw [List.zip_append hlen] at hp
      rcases List.mem_append.mp hp with h1 | h1
      · exact hzip p h1
      · simp only [List.zip_cons_cons, List.zip_nil_right, List.mem_singleton] at h1
        subst h1
        exact ⟨rfl, hmax, hmem⟩

/-! ### The load spine stack -/

theorem stackFlat_nil : stackFlat [] = [] := rfl

theorem stackFlat_cons (n : Node) (rest : List Node) :
    stackFlat (n :: rest) = stackFlat rest ++ entriesOf n := by
  simp [stackFlat, List.map_append, List.flatten_append]

theorem branchPushChild_new_entriesOf {Lcap Bcap h : Nat} {c : Node}
    (hc : goodNode Lcap Bcap h c = true) :
    entriesOf (branchPushChild (newBranch (h + 1)) c) = entriesOf c := by
  show entriesF (h + 1) (.branch (h + 1) [c.highestKey] [c]) = entriesOf c
  rw [entriesOf_good hc]
  simp [entriesF]

theorem branchPushChild_entriesOf {Lcap Bcap hf : Nat} {ks : List Nat} {cs : List Node} {c : Node}
    (hc : goodNode Lcap Bcap hf c = true) :
    entriesOf (branchPushChild (.branch (hf + 1) ks cs) c) =
      entriesOf (.branch (hf + 1) ks cs) ++ entriesOf c := by
  rw [entriesOf_good hc]
  show entriesF (hf + 1) (branchPushChild (.branch (hf + 1) ks cs) c) = _
  rw [branchPushChild_entriesF]
  rfl

theorem pushStack_ne_nil (Bcap : Nat) (c : Node) (s : List Node) :
    pushStack Bcap c s ≠ [] := by
  cases s with
  | nil => simp [pushStack]
  | cons p rest =>
    simp only [pushStack]
    split <;> simp

theorem pushStack_good {Lcap Bcap : Nat} (hB : 1 ≤ Bcap) :
    ∀ (stack : List Node) (h : Nat) (child : Node),
      goodNode Lcap Bcap h child = true →
      StackGood Lcap Bcap (h + 1) stack →
      ((stackFlat stack).map Prod.fst ++ keysOf child).Pairwise (· < ·) →
      StackGood Lcap Bcap (h + 1) (pushStack Bcap child stack) ∧
      stackFlat (pushStack Bcap child stack) = stackFlat stack ++ entriesOf child := by
  intro stack
  induction stack with
  | nil =>
    intro h child hc hsg hsort
    have hh := goodNode_heightOf hc
    constructor
    · show StackGood Lcap Bcap (h + 1) [branchPushChild (newBranch (child.heightOf + 1)) child]
      rw [hh]
      exact ⟨rfl, branchPushChild_new_good hB hc, trivial⟩
    · show stackFlat [branchPushChild (newBranch (child.heightOf + 1)) child] = _
      rw [hh, stackFlat_cons, stackFlat_nil, branchPushChild_new_entriesOf hc]
  | cons p rest ih =>
    intro h child hc hsg hsort
    obtain ⟨hph, hpg, hrest⟩ := hsg
    obtain ⟨pks, pcs, rfl⟩ := goodNode_branch_shape hpg
    rw [stackFlat_cons, List.map_append] at hsort
    have hAB : ((stackFlat rest).map Prod.fst ++
        (entriesOf (Node.branch (h + 1) pks pcs)).map Prod.fst).Pairwise (· < ·) :=
      pairwise_append_left hsort
    have hBC : ((entriesOf (Node.branch (h + 1) pks pcs)).map Prod.fst ++
        keysOf child).Pairwise (· < ·) := by
      have hs2 := hsort
      rw [List.append_assoc] at hs2
      exact pairwise_append_right hs2
    have hcrossBC := pairwise_append_cross hBC
    simp only [pushStack, Node.heightOf]
    by_cases hfull : (Node.branch (h + 1) pks pcs).branchIsFull Bcap = true
    · rw [if_pos hfull]
      obtain ⟨hsg', hflat'⟩ := ih (h + 1) (Node.branch (h + 1) pks pcs) hpg hrest hAB
      refine ⟨⟨rfl, branchPushChild_new_good hB hc, hsg'⟩, ?_⟩
      rw [stackFlat_cons, hflat', branchPushChild_new_entriesOf hc, stackFlat_cons,
        List.append_assoc]
    · rw [if_neg hfull]
      have hlt : pks.length < Bcap := by
        have hle := (wfNodeB_branch.mp (goodNode_iff.mp hpg).1).2.2.2.2.1
        have hne2 : ¬ pks.length = Bcap := by
          intro he
          apply hfull
          simp [Node.branchIsFull, Node.branchLen, Node.branchKeys, he]
        omega
      have hcross : ∀ x ∈ nodeKeysF (h + 1) (.branch (h + 1) pks pcs),
          ∀ y ∈ nodeKeysF h child, x < y := by
        intro x hx y hy
        refine hcrossBC x ?_ y ?_
        · rw [← keysOf_eq_map, keysOf_good hpg]
          exact hx
        · rw [keysOf_good hc]
          exact hy
      refine ⟨⟨rfl, branchPushChild_good hpg hlt hc hcross, hrest⟩, ?_⟩
      rw [stackFlat_cons, branchPushChild_entriesOf hc, stackFlat_cons, List.append_assoc]

theorem fullCount_cons (Bcap : Nat) (n : Node) (s : List Node) :
    fullCount Bcap (n :: s) =
      (if n.branchIsFull Bcap = true then 1 else 0) + fullCount Bcap s := by
  by_cases hf : n.branchIsFull Bcap = true
  · simp [fullCount, List.filter_cons, hf]
    omega
  · simp [fullCount, List.filter_cons, hf]

theorem newHead_not_full {Bcap : Nat} (hh : Nat) (hB : 2 ≤ Bcap) (c : Node) :
    (branchPushChild (newBranch hh) c).branchIsFull Bcap = false := by
  simp only [branchPushChild, newBranch, Node.branchIsFull, Node.branchLen, Node.branchKeys,
    List.nil_append, List.length_singleton, decide_eq_false_iff_not]
  omega

theorem stackPhi_pushStack {Bcap : Nat} (hB : 2 ≤ Bcap) :
    ∀ (s : List Node) (c : Node),
      stackPhi Bcap (pushStack Bcap c s) ≤ stackPhi Bcap s + 2 ∧
      (s ≠ [] → stackPhi Bcap (pushStack Bcap c s) ≤ stackPhi Bcap s + 1) := by
  intro s
  induction s with
  | nil =>
    intro c
    refine ⟨?_, fun hx => absurd rfl hx⟩
    show stackPhi Bcap [branchPushChild (newBranch (c.heightOf + 1)) c] ≤ stackPhi Bcap [] + 2
    have hnf := newHead_not_full (c.heightOf + 1) hB c
    simp [stackPhi, fullCount, List.filter_cons, hnf]
  | cons p rest ih =>
    intro c
    have hmain : stackPhi Bcap (pushStack Bcap c (p :: rest)) ≤ stackPhi Bcap (p :: rest) + 1 := by
      simp only [pushStack]
      by_cases hfull : p.branchIsFull Bcap = true
      · rw [if_pos hfull]
        have h1 := (ih p).1
        have hnf := newHead_not_full p.heightOf hB c
        have e1 : stackPhi Bcap
            (branchPushChild (newBranch p.heightOf) c :: pushStack Bcap p rest) =
            2 * ((pushStack Bcap p rest).length + 1) + fullCount Bcap (pushStack Bcap p rest) := by
          simp [stackPhi, fullCount_cons, hnf, List.length_cons]
        have e2 : stackPhi Bcap (p :: rest) =
            2 * (rest.length + 1) + 1 + fullCount Bcap rest := by
          simp [stackPhi, fullCount_cons, hfull, List.length_cons]
          omega
        rw [e1, e2]
        simp only [stackPhi] at h1
        omega
      · rw [if_neg hfull]
        simp only [stackPhi, fullCount_cons, List.length_cons, hfull]
        split <;> omega
    exact ⟨hmain.trans (by omega), fun _ => hmain⟩

theorem foldStackF_good {Lcap Bcap : Nat} (hB : 2 ≤ Bcap) :
    ∀ (fuel : Nat) (stack : List Node) (h : Nat),
      stack ≠ [] →
      StackGood Lcap Bcap h stack →
      ((stackFlat stack).map Prod.fst).Pairwise (· < ·) →
      stackPhi Bcap stack ≤ fuel →
      ∃ (r : Node) (hr : Nat),
        foldStackF Bcap fuel stack = [r] ∧ h ≤ hr ∧ goodNode Lcap Bcap hr r = true ∧
        entriesOf r = stackFlat stack := by
  intro fuel
  induction fuel with
  | zero =>
    intro stack h hne hsg hsort hphi
    cases stack with
    | nil => exact absurd rfl hne
    | cons x t =>
      simp [stackPhi, List.length_cons] at hphi
  | succ fuel ih =>
    intro stack h hne hsg hsort hphi
    cases stack with
    | nil => exact absurd rfl hne
    | cons x t =>
      cases t with
      | nil =>
        obtain ⟨hxh, hxg, -⟩ := hsg
        refine ⟨x, h, rfl, le_refl h, hxg, ?_⟩
        rw [stackFlat_cons, stackFlat_nil, List.nil_append]
      | cons y rest =>
        obtain ⟨hxh, hxg, hrest⟩ := hsg
        rw [stackFlat_cons, List.map_append] at hsort
        obtain ⟨hsg', hflat'⟩ :=
          pushStack_good (by omega) (y :: rest) h x hxg hrest hsort
        have hφ := (stackPhi_pushStack hB (y :: rest) x).2 (by simp)
        have hφ2 : stackPhi Bcap (x :: y :: rest) =
            stackPhi Bcap (y :: rest) + 2 +
              (if x.branchIsFull Bcap = true then 1 else 0) := by
          simp only [stackPhi, fullCount_cons, List.length_cons]
          split <;> omega
        have hphi' : stackPhi Bcap (pushStack Bcap x (y :: rest)) ≤ fuel := by
          rw [hφ2] at hphi
          split at hphi <;> omega
        obtain ⟨r, hr, heq, hle, hg, hent⟩ :=
          ih (pushStack Bcap x (y :: rest)) (h + 1) (pushStack_ne_nil Bcap x (y :: rest)) hsg'
            (by rw [hflat', List.map_append]; exact hsort)
            hphi'
        refine ⟨r, hr, ?_, by omega, hg, ?_⟩
        · simpa only [foldStackF] using heq
        · rw [hent, hflat', stackFlat_cons x (y :: rest)]

theorem trimRootLoop_good {Lcap Bcap : Nat} :
    ∀ (fuel h : Nat) (n : Node), goodNode Lcap Bcap (h + 1) n = true →
      ∃ hr, 1 ≤ hr ∧ hr ≤ h + 1 ∧ goodNode Lcap Bcap hr (trimRootLoop fuel n) = true ∧
        entriesOf (trimRootLoop fuel n) = entriesOf n := by
  intro fuel
  induction fuel with
  | zero =>
    intro h n hg
    exact ⟨h + 1, by omega, le_refl _, hg, rfl⟩
  | succ fuel ih =>
    intro h n hg
    obtain ⟨ks, cs, rfl⟩ := goodNode_branch_shape hg
    obtain ⟨hwf, hhk⟩ := goodNode_iff.mp hg
    obtain ⟨-, hlen, -, hne, -, hcwf, -⟩ := wfNodeB_branch.mp hwf
    obtain ⟨-, hcok, -⟩ := highKeyEqB_branch.mp hhk
    simp only [trimRootLoop]
    by_cases hcond : ((Node.branch (h + 1) ks cs).hasBranches &&
        decide ((Node.branch (h + 1) ks cs).branchLen = 1)) = true
    · rw [if_pos hcond]
      simp only [Node.hasBranches, Node.branchLen, Node.branchKeys, Bool.and_eq_true,
        decide_eq_true_eq] at hcond
      obtain ⟨hgt, hone⟩ := hcond
      obtain ⟨hf, rfl⟩ : ∃ hf, h = hf + 1 := ⟨h - 1, by omega⟩
      obtain ⟨c, rfl⟩ := List.length_eq_one.mp (hlen ▸ hone)
      have hcm : c ∈ [c] := List.mem_singleton.mpr rfl
      have hcg : goodNode Lcap Bcap (hf + 1) c :=
        goodNode_iff.mpr ⟨hcwf c hcm, hcok c hcm⟩
      have hchild : (Node.branch (hf + 1 + 1) ks [c]).childrenOf.getD
          ((Node.branch (hf + 1 + 1) ks [c]).childrenOf.length - 1) nullNode = c := rfl
      rw [hchild]
      obtain ⟨hr, h1, h2, h3, h4⟩ := ih (hf) c hcg
      refine ⟨hr, h1, by omega, h3, ?_⟩
      rw [h4, entriesOf_good hcg]
      show entriesF (hf + 1) c = entriesF (hf + 1 + 1) (.branch (hf + 1 + 1) ks [c])
      simp [entriesF]
    · rw [if_neg hcond]
      exact ⟨h + 1, by omega, le_refl _, hg, rfl⟩

theorem flushLeaf_good {Lcap Bcap : Nat} {parent : Node} {lf : LeafN}
    (hB : 1 ≤ Bcap)
    (hpar : parent = newBranch 1 ∨ goodNode Lcap Bcap 1 parent = true)
    (hlt : parent.branchLen < Bcap)
    (hleaf : goodNode Lcap Bcap 0 (.leaf lf) = true)
    (hcross : ∀ x ∈ keysOf parent, ∀ y ∈ lf.keys, x < y) :
    goodNode Lcap Bcap 1 (branchPushChild parent (.leaf lf)) = true ∧
    entriesOf (branchPushChild parent (.leaf lf)) =
      entriesOf parent ++ lf.keys.zip lf.values := by
  have hklen : lf.keys.length = lf.values.length :=
    (wfNodeB_leaf.mp (goodNode_iff.mp hleaf).1).1
  rcases hpar with hpar | hpar
  · subst hpar
    constructor
    · exact branchPushChild_new_good hB hleaf
    · have := branchPushChild_new_entriesOf (h := 0) hleaf
      rw [this]
      rfl
  · obtain ⟨pks, pcs, hshape⟩ := @goodNode_branch_shape _ _ 0 _ hpar
    subst hshape
    constructor
    · apply branchPushChild_good hpar ?_ hleaf ?_
      · exact hlt
      · intro x hx y hy
        refine hcross x ?_ y ?_
        · rw [keysOf_good hpar]
          exact hx
        · rw [nodeKeysF_leaf 0 (le_of_eq hklen)] at hy
          exact hy
    · rw [branchPushChild_entriesOf hleaf]
      rfl

theorem entriesOf_leaf (l : LeafN) : entriesOf (.leaf l) = l.keys.zip l.values := rfl

theorem branchPushChild_heightOf (hh : Nat) (ks : List Nat) (cs : List Node) (c : Node) :
    (branchPushChild (.branch hh ks cs) c).heightOf = hh := rfl

theorem branchPushChild_branchLen (hh : Nat) (ks : List Nat) (cs : List Node) (c : Node) :
    (branchPushChild (.branch hh ks cs) c).branchLen = ks.length + 1 := by
  simp [branchPushChild, Node.branchLen, Node.branchKeys]

theorem loadStep_cases (Lcap Bcap : Nat) (s : LoadState) (kv : Nat × Nat) :
    loadStep Lcap Bcap s kv =
      if s.leaf.isFull Lcap then
        if s.parent.branchIsFull Bcap then
          ⟨s.size + 1, pushStack Bcap s.parent s.stack,
            branchPushChild (newBranch 1) (.leaf s.leaf), ⟨[kv.1], [kv.2]⟩⟩
        else
          ⟨s.size + 1, s.stack, branchPushChild s.parent (.leaf s.leaf), ⟨[kv.1], [kv.2]⟩⟩
      else
        ⟨s.size + 1, s.stack, s.parent,
          ⟨s.leaf.keys ++ [kv.1], s.leaf.values ++ [kv.2]⟩⟩ := by
  unfold loadStep
  by_cases hfull : s.leaf.isFull Lcap = true
  · by_cases hpfull : s.parent.branchIsFull Bcap = true
    · simp [hfull, hpfull, nullLeaf]
    · simp [hfull, hpfull, nullLeaf]
  · simp [hfull]

theorem loadStep_inv {Lcap Bcap : Nat} (hL : 1 ≤ Lcap) (hB : 2 ≤ Bcap)
    {consumed : List (Nat × Nat)} {s : LoadState} {kv : Nat × Nat}
    (hinv : LoadInv Lcap Bcap consumed s)
    (hsort : ((consumed ++ [kv]).map Prod.fst).Pairwise (· < ·)) :
    LoadInv Lcap Bcap (consumed ++ [kv]) (loadStep Lcap Bcap s kv) := by
  obtain ⟨hsz, hcat, hlen, hcap, hpar, hph, hpl, hsg, hnem⟩ := hinv
  have hzmap : (s.leaf.keys.zip s.leaf.values).map Prod.fst = s.leaf.keys :=
    List.map_fst_zip _ _ (le_of_eq hlen)
  have hmap : (consumed ++ [kv]).map Prod.fst =
      ((stackFlat s.stack).map Prod.fst ++
        ((entriesOf s.parent).map Prod.fst ++ s.leaf.keys)) ++ [kv.1] := by
    rw [hcat]
    simp [List.map_append, hzmap]
  rw [hmap] at hsort
  have hs0 : ((stackFlat s.stack).map Prod.fst ++
      ((entriesOf s.parent).map Prod.fst ++ s.leaf.keys)).Pairwise (· < ·) :=
    pairwise_append_left hsort
  have hlenrfl : s.leaf.len = s.leaf.keys.length := rfl
  rw [loadStep_cases]
  by_cases hfull : s.leaf.isFull Lcap = true
  · have hlL : s.leaf.len = Lcap := by
      simpa [LeafN.isFull] using hfull
    have hZsorted : s.leaf.keys.Pairwise (· < ·) :=
      pairwise_append_right (pairwise_append_right hs0)
    have hleafgood : goodNode Lcap Bcap 0 (.leaf s.leaf) = true :=
      goodNode_iff.mpr ⟨wfNodeB_leaf.mpr ⟨hlen, hZsorted, by omega, hcap⟩, rfl⟩
    rw [if_pos hfull]
    by_cases hpfull : s.parent.branchIsFull Bcap = true
    · rw [if_pos hpfull]
      have hpgood : goodNode Lcap Bcap 1 s.parent = true := by
        rcases hpar with hpe | hpg
        · exfalso
          rw [hpe] at hpfull
          simp [Node.branchIsFull, Node.branchLen, Node.branchKeys, newBranch] at hpfull
          omega
        · exact hpg
      have hs0' := hs0
      rw [← List.append_assoc] at hs0'
      have hAP := pairwise_append_left hs0'
      obtain ⟨hsg', hflat'⟩ := pushStack_good (by omega) s.stack 1 s.parent hpgood hsg
        (by rw [keysOf_eq_map]; exact hAP)
      have hnp : entriesOf (branchPushChild (newBranch 1) (.leaf s.leaf)) =
          entriesOf (.leaf s.leaf) := branchPushChild_new_entriesOf hleafgood
      have hnpg : goodNode Lcap Bcap 1 (branchPushChild (newBranch 1) (.leaf s.leaf)) = true :=
        branchPushChild_new_good (by omega) hleafgood
      refine ⟨?_, ?_, rfl, ?_, Or.inr hnpg, rfl, ?_, hsg', ?_⟩
      · show s.size + 1 = (consumed ++ [kv]).length
        simp [hsz]
      · show consumed ++ [kv] =
          stackFlat (pushStack Bcap s.parent s.stack) ++
            entriesOf (branchPushChild (newBranch 1) (.leaf s.leaf)) ++ [kv.1].zip [kv.2]
        rw [hflat', hnp, hcat, entriesOf_leaf]
        simp [List.append_assoc]
      · show LeafN.len ⟨[kv.1], [kv.2]⟩ ≤ Lcap
        simpa [LeafN.len] using hL
      · show (branchPushChild (newBranch 1) (Node.leaf s.leaf)).branchLen ≤ Bcap
        have h1 : (branchPushChild (newBranch 1) (.leaf s.leaf)).branchLen = 1 := rfl
        omega
      · intro _
        show 1 ≤ LeafN.len ⟨[kv.1], [kv.2]⟩
        simp [LeafN.len]
    · rw [if_neg hpfull]
      have hlt : s.parent.branchLen < Bcap := by
        have hne2 : ¬ s.parent.branchLen = Bcap := by
          intro he
          apply hpfull
          simp [Node.branchIsFull, he]
        omega
      obtain ⟨hpg', hpe'⟩ := flushLeaf_good (by omega) hpar hlt hleafgood
        (by rw [keysOf_eq_map]; exact pairwise_append_cross (pairwise_append_right hs0))
      have hshape : ∃ hh pks pcs, s.parent = .branch hh pks pcs := by
        rcases hpar with hpe | hpg
        · exact ⟨1, [], [], hpe⟩
        · obtain ⟨pks, pcs, hsh⟩ := goodNode_branch_shape hpg
          exact ⟨1, pks, pcs, hsh⟩
      obtain ⟨hh, pks, pcs, hsh⟩ := hshape
      refine ⟨?_, ?_, rfl, ?_, Or.inr hpg', ?_, ?_, hsg, ?_⟩
      · show s.size + 1 = (consumed ++ [kv]).length
        simp [hsz]
      · show consumed ++ [kv] =
          stackFlat s.stack ++
            entriesOf (branchPushChild s.parent (.leaf s.leaf)) ++ [kv.1].zip [kv.2]
        rw [hpe', hcat]
        simp [List.append_assoc]
      · show LeafN.len ⟨[kv.1], [kv.2]⟩ ≤ Lcap
        simpa [LeafN.len] using hL
      · rw [hsh]
        have hh1 : hh = 1 := by
          rw [hsh] at hph
          simpa [Node.heightOf] using hph
        rw [hh1]
        exact branchPushChild_heightOf 1 pks pcs (.leaf s.leaf)
      · rw [hsh, branchPushChild_branchLen]
        rw [hsh] at hlt
        simp only [Node.branchLen, Node.branchKeys] at hlt
        omega
      · intro _
        show 1 ≤ LeafN.len ⟨[kv.1], [kv.2]⟩
        simp [LeafN.len]
  · rw [if_neg hfull]
    have hnfull : ¬ s.leaf.len = Lcap := by
      intro he
      apply hfull
      simp [LeafN.isFull, he]
    refine ⟨?_, ?_, ?_, ?_, hpar, hph, hpl, hsg, ?_⟩
    · show s.size + 1 = (consumed ++ [kv]).length
      simp [hsz]
    · show consumed ++ [kv] =
        stackFlat s.stack ++ entriesOf s.parent ++
          (s.leaf.keys ++ [kv.1]).zip (s.leaf.values ++ [kv.2])
      rw [List.zip_append hlen, hcat]
      simp [List.append_assoc]
    · show (s.leaf.keys ++ [kv.1]).length = (s.leaf.values ++ [kv.2]).length
      simp [hlen]
    · show LeafN.len ⟨s.leaf.keys ++ [kv.1], s.leaf.values ++ [kv.2]⟩ ≤ Lcap
      simp only [LeafN.len, List.length_append, List.length_singleton]
      omega
    · intro _
      show 1 ≤ LeafN.len ⟨s.leaf.keys ++ [kv.1], s.leaf.values ++ [kv.2]⟩
      simp [LeafN.len]

theorem loadInit_inv (Lcap Bcap : Nat) :
    LoadInv Lcap Bcap [] ⟨0, [], newBranch 1, nullLeaf⟩ := by
  refine ⟨rfl, rfl, rfl, Nat.zero_le _, Or.inl rfl, rfl, Nat.zero_le _, trivial, ?_⟩
  intro h
  exact absurd rfl h

theorem load_fold_inv {Lcap Bcap : Nat} (hL : 1 ≤ Lcap) (hB : 2 ≤ Bcap) :
    ∀ (remaining consumed : List (Nat × Nat)) (s : LoadState),
      LoadInv Lcap Bcap consumed s →
      ((consumed ++ remaining).map Prod.fst).Pairwise (· < ·) →
      LoadInv Lcap Bcap (consumed ++ remaining)
        (remaining.foldl (loadStep Lcap Bcap) s) := by
  intro remaining
  induction remaining with
  | nil =>
    intro consumed s hinv _
    simpa using hinv
  | cons kv rest ih =>
    intro consumed s hinv hsort
    have hs1 : ((consumed ++ [kv]).map Prod.fst).Pairwise (· < ·) :=
      hsort.sublist ((((List.nil_sublist rest).cons₂ kv).append_left consumed).map Prod.fst)
    have hstep := loadStep_inv hL hB hinv hs1
    have hrec := ih (consumed ++ [kv]) (loadStep Lcap Bcap s kv) hstep
      (by simpa [List.append_assoc] using hsort)
    simpa [List.append_assoc] using hrec

theorem stackToRoot_good {Lcap Bcap : Nat} (hB : 2 ≤ Bcap)
    {input : List (Nat × Nat)} {stack2 : List Node} {sz : Nat}
    (hsg2 : StackGood Lcap Bcap 2 stack2)
    (hne2 : stack2 ≠ [])
    (hflat2 : stackFlat stack2 = input)
    (hsort : (input.map Prod.fst).Pairwise (· < ·))
    (hsz : sz = input.length) :
    goodTree Lcap Bcap
      (trimRoot ⟨sz, (foldStackF Bcap (3 * stack2.length + 3) stack2).head?⟩) ∧
    treeEntries
      (trimRoot ⟨sz, (foldStackF Bcap (3 * stack2.length + 3) stack2).head?⟩) = input := by
  have hphi : stackPhi Bcap stack2 ≤ 3 * stack2.length + 3 := by
    have hfc : fullCount Bcap stack2 ≤ stack2.length :=
      List.length_filter_le _ _
    simp only [stackPhi]
    omega
  obtain ⟨r, hr, hfold, h2hr, hrg, hrent⟩ :=
    foldStackF_good hB (3 * stack2.length + 3) stack2 2 hne2 hsg2
      (by rw [hflat2]; exact hsort) hphi
  rw [hfold]
  obtain ⟨hf, rfl⟩ : ∃ hf, hr = hf + 1 := ⟨hr - 1, by omega⟩
  obtain ⟨hr2, h1r2, hler2, hgood2, hent2⟩ := trimRootLoop_good (r.heightOf + 1) hf r hrg
  have hh2 := goodNode_heightOf hgood2
  constructor
  · show goodTree Lcap Bcap ⟨sz, some (trimRootLoop (r.heightOf + 1) r)⟩
    refine ⟨by omega, ?_, ?_⟩
    · rw [hh2]
      exact hgood2
    · rw [entriesOf_good hgood2] at hent2
      rw [show entriesOf (trimRootLoop (r.heightOf + 1) r) =
          entriesF (trimRootLoop (r.heightOf + 1) r).heightOf
            (trimRootLoop (r.heightOf + 1) r) from rfl, hh2, hent2, hrent, hflat2]
      exact hsz
  · show entriesF ((trimRootLoop (r.heightOf + 1) r).heightOf + 1)
        (trimRootLoop (r.heightOf + 1) r) = input
    rw [hh2, entriesF_stable hr2 (trimRootLoop (r.heightOf + 1) r)
        (goodNode_iff.mp hgood2).1 (hr2 + 1) (by omega),
      ← entriesOf_good hgood2, hent2, hrent, hflat2]

theorem loadFinish_good {Lcap Bcap : Nat} (hL : 1 ≤ Lcap) (hB : 2 ≤ Bcap)
    {input : List (Nat × Nat)} {s : LoadState}
    (hinv : LoadInv Lcap Bcap input s)
    (hsort : (input.map Prod.fst).Pairwise (· < ·)) :
    goodTree Lcap Bcap (loadFinish Lcap Bcap s) ∧
    treeEntries (loadFinish Lcap Bcap s) = input := by
  obtain ⟨hsz, hcat, hlen, hcap, hpar, hph, hpl, hsg, hnem⟩ := hinv
  by_cases hzero : s.size = 0
  · have hinp : input = [] := List.length_eq_zero.mp (by omega)
    have hfin : loadFinish Lcap Bcap s = ⟨0, none⟩ := by
      unfold loadFinish
      rw [if_pos hzero]
    rw [hfin, hinp]
    exact ⟨rfl, rfl⟩
  · have hne : input ≠ [] := by
      intro he
      apply hzero
      rw [hsz, he]
      rfl
    have hlf1 : 1 ≤ s.leaf.len := hnem hne
    have hzmap : (s.leaf.keys.zip s.leaf.values).map Prod.fst = s.leaf.keys :=
      List.map_fst_zip _ _ (le_of_eq hlen)
    have hmap : input.map Prod.fst =
        (stackFlat s.stack).map Prod.fst ++ (entriesOf s.parent).map Prod.fst ++
          s.leaf.keys := by
      rw [hcat]
      simp [List.map_append, hzmap]
    rw [hmap] at hsort
    have hsortA : ((stackFlat s.stack).map Prod.fst ++
        ((entriesOf s.parent).map Prod.fst ++ s.leaf.keys)).Pairwise (· < ·) := by
      rw [← List.append_assoc]
      exact hsort
    have hZ : s.leaf.keys.Pairwise (· < ·) :=
      pairwise_append_right (pairwise_append_right hsortA)
    have hleafgood : goodNode Lcap Bcap 0 (.leaf s.leaf) = true :=
      goodNode_iff.mpr ⟨wfNodeB_leaf.mpr ⟨hlen, hZ, hlf1, hcap⟩, rfl⟩
    by_cases hpfull : s.parent.branchIsFull Bcap = true
    · have hfin : loadFinish Lcap Bcap s =
          trimRoot ⟨s.size,
            (foldStackF Bcap
              (3 * (pushStack Bcap (branchPushChild (newBranch 1) (.leaf s.leaf))
                (pushStack Bcap s.parent s.stack)).length + 3)
              (pushStack Bcap (branchPushChild (newBranch 1) (.leaf s.leaf))
                (pushStack Bcap s.parent s.stack))).head?⟩ := by
        unfold loadFinish
        rw [if_neg hzero, if_pos hpfull]
      rw [hfin]
      have hpgood : goodNode Lcap Bcap 1 s.parent = true := by
        rcases hpar with hpe | hpg
        · exfalso
          rw [hpe] at hpfull
          simp [Node.branchIsFull, Node.branchLen, Node.branchKeys, newBranch] at hpfull
          omega
        · exact hpg
      obtain ⟨hsg1, hflat1⟩ := pushStack_good (by omega) s.stack 1 s.parent hpgood hsg
        (by rw [keysOf_eq_map]; exact pairwise_append_left hsort)
      have hnb0 : (newBranch 1).branchLen = 0 := rfl
      obtain ⟨hp2g, hp2e⟩ := flushLeaf_good (by omega)
        (Or.inl rfl : newBranch 1 = newBranch 1 ∨
          goodNode Lcap Bcap 1 (newBranch 1) = true)
        (by omega) hleafgood
        (by intro x hx; exact absurd hx (by simp [keysOf, newBranch, nodeKeysF, entriesF]))
      have hnbe : entriesOf (newBranch 1) = [] := rfl
      have hkp2 : keysOf (branchPushChild (newBranch 1) (.leaf s.leaf)) = s.leaf.keys := by
        rw [keysOf_eq_map, hp2e, hnbe, List.nil_append]
        exact hzmap
      obtain ⟨hsg2, hflat2⟩ := pushStack_good (by omega)
        (pushStack Bcap s.parent s.stack) 1
        (branchPushChild (newBranch 1) (.leaf s.leaf)) hp2g hsg1
        (by rw [hflat1, hkp2, List.map_append]; exact hsort)
      apply stackToRoot_good hB hsg2 (pushStack_ne_nil _ _ _) ?_ ?_ hsz
      · rw [hflat2, hflat1, hp2e, hnbe, List.nil_append, hcat, List.append_assoc]
      · rw [hmap]
        exact hsort
    · have hfin : loadFinish Lcap Bcap s =
          trimRoot ⟨s.size,
            (foldStackF Bcap
              (3 * (pushStack Bcap (branchPushChild s.parent (.leaf s.leaf))
                s.stack).length + 3)
              (pushStack Bcap (branchPushChild s.parent (.leaf s.leaf))
                s.stack)).head?⟩ := by
        unfold loadFinish
        rw [if_neg hzero, if_neg hpfull]
      rw [hfin]
      have hlt : s.parent.branchLen < Bcap := by
        have hne2 : ¬ s.parent.branchLen = Bcap := by
          intro he
          apply hpfull
          simp [Node.branchIsFull, he]
        omega
      obtain ⟨hp2g, hp2e⟩ := flushLeaf_good (by omega) hpar hlt hleafgood
        (by rw [keysOf_eq_map]
            exact pairwise_append_cross (pairwise_append_right hsortA))
      have hkp2 : keysOf (branchPushChild s.parent (.leaf s.leaf)) =
          (entriesOf s.parent).map Prod.fst ++ s.leaf.keys := by
        rw [keysOf_eq_map, hp2e, List.map_append, hzmap]
      obtain ⟨hsg2, hflat2⟩ := pushStack_good (by omega) s.stack 1
        (branchPushChild s.parent (.leaf s.leaf)) hp2g hsg
        (by rw [hkp2]; exact hsortA)
      apply stackToRoot_good hB hsg2 (pushStack_ne_nil _ _ _) ?_ ?_ hsz
      · rw [hflat2, hp2e, hcat, List.append_assoc]
      · rw [hmap]
        exact hsort

theorem load_good {Lcap Bcap : Nat} (hL : 1 ≤ Lcap) (hB : 2 ≤ Bcap)
    (input : List (Nat × Nat)) (hsort : (input.map Prod.fst).Pairwise (· < ·)) :
    goodTree Lcap Bcap (load Lcap Bcap input) ∧
    treeEntries (load Lcap Bcap input) = input := by
  have hinv := load_fold_inv hL hB input [] ⟨0, [], newBranch 1, nullLeaf⟩
    (loadInit_inv Lcap Bcap) (by simpa using hsort)
  rw [List.nil_append] at hinv
  exact loadFinish_good hL hB hinv hsort

/-- C2: for every input stream of pairs in strictly ascending key order
(at any leaf fanout ≥ 1 and branch fanout ≥ 2, which covers the crate's
`> 3` requirement), `load` produces a tree whose `len()` is the number of
pairs, on which `get(&k)` returns `Some(v)` for every pair `(k, v)` of the
stream and `None` for every other key; an empty stream yields the empty
tree, with no root and size 0. -/
theorem load_spec (Lcap Bcap : Nat) (hL : 1 ≤ Lcap) (hB : 2 ≤ Bcap)
    (input : List (Nat × Nat)) (hsort : (input.map Prod.fst).Pairwise (· < ·)) :
    treeLen (load Lcap Bcap input) = input.length ∧
    (∀ k v, (k, v) ∈ input → treeGet (load Lcap Bcap input) k = some v) ∧
    (∀ k, k ∉ input.map Prod.fst → treeGet (load Lcap Bcap input) k = none) ∧
    (input = [] → load Lcap Bcap input = ⟨0, none⟩) := by
  obtain ⟨hgt, hent⟩ := load_good hL hB input hsort
  cases hroot : (load Lcap Bcap input).root with
  | none =>
    have hsz : (load Lcap Bcap input).size = 0 := by
      have h2 := hgt
      unfold goodTree at h2
      rw [hroot] at h2
      exact h2
    have hinp : input = [] := by
      rw [← hent]
      unfold treeEntries
      rw [hroot]
    refine ⟨?_, ?_, ?_, ?_⟩
    · show (load Lcap Bcap input).size = input.length
      rw [hsz, hinp]
      rfl
    · intro k v hkv
      rw [hinp] at hkv
      cases hkv
    · intro k _
      show treeGet (load Lcap Bcap input) k = none
      unfold treeGet
      rw [hroot]
    · intro _
      have heta : load Lcap Bcap input =
          ⟨(load Lcap Bcap input).size, (load Lcap Bcap input).root⟩ := rfl
      rw [heta, hroot, hsz]
  | some r =>
    have hg2 : 1 ≤ r.heightOf ∧ goodNode Lcap Bcap r.heightOf r = true ∧
        (load Lcap Bcap input).size = (entriesOf r).length := by
      have h2 := hgt
      unfold goodTree at h2
      rw [hroot] at h2
      exact h2
    obtain ⟨h1r, hrg, hszlen⟩ := hg2
    obtain ⟨hf, hhf⟩ : ∃ hf, r.heightOf = hf + 1 := ⟨r.heightOf - 1, by omega⟩
    have hwf : wfNodeB Lcap Bcap (hf + 1) r = true := by
      rw [← hhf]
      exact (goodNode_iff.mp hrg).1
    have hentr : entriesF (hf + 1) r = input := by
      have h2 : treeEntries (load Lcap Bcap input) = entriesF (r.heightOf + 1) r := by
        unfold treeEntries
        rw [hroot]
      rw [h2, hhf,
        entriesF_stable (hf + 1) r hwf (hf + 1 + 1) (by omega)] at hent
      exact hent
    have htg : ∀ k, treeGet (load Lcap Bcap input) k = nodeGet (r.heightOf + 1) r k := by
      intro k
      unfold treeGet
      rw [hroot]
    refine ⟨?_, ?_, ?_, ?_⟩
    · show (load Lcap Bcap input).size = input.length
      rw [hszlen, entriesOf_good hrg, hhf, hentr]
    · intro k v hkv
      rw [htg k]
      exact ((nodeGet_spec hf r hwf k (r.heightOf + 1) (by omega)).1 v).mpr
        (by rw [hentr]; exact hkv)
    · intro k hk
      rw [htg k]
      refine (nodeGet_spec hf r hwf k (r.heightOf + 1) (by omega)).2.mpr ?_
      have hnk : nodeKeysF (hf + 1) r = input.map Prod.fst := by
        unfold nodeKeysF
        rw [hentr]
      rw [hnk]
      exact hk
    · intro hinp
      rw [hinp]
      rfl

/-- Witness for `load_spec` at fanout 4 on a five-pair ascending stream. -/
theorem load_spec_witness :
    treeLen (load 4 4 [(1, 10), (2, 20), (3, 30), (4, 40), (5, 50)]) = 5 ∧
    treeGet (load 4 4 [(1, 10), (2, 20), (3, 30), (4, 40), (5, 50)]) 3 = some 30 ∧
    treeGet (load 4 4 [(1, 10), (2, 20), (3, 30), (4, 40), (5, 50)]) 6 = none := by
  have h := load_spec 4 4 (by decide) (by decide)
    [(1, 10), (2, 20), (3, 30), (4, 40), (5, 50)] (by decide)
  exact ⟨by simpa using h.1, h.2.1 3 30 (by decide), h.2.2.1 6 (by decide)⟩

/-! ### Cursor navigation on good trees -/

theorem nodeAt_append : ∀ (loc : List Nat) (n : Node) (i : Nat),
    nodeAt n (loc ++ [i]) = (nodeAt n loc).childrenOf.getD i nullNode := by
  intro loc
  induction loc with
  | nil => intro n i; rfl
  | cons j rest ih =>
    intro n i
    show nodeAt (n.childrenOf.getD j nullNode) (rest ++ [i]) = _
    rw [ih]
    rfl

theorem goodNode_child {Lcap Bcap hf hh : Nat} {ks : List Nat} {cs : List Node}
    (hg : goodNode Lcap Bcap (hf + 1) (.branch hh ks cs) = true)
    {i : Nat} (hi : i < cs.length) :
    goodNode Lcap Bcap hf (cs.getD i nullNode) = true := by
  obtain ⟨hwf, hhk⟩ := goodNode_iff.mp hg
  have hcm : cs.getD i nullNode ∈ cs := by
    rw [List.getD_eq_getElem cs nullNode hi]
    exact List.getElem_mem hi
  exact goodNode_iff.mpr
    ⟨(wfNodeB_branch.mp hwf).2.2.2.2.2.1 _ hcm, (highKeyEqB_branch.mp hhk).2.1 _ hcm⟩

theorem wfNode_branch_shape {Lcap Bcap hf : Nat} {n : Node}
    (hw : wfNodeB Lcap Bcap (hf + 1) n = true) :
    ∃ ks cs, n = .branch (hf + 1) ks cs := by
  cases n with
  | leaf _ => simp [wfNodeB] at hw
  | branch hh ks cs => exact ⟨ks, cs, by rw [(wfNodeB_branch.mp hw).1]⟩

theorem wfNode_child {Lcap Bcap hf hh : Nat} {ks : List Nat} {cs : List Node}
    (hw : wfNodeB Lcap Bcap (hf + 1) (.branch hh ks cs) = true)
    {i : Nat} (hi : i < cs.length) :
    wfNodeB Lcap Bcap hf (cs.getD i nullNode) = true := by
  have hcm : cs.getD i nullNode ∈ cs := by
    rw [List.getD_eq_getElem cs nullNode hi]
    exact List.getElem_mem hi
  exact (wfNodeB_branch.mp hw).2.2.2.2.2.1 _ hcm

theorem lastKeyF_mem {Lcap Bcap : Nat} :
    ∀ (h : Nat) (n : Node), wfNodeB Lcap Bcap h n = true →
      lastKeyF h n ∈ nodeKeysF h n := by
  intro h
  induction h with
  | zero =>
    intro n hw
    cases n with
    | branch _ _ _ => simp [wfNodeB] at hw
    | leaf l =>
      obtain ⟨hl1, -, hl3, -⟩ := wfNodeB_leaf.mp hw
      rw [nodeKeysF_leaf 0 (le_of_eq hl1)]
      show l.keys.getD (l.len - 1) 0 ∈ l.keys
      have hlL : l.len = l.keys.length := rfl
      rw [List.getD_eq_getElem l.keys 0 (by omega)]
      exact List.getElem_mem (by omega)
  | succ hf ih =>
    intro n hw
    obtain ⟨ks, cs, rfl⟩ := wfNode_branch_shape hw
    obtain ⟨-, hlen, -, hne, -, -, -⟩ := wfNodeB_branch.mp hw
    have hic : cs.length - 1 < cs.length := by omega
    have hm := ih _ (wfNode_child hw hic)
    show lastKeyF hf (cs.getD (cs.length - 1) nullNode) ∈
      nodeKeysF (hf + 1) (.branch (hf + 1) ks cs)
    exact mem_nodeKeysF_branch.mpr ⟨cs.getD (cs.length - 1) nullNode,
      by rw [List.getD_eq_getElem cs nullNode hic]; exact List.getElem_mem hic, hm⟩

theorem lowestCursor_form {Lcap Bcap : Nat} {root : Node} :
    ∀ (hf : Nat) (loc : List Nat) (c : Node),
      nodeAt root loc = c →
      wfNodeB Lcap Bcap (hf + 1) c = true →
      ∃ (F : List (List Nat × Int)) (lloc : List Nat),
        ∀ (S : List (List Nat × Int)) (fuel : Nat), hf + 1 ≤ fuel →
          lowestCursor root fuel loc S = ⟨S ++ F, some lloc, 0⟩ := by
  intro hf
  induction hf with
  | zero =>
    intro loc c hat hg
    obtain ⟨ks, cs, rfl⟩ := wfNode_branch_shape hg
    obtain ⟨-, hlen, -, hne, -, -, -⟩ := wfNodeB_branch.mp hg
    refine ⟨[(loc, (0 : Int))], loc ++ [0], fun S fuel hfuel => ?_⟩
    obtain ⟨fuel, rfl⟩ : ∃ f, fuel = f + 1 := ⟨fuel - 1, by omega⟩
    show (if (nodeAt root loc).branchIsEmpty = true then nullCursor
      else if (nodeAt root loc).hasBranches = true then
        lowestCursor root fuel (loc ++ [0]) (S ++ [(loc, (0 : Int))])
      else ⟨S ++ [(loc, (0 : Int))], some (loc ++ [0]), 0⟩) = _
    rw [hat,
      if_neg (by
        simp only [Node.branchIsEmpty, Node.branchLen, Node.branchKeys, decide_eq_true_eq]
        omega),
      if_neg (by simp [Node.hasBranches])]
  | succ hf ih =>
    intro loc c hat hg
    obtain ⟨ks, cs, rfl⟩ := wfNode_branch_shape hg
    obtain ⟨-, hlen, -, hne, -, -, -⟩ := wfNodeB_branch.mp hg
    have hc0 : nodeAt root (loc ++ [0]) = cs.getD 0 nullNode := by
      rw [nodeAt_append, hat]
      rfl
    have hg0 : wfNodeB Lcap Bcap (hf + 1) (cs.getD 0 nullNode) = true :=
      wfNode_child hg (by omega)
    obtain ⟨F, lloc, hF⟩ := ih (loc ++ [0]) (cs.getD 0 nullNode) hc0 hg0
    refine ⟨(loc, (0 : Int)) :: F, lloc, fun S fuel hfuel => ?_⟩
    obtain ⟨fuel, rfl⟩ : ∃ f, fuel = f + 1 := ⟨fuel - 1, by omega⟩
    show (if (nodeAt root loc).branchIsEmpty = true then nullCursor
      else if (nodeAt root loc).hasBranches = true then
        lowestCursor root fuel (loc ++ [0]) (S ++ [(loc, (0 : Int))])
      else ⟨S ++ [(loc, (0 : Int))], some (loc ++ [0]), 0⟩) = _
    rw [hat,
      if_neg (by
        simp only [Node.branchIsEmpty, Node.branchLen, Node.branchKeys, decide_eq_true_eq]
        omega),
      if_pos (by
        simp only [Node.hasBranches, decide_eq_true_eq]
        omega)]
    rw [hF (S ++ [(loc, (0 : Int))]) fuel (by omega)]
    simp

theorem highestCursor_form {Lcap Bcap : Nat} {root : Node} :
    ∀ (hf : Nat) (loc : List Nat) (c : Node),
      nodeAt root loc = c →
      wfNodeB Lcap Bcap (hf + 1) c = true →
      ∃ (F : List (List Nat × Int)) (rloc : List Nat) (l : LeafN),
        (∀ (S : List (List Nat × Int)) (fuel : Nat), hf + 1 ≤ fuel →
          highestCursor root fuel loc S = ⟨S ++ F, some rloc, l.len - 1⟩) ∧
        nodeAt root rloc = .leaf l ∧
        wfNodeB Lcap Bcap 0 (.leaf l) = true ∧
        l.keys.getD (l.len - 1) 0 = lastKeyF (hf + 1) c := by
  intro hf
  induction hf with
  | zero =>
    intro loc c hat hg
    obtain ⟨ks, cs, rfl⟩ := wfNode_branch_shape hg
    obtain ⟨-, hlen, -, hne, -, -, -⟩ := wfNodeB_branch.mp hg
    have hi : ks.length - 1 < ks.length := by omega
    have hic : ks.length - 1 < cs.length := by omega
    have hcm : nodeAt root (loc ++ [ks.length - 1]) = cs.getD (ks.length - 1) nullNode := by
      rw [nodeAt_append, hat]
      rfl
    have hcg : wfNodeB Lcap Bcap 0 (cs.getD (ks.length - 1) nullNode) = true :=
      wfNode_child hg hic
    obtain ⟨l, hleq⟩ : ∃ l, cs.getD (ks.length - 1) nullNode = .leaf l := by
      cases hc : cs.getD (ks.length - 1) nullNode with
      | leaf l => exact ⟨l, rfl⟩
      | branch _ _ _ =>
        rw [hc] at hcg
        simp [wfNodeB] at hcg
    have hkey : l.keys.getD (l.len - 1) 0 =
        lastKeyF (0 + 1) (Node.branch (0 + 1) ks cs) := by
      show l.highest = lastKeyF 0 (cs.getD (cs.length - 1) nullNode)
      rw [show cs.length - 1 = ks.length - 1 from by omega, hleq]
      rfl
    refine ⟨[(loc, ((ks.length - 1 : Nat) : Int))], loc ++ [ks.length - 1], l,
      fun S fuel hfuel => ?_, by rw [hcm]; exact hleq, by rw [← hleq]; exact hcg, hkey⟩
    obtain ⟨fuel, rfl⟩ : ∃ f, fuel = f + 1 := ⟨fuel - 1, by omega⟩
    have hlf : leafAt root (loc ++ [ks.length - 1]) = l := by
      unfold leafAt
      rw [hcm, hleq]
    show (if (nodeAt root loc).branchIsEmpty = true then nullCursor
      else if (nodeAt root loc).hasBranches = true then
        highestCursor root fuel (loc ++ [(nodeAt root loc).branchLen - 1])
          (S ++ [(loc, (((nodeAt root loc).branchLen - 1 : Nat) : Int))])
      else ⟨S ++ [(loc, (((nodeAt root loc).branchLen - 1 : Nat) : Int))],
        some (loc ++ [(nodeAt root loc).branchLen - 1]),
        (leafAt root (loc ++ [(nodeAt root loc).branchLen - 1])).len - 1⟩) = _
    rw [hat,
      if_neg (by
        simp only [Node.branchIsEmpty, Node.branchLen, Node.branchKeys, decide_eq_true_eq]
        omega),
      if_neg (by simp [Node.hasBranches])]
    show (⟨S ++ [(loc, ((ks.length - 1 : Nat) : Int))], some (loc ++ [ks.length - 1]),
      (leafAt root (loc ++ [ks.length - 1])).len - 1⟩ : Cursor) = _
    rw [hlf]
  | succ hf ih =>
    intro loc c hat hg
    obtain ⟨ks, cs, rfl⟩ := wfNode_branch_shape hg
    obtain ⟨-, hlen, -, hne, -, -, -⟩ := wfNodeB_branch.mp hg
    have hi : ks.length - 1 < ks.length := by omega
    have hic : ks.length - 1 < cs.length := by omega
    have hcm : nodeAt root (loc ++ [ks.length - 1]) = cs.getD (ks.length - 1) nullNode := by
      rw [nodeAt_append, hat]
      rfl
    have hcg : wfNodeB Lcap Bcap (hf + 1) (cs.getD (ks.length - 1) nullNode) = true :=
      wfNode_child hg hic
    obtain ⟨F, rloc, l, hF, hrloc, hlg, hkey⟩ :=
      ih (loc ++ [ks.length - 1]) (cs.getD (ks.length - 1) nullNode) hcm hcg
    have hkey2 : l.keys.getD (l.len - 1) 0 =
        lastKeyF (hf + 1 + 1) (Node.branch (hf + 1 + 1) ks cs) := by
      show l.keys.getD (l.len - 1) 0 = lastKeyF (hf + 1) (cs.getD (cs.length - 1) nullNode)
      rw [show cs.length - 1 = ks.length - 1 from by omega]
      exact hkey
    refine ⟨(loc, ((ks.length - 1 : Nat) : Int)) :: F, rloc, l,
      fun S fuel hfuel => ?_, hrloc, hlg, hkey2⟩
    obtain ⟨fuel, rfl⟩ : ∃ f, fuel = f + 1 := ⟨fuel - 1, by omega⟩
    show (if (nodeAt root loc).branchIsEmpty = true then nullCursor
      else if (nodeAt root loc).hasBranches = true then
        highestCursor root fuel (loc ++ [(nodeAt root loc).branchLen - 1])
          (S ++ [(loc, (((nodeAt root loc).branchLen - 1 : Nat) : Int))])
      else ⟨S ++ [(loc, (((nodeAt root loc).branchLen - 1 : Nat) : Int))],
        some (loc ++ [(nodeAt root loc).branchLen - 1]),
        (leafAt root (loc ++ [(nodeAt root loc).branchLen - 1])).len - 1⟩) = _
    rw [hat,
      if_neg (by
        simp only [Node.branchIsEmpty, Node.branchLen, Node.branchKeys, decide_eq_true_eq]
        omega),
      if_pos (by
        simp only [Node.hasBranches, decide_eq_true_eq]
        omega)]
    show highestCursor root fuel (loc ++ [ks.length - 1])
        (S ++ [(loc, ((ks.length - 1 : Nat) : Int))]) = _
    rw [hF (S ++ [(loc, ((ks.length - 1 : Nat) : Int))]) fuel (by omega)]
    simp

theorem stepForwardLoop_step (root : Node) (fuel : Nat) (T : List (List Nat × Int))
    (loc : List Nat) (idx : Int) :
    stepForwardLoop root (fuel + 1) (T ++ [(loc, idx)]) =
      (if idx + 1 < ((nodeAt root loc).branchLen : Int) then
        if (nodeAt root loc).hasBranches then
          stepForwardLoop root fuel
            ((T ++ [(loc, idx + 1)]) ++ [(loc ++ [(idx + 1).toNat], (-1 : Int))])
        else some (T ++ [(loc, idx + 1)], loc ++ [(idx + 1).toNat])
      else stepForwardLoop root fuel T) := by
  conv_lhs => rw [stepForwardLoop]
  rw [List.getLast?_concat, List.dropLast_concat]

theorem stepLoop_desc {Lcap Bcap : Nat} {root : Node} :
    ∀ (hf : Nat) (loc : List Nat) (c : Node),
      nodeAt root loc = c →
      wfNodeB Lcap Bcap (hf + 1) c = true →
      ∀ (F : List (List Nat × Int)) (lloc : List Nat),
        (∀ (S : List (List Nat × Int)) (fuel : Nat), hf + 1 ≤ fuel →
          lowestCursor root fuel loc S = ⟨S ++ F, some lloc, 0⟩) →
        ∀ (T : List (List Nat × Int)) (fuel : Nat), hf + 1 ≤ fuel →
          stepForwardLoop root fuel (T ++ [(loc, (-1 : Int))]) = some (T ++ F, lloc) := by
  intro hf
  induction hf with
  | zero =>
    intro loc c hat hg F lloc hlow T fuel hfuel
    obtain ⟨ks, cs, rfl⟩ := wfNode_branch_shape hg
    obtain ⟨-, hlen, -, hne, -, -, -⟩ := wfNodeB_branch.mp hg
    -- pin down F and lloc from the lowest-cursor characterization
    have hcomp : lowestCursor root 1 loc ([] : List (List Nat × Int)) =
        ⟨[(loc, (0 : Int))], some (loc ++ [0]), 0⟩ := by
      show (if (nodeAt root loc).branchIsEmpty = true then nullCursor
        else if (nodeAt root loc).hasBranches = true then
          lowestCursor root 0 (loc ++ [0]) ([] ++ [(loc, (0 : Int))])
        else ⟨[] ++ [(loc, (0 : Int))], some (loc ++ [0]), 0⟩) = _
      rw [hat,
        if_neg (by
          simp only [Node.branchIsEmpty, Node.branchLen, Node.branchKeys, decide_eq_true_eq]
          omega),
        if_neg (by simp [Node.hasBranches])]
      simp
    have hFl := (hlow [] 1 (le_refl _)).symm.trans hcomp
    rw [Cursor.mk.injEq] at hFl
    obtain ⟨hF2, hl2, -⟩ := hFl
    simp only [List.nil_append] at hF2
    injection hl2 with hl2
    obtain ⟨fuel, rfl⟩ : ∃ f, fuel = f + 1 := ⟨fuel - 1, by omega⟩
    rw [stepForwardLoop_step, hat]
    rw [if_pos (by
      show (-1 : Int) + 1 < ((Node.branch (0 + 1) ks cs).branchLen : Int)
      simp only [Node.branchLen, Node.branchKeys]
      omega)]
    rw [if_neg (by simp [Node.hasBranches])]
    rw [show ((-1 : Int) + 1) = (0 : Int) from rfl,
      show ((0 : Int)).toNat = 0 from rfl, hF2, hl2]
  | succ hf ih =>
    intro loc c hat hg F lloc hlow T fuel hfuel
    obtain ⟨ks, cs, rfl⟩ := wfNode_branch_shape hg
    obtain ⟨-, hlen, -, hne, -, -, -⟩ := wfNodeB_branch.mp hg
    have hc0 : nodeAt root (loc ++ [0]) = cs.getD 0 nullNode := by
      rw [nodeAt_append, hat]
      rfl
    have hg0 : wfNodeB Lcap Bcap (hf + 1) (cs.getD 0 nullNode) = true :=
      wfNode_child hg (by omega)
    obtain ⟨F0, lloc0, hF0⟩ := lowestCursor_form (hf) (loc ++ [0]) (cs.getD 0 nullNode) hc0 hg0
    -- pin down F and lloc
    have hcomp : lowestCursor root (hf + 1 + 1) loc ([] : List (List Nat × Int)) =
        ⟨[] ++ ((loc, (0 : Int)) :: F0), some lloc0, 0⟩ := by
      show (if (nodeAt root loc).branchIsEmpty = true then nullCursor
        else if (nodeAt root loc).hasBranches = true then
          lowestCursor root (hf + 1) (loc ++ [0]) ([] ++ [(loc, (0 : Int))])
        else ⟨[] ++ [(loc, (0 : Int))], some (loc ++ [0]), 0⟩) = _
      rw [hat,
        if_neg (by
          simp only [Node.branchIsEmpty, Node.branchLen, Node.branchKeys, decide_eq_true_eq]
          omega),
        if_pos (by
          simp only [Node.hasBranches, decide_eq_true_eq]
          omega)]
      rw [hF0 ([] ++ [(loc, (0 : Int))]) (hf + 1) (le_refl _)]
      simp
    have hFl := (hlow [] (hf + 1 + 1) (le_refl _)).symm.trans hcomp
    rw [Cursor.mk.injEq] at hFl
    obtain ⟨hF2, hl2, -⟩ := hFl
    simp only [List.nil_append] at hF2
    injection hl2 with hl2
    obtain ⟨fuel, rfl⟩ : ∃ f, fuel = f + 1 := ⟨fuel - 1, by omega⟩
    rw [stepForwardLoop_step, hat]
    rw [if_pos (by
      show (-1 : Int) + 1 < ((Node.branch (hf + 1 + 1) ks cs).branchLen : Int)
      simp only [Node.branchLen, Node.branchKeys]
      omega)]
    rw [if_pos (by
      simp only [Node.hasBranches, decide_eq_true_eq]
      omega)]
    rw [show ((-1 : Int) + 1) = (0 : Int) from rfl,
      show ((0 : Int)).toNat = 0 from rfl]
    rw [ih (loc ++ [0]) (cs.getD 0 nullNode) hc0 hg0 F0 lloc0 hF0
      (T ++ [(loc, (0 : Int))]) fuel (by omega)]
    rw [hF2, hl2]
    simp

theorem leafAt_eq {root : Node} {lloc : List Nat} {l : LeafN}
    (h : nodeAt root lloc = .leaf l) : leafAt root lloc = l := by
  unfold leafAt
  rw [h]

theorem riterNext_some (root : Node) (S : List (List Nat × Int)) (lloc : List Nat)
    (s : Nat) (R : Cursor) (rloc : List Nat) (hR : R.leaf = some rloc) :
    riterNext root ⟨⟨S, some lloc, s⟩, R⟩ =
      (if (leafAt root lloc).keys.getD s 0 > (leafAt root rloc).keys.getD R.slot 0 then
        (none, ⟨clearCursor ⟨S, some lloc, s⟩, clearCursor R⟩)
      else
        if (leafAt root lloc).keys.getD s 0 = (leafAt root rloc).keys.getD R.slot 0 then
          (some ((leafAt root lloc).keys.getD s 0, (leafAt root lloc).values.getD s 0),
            ⟨clearCursor ⟨S, some lloc, s⟩, clearCursor R⟩)
        else
          (some ((leafAt root lloc).keys.getD s 0, (leafAt root lloc).values.getD s 0),
            ⟨(stepForward root ⟨S, some lloc, s⟩).2, R⟩)) := by
  unfold riterNext
  dsimp only
  rw [hR]

theorem stepForward_some (root : Node) (S : List (List Nat × Int)) (lloc : List Nat)
    (s : Nat) :
    stepForward root ⟨S, some lloc, s⟩ =
      (if s + 1 ≥ (leafAt root lloc).len then
        match stepForwardLoop root (S.length + 2 * root.heightOf + 4) S with
        | some (stack', newLeaf) => (true, ⟨stack', some newLeaf, 0⟩)
        | none => (false, ⟨[], none, s + 1⟩)
      else (true, ⟨S, some lloc, s + 1⟩)) := rfl

theorem riterCollect_noLeft (root : Node) :
    ∀ (fuel : Nat) (it : RIter), it.left.leaf = none →
      riterCollect root fuel it = [] := by
  intro fuel it h
  cases fuel with
  | zero => rfl
  | succ f =>
    have hnext : riterNext root it = (none, it) := by
      unfold riterNext
      rw [h]
    show (match riterNext root it with
      | (none, _) => []
      | (some kv, it') => kv :: riterCollect root f it') = []
    rw [hnext]

theorem riterCollect_succ (root : Node) (fuel : Nat) (it : RIter) :
    riterCollect root (fuel + 1) it =
      (match riterNext root it with
       | (none, _) => []
       | (some kv, it') => kv :: riterCollect root fuel it') := rfl

theorem zip_drop_cons {l : LeafN} (hlen : l.keys.length = l.values.length)
    {s : Nat} (hs : s < l.len) :
    (l.keys.zip l.values).drop s =
      (l.keys.getD s 0, l.values.getD s 0) :: (l.keys.zip l.values).drop (s + 1) := by
  have hlL : l.len = l.keys.length := rfl
  have hzl : (l.keys.zip l.values).length = l.len := by
    rw [List.length_zip]
    omega
  rw [List.drop_eq_getElem_cons (by omega : s < (l.keys.zip l.values).length)]
  rw [List.getElem_zip, List.getD_eq_getElem l.keys 0 (by omega),
    List.getD_eq_getElem l.values 0 (by omega)]

theorem leafRun {root : Node} {R : Cursor} {rloc : List Nat}
    (hR : R.leaf = some rloc) {rk : Nat}
    (hrk : (leafAt root rloc).keys.getD R.slot 0 = rk) :
    ∀ (fuel : Nat) (l : LeafN) (lloc : List Nat) (S : List (List Nat × Int)) (s : Nat),
      nodeAt root lloc = .leaf l →
      l.keys.length = l.values.length →
      (∀ x ∈ l.keys, x < rk) →
      s < l.len → l.len - s ≤ fuel →
      riterCollect root fuel ⟨⟨S, some lloc, s⟩, R⟩ =
        (l.keys.zip l.values).drop s ++ iterCont root R (fuel - (l.len - s)) S := by
  intro fuel
  induction fuel with
  | zero =>
    intro l lloc S s _ _ _ hs hf
    omega
  | succ fuel ih =>
    intro l lloc S s hat hlen hkeys hs hf
    have hlL : l.len = l.keys.length := rfl
    have hleafAt := leafAt_eq hat
    have hkmem : l.keys.getD s 0 ∈ l.keys := by
      rw [List.getD_eq_getElem l.keys 0 (by omega)]
      exact List.getElem_mem (by omega)
    have hklt : l.keys.getD s 0 < rk := hkeys _ hkmem
    rw [riterCollect_succ, riterNext_some root S lloc s R rloc hR, hrk, hleafAt]
    rw [if_neg (by omega), if_neg (by omega)]
    show (l.keys.getD s 0, l.values.getD s 0) ::
        riterCollect root fuel ⟨(stepForward root ⟨S, some lloc, s⟩).2, R⟩ = _
    rw [stepForward_some, hleafAt, zip_drop_cons hlen hs]
    by_cases hend : s + 1 ≥ l.len
    · rw [if_pos hend]
      have hd2 : (l.keys.zip l.values).drop (s + 1) = [] := by
        apply List.drop_eq_nil_of_le
        rw [List.length_zip]
        omega
      have hfl : l.len - s = 1 := by omega
      rw [hd2, hfl]
      cases hloop : stepForwardLoop root (S.length + 2 * root.heightOf + 4) S with
      | some p =>
        obtain ⟨S2, lf2⟩ := p
        show (l.keys.getD s 0, l.values.getD s 0) ::
            riterCollect root fuel ⟨⟨S2, some lf2, 0⟩, R⟩ = _
        unfold iterCont
        rw [hloop]
        simp
      | none =>
        show (l.keys.getD s 0, l.values.getD s 0) ::
            riterCollect root fuel ⟨⟨[], none, s + 1⟩, R⟩ = _
        rw [riterCollect_noLeft root fuel _ rfl]
        unfold iterCont
        rw [hloop]
        simp
    · rw [if_neg hend]
      show (l.keys.getD s 0, l.values.getD s 0) ::
          riterCollect root fuel ⟨⟨S, some lloc, s + 1⟩, R⟩ = _
      rw [ih l lloc S (s + 1) hat hlen hkeys (by omega) (by omega)]
      have hfl : fuel + 1 - (l.len - s) = fuel - (l.len - (s + 1)) := by omega
      rw [hfl]
      simp

theorem leafRunLast {root : Node} {R : Cursor} {rloc : List Nat}
    (hR : R.leaf = some rloc) {rk : Nat}
    (hrk : (leafAt root rloc).keys.getD R.slot 0 = rk) :
    ∀ (fuel : Nat) (l : LeafN) (lloc : List Nat) (S : List (List Nat × Int)) (s : Nat),
      nodeAt root lloc = .leaf l →
      l.keys.length = l.values.length →
      l.keys.Pairwise (· < ·) →
      l.keys.getD (l.len - 1) 0 = rk →
      s < l.len → l.len - s ≤ fuel →
      riterCollect root fuel ⟨⟨S, some lloc, s⟩, R⟩ =
        (l.keys.zip l.values).drop s := by
  intro fuel
  induction fuel with
  | zero =>
    intro l lloc S s _ _ _ _ hs hf
    omega
  | succ fuel ih =>
    intro l lloc S s hat hlen hsort hlast hs hf
    have hlL : l.len = l.keys.length := rfl
    have hleafAt := leafAt_eq hat
    rw [riterCollect_succ, riterNext_some root S lloc s R rloc hR, hrk, hleafAt]
    by_cases hend : s = l.len - 1
    · have hkeq : l.keys.getD s 0 = rk := by
        rw [hend]
        exact hlast
      rw [if_neg (by omega), if_pos hkeq]
      show (l.keys.getD s 0, l.values.getD s 0) ::
          riterCollect root fuel ⟨⟨S, none, s⟩, clearCursor R⟩ = _
      rw [riterCollect_noLeft root fuel _ rfl, zip_drop_cons hlen hs]
      have hd2 : (l.keys.zip l.values).drop (s + 1) = [] := by
        apply List.drop_eq_nil_of_le
        rw [List.length_zip]
        omega
      rw [hd2]
    · have hklt : l.keys.getD s 0 < rk := by
        rw [← hlast]
        exact sorted_getD_lt hsort (by omega) (by omega)
      rw [if_neg (by omega), if_neg (by omega)]
      show (l.keys.getD s 0, l.values.getD s 0) ::
          riterCollect root fuel ⟨(stepForward root ⟨S, some lloc, s⟩).2, R⟩ = _
      rw [stepForward_some, hleafAt, if_neg (by omega)]
      show (l.keys.getD s 0, l.values.getD s 0) ::
          riterCollect root fuel ⟨⟨S, some lloc, s + 1⟩, R⟩ = _
      rw [ih l lloc S (s + 1) hat hlen hsort hlast (by omega) (by omega),
        zip_drop_cons hlen hs]

theorem cs_drop_cons {cs : List Node} {j : Nat} (hj : j < cs.length) :
    cs.drop j = cs.getD j nullNode :: cs.drop (j + 1) := by
  rw [List.drop_eq_getElem_cons hj, List.getD_eq_getElem cs nullNode hj]

theorem iterCont_pop (root : Node) (R : Cursor) (fuel : Nat)
    (S : List (List Nat × Int)) (loc : List Nat) (j : Nat)
    (hc : ¬ ((j : Int) + 1 < ((nodeAt root loc).branchLen : Int))) :
    iterCont root R fuel (S ++ [(loc, (j : Int))]) = iterCont root R fuel S := by
  unfold iterCont
  rw [show (S ++ [(loc, (j : Int))]).length + 2 * root.heightOf + 4 =
    (S.length + 2 * root.heightOf + 4) + 1 from by simp [List.length_append]; omega]
  rw [stepForwardLoop_step, if_neg hc]

/-- The forward iteration across a good subtree all of whose keys are
below the right cursor's key: it emits exactly the subtree's entries and
then proceeds with the stack walk on the surrounding frames. -/
theorem branchRun {Lcap Bcap : Nat} {root : Node} {R : Cursor} {rloc : List Nat}
    (hR : R.leaf = some rloc) {rk : Nat}
    (hrk : (leafAt root rloc).keys.getD R.slot 0 = rk) :
    ∀ (hf : Nat) (loc : List Nat) (c : Node),
      nodeAt root loc = c →
      wfNodeB Lcap Bcap (hf + 1) c = true →
      (∀ k ∈ nodeKeysF (hf + 1) c, k < rk) →
      hf + 1 ≤ root.heightOf →
      ∀ (S : List (List Nat × Int)) (fuel : Nat),
        (entriesF (hf + 1) c).length ≤ fuel →
        riterCollect root fuel ⟨lowestCursor root (hf + 1) loc S, R⟩ =
          entriesF (hf + 1) c ++
            iterCont root R (fuel - (entriesF (hf + 1) c).length) S := by
  intro hf
  induction hf with
  | zero =>
    intro loc c hat hg hkeys hH S fuel hfuel
    obtain ⟨ks, cs, rfl⟩ := wfNode_branch_shape hg
    obtain ⟨-, hlen, -, hne, -, -, -⟩ := wfNodeB_branch.mp hg
    have hlow : lowestCursor root 1 loc S = ⟨S ++ [(loc, (0 : Int))], some (loc ++ [0]), 0⟩ := by
      show (if (nodeAt root loc).branchIsEmpty = true then nullCursor
        else if (nodeAt root loc).hasBranches = true then
          lowestCursor root 0 (loc ++ [0]) (S ++ [(loc, (0 : Int))])
        else ⟨S ++ [(loc, (0 : Int))], some (loc ++ [0]), 0⟩) = _
      rw [hat,
        if_neg (by
          simp only [Node.branchIsEmpty, Node.branchLen, Node.branchKeys, decide_eq_true_eq]
          omega),
        if_neg (by simp [Node.hasBranches])]
    have inner : ∀ (d j : Nat), j + d = cs.length → j < cs.length →
        ∀ fuel, (((cs.drop j).map (entriesF 0)).flatten).length ≤ fuel →
        riterCollect root fuel ⟨⟨S ++ [(loc, (j : Int))], some (loc ++ [j]), 0⟩, R⟩ =
          ((cs.drop j).map (entriesF 0)).flatten ++
            iterCont root R (fuel - (((cs.drop j).map (entriesF 0)).flatten).length) S := by
      intro d
      induction d with
      | zero =>
        intro j hjd hj _ _
        omega
      | succ d ihd =>
        intro j hjd hj fuel hfl
        have hcm : nodeAt root (loc ++ [j]) = cs.getD j nullNode := by
          rw [nodeAt_append, hat]
          rfl
        have hcg : wfNodeB Lcap Bcap 0 (cs.getD j nullNode) = true := wfNode_child hg hj
        obtain ⟨l, hleq⟩ : ∃ l, cs.getD j nullNode = .leaf l := by
          cases hcc : cs.getD j nullNode with
          | leaf l => exact ⟨l, rfl⟩
          | branch _ _ _ =>
            rw [hcc] at hcg
            simp [wfNodeB] at hcg
        rw [hleq] at hcm hcg
        obtain ⟨hllen, -, hl1, -⟩ := wfNodeB_leaf.mp hcg
        have hlkeys : ∀ x ∈ l.keys, x < rk := by
          intro x hx
          apply hkeys
          apply mem_nodeKeysF_branch.mpr
          refine ⟨.leaf l, ?_, ?_⟩
          · rw [← hleq]
            rw [List.getD_eq_getElem cs nullNode hj]
            exact List.getElem_mem hj
          · rw [nodeKeysF_leaf 0 (le_of_eq hllen)]
            exact hx
        have hflat : ((cs.drop j).map (entriesF 0)).flatten =
            (l.keys.zip l.values) ++ ((cs.drop (j + 1)).map (entriesF 0)).flatten := by
          rw [cs_drop_cons hj, hleq]
          rfl
        have hlenflat : (((cs.drop j).map (entriesF 0)).flatten).length =
            l.len + (((cs.drop (j + 1)).map (entriesF 0)).flatten).length := by
          rw [hflat, List.length_append, List.length_zip]
          have : l.len = l.keys.length := rfl
          omega
        have hlf := leafRun hR hrk fuel l (loc ++ [j]) (S ++ [(loc, (j : Int))]) 0
          hcm hllen hlkeys (by omega) (by omega)
        rw [hlf, List.drop_zero]
        by_cases hlast2 : j + 1 < cs.length
        · -- advance to the next leaf
          have hpop : iterCont root R (fuel - (l.len - 0)) (S ++ [(loc, (j : Int))]) =
              riterCollect root (fuel - l.len)
                ⟨⟨S ++ [(loc, ((j + 1 : Nat) : Int))], some (loc ++ [j + 1]), 0⟩, R⟩ := by
            unfold iterCont
            rw [show (S ++ [(loc, (j : Int))]).length + 2 * root.heightOf + 4 =
              (S.length + 2 * root.heightOf + 4) + 1 from by simp [List.length_append]; omega]
            rw [stepForwardLoop_step, hat]
            rw [if_pos (by
              show (j : Int) + 1 < ((Node.branch (0 + 1) ks cs).branchLen : Int)
              simp only [Node.branchLen, Node.branchKeys]
              omega)]
            rw [if_neg (by simp [Node.hasBranches])]
            rw [show ((j : Int) + 1) = ((j + 1 : Nat) : Int) from by omega,
              show (((j + 1 : Nat) : Int)).toNat = j + 1 from by omega]
            simp
          rw [hpop]
          rw [ihd (j + 1) (by omega) (by omega) (fuel - l.len) (by omega)]
          rw [hflat, List.append_assoc]
          have harith : fuel - l.len - (((cs.drop (j + 1)).map (entriesF 0)).flatten).length =
              fuel - (((cs.drop j).map (entriesF 0)).flatten).length := by omega
          rw [harith, ← hflat]
        · -- last child: pop out to the surrounding stack
          have hdone : cs.drop (j + 1) = [] := by
            apply List.drop_eq_nil_of_le
            omega
          rw [iterCont_pop root R _ S loc j (by
            rw [hat]
            show ¬ ((j : Int) + 1 < ((Node.branch (0 + 1) ks cs).branchLen : Int))
            simp only [Node.branchLen, Node.branchKeys]
            omega)]
          rw [hflat, hdone]
          simp only [List.map_nil, List.flatten_nil, List.append_nil, List.length_append]
          have : l.len - 0 = (l.keys.zip l.values).length := by
            rw [List.length_zip]
            have : l.len = l.keys.length := rfl
            omega
          rw [this]
    have hstart := inner cs.length 0 (by omega) (by omega) fuel
      (by rw [show ((cs.drop 0).map (entriesF 0)).flatten = entriesF (0 + 1)
        (.branch (0 + 1) ks cs) from by rw [List.drop_zero]; rfl]; exact hfuel)
    rw [hlow]
    rw [show ((0 : Nat) : Int) = (0 : Int) from rfl] at hstart
    rw [hstart]
    rw [show ((cs.drop 0).map (entriesF 0)).flatten = entriesF (0 + 1)
      (.branch (0 + 1) ks cs) from by rw [List.drop_zero]; rfl]
  | succ hf ih =>
    intro loc c hat hg hkeys hH S fuel hfuel
    obtain ⟨ks, cs, rfl⟩ := wfNode_branch_shape hg
    obtain ⟨-, hlen, -, hne, -, -, -⟩ := wfNodeB_branch.mp hg
    have hlow : lowestCursor root (hf + 1 + 1) loc S =
        lowestCursor root (hf + 1) (loc ++ [0]) (S ++ [(loc, (0 : Int))]) := by
      show (if (nodeAt root loc).branchIsEmpty = true then nullCursor
        else if (nodeAt root loc).hasBranches = true then
          lowestCursor root (hf + 1) (loc ++ [0]) (S ++ [(loc, (0 : Int))])
        else ⟨S ++ [(loc, (0 : Int))], some (loc ++ [0]), 0⟩) = _
      rw [hat,
        if_neg (by
          simp only [Node.branchIsEmpty, Node.branchLen, Node.branchKeys, decide_eq_true_eq]
          omega),
        if_pos (by
          simp only [Node.hasBranches, decide_eq_true_eq]
          omega)]
    have inner : ∀ (d j : Nat), j + d = cs.length → j < cs.length →
        ∀ fuel, (((cs.drop j).map (entriesF (hf + 1))).flatten).length ≤ fuel →
        riterCollect root fuel
            ⟨lowestCursor root (hf + 1) (loc ++ [j]) (S ++ [(loc, (j : Int))]), R⟩ =
          ((cs.drop j).map (entriesF (hf + 1))).flatten ++
            iterCont root R
              (fuel - (((cs.drop j).map (entriesF (hf + 1))).flatten).length) S := by
      intro d
      induction d with
      | zero =>
        intro j hjd hj _ _
        omega
      | succ d ihd =>
        intro j hjd hj fuel hfl
        have hcm : nodeAt root (loc ++ [j]) = cs.getD j nullNode := by
          rw [nodeAt_append, hat]
          rfl
        have hcg : wfNodeB Lcap Bcap (hf + 1) (cs.getD j nullNode) = true :=
          wfNode_child hg hj
        have hckeys : ∀ k ∈ nodeKeysF (hf + 1) (cs.getD j nullNode), k < rk := by
          intro k hk
          apply hkeys
          apply mem_nodeKeysF_branch.mpr
          refine ⟨cs.getD j nullNode, ?_, hk⟩
          rw [List.getD_eq_getElem cs nullNode hj]
          exact List.getElem_mem hj
        have hflat : ((cs.drop j).map (entriesF (hf + 1))).flatten =
            entriesF (hf + 1) (cs.getD j nullNode) ++
              ((cs.drop (j + 1)).map (entriesF (hf + 1))).flatten := by
          rw [cs_drop_cons hj]
          rfl
        have hrun := ih (loc ++ [j]) (cs.getD j nullNode) hcm hcg hckeys (by omega)
          (S ++ [(loc, (j : Int))]) fuel (by rw [hflat, List.length_append] at hfl; omega)
        rw [hrun]
        by_cases hlast2 : j + 1 < cs.length
        · -- step into the next sibling subtree
          have hcm2 : nodeAt root (loc ++ [j + 1]) = cs.getD (j + 1) nullNode := by
            rw [nodeAt_append, hat]
            rfl
          have hcg2 : wfNodeB Lcap Bcap (hf + 1) (cs.getD (j + 1) nullNode) = true :=
            wfNode_child hg hlast2
          obtain ⟨F2, lloc2, hF2⟩ :=
            lowestCursor_form hf (loc ++ [j + 1]) (cs.getD (j + 1) nullNode) hcm2 hcg2
          have hpop : iterCont root R
              (fuel - (entriesF (hf + 1) (cs.getD j nullNode)).length)
              (S ++ [(loc, (j : Int))]) =
              riterCollect root (fuel - (entriesF (hf + 1) (cs.getD j nullNode)).length)
                ⟨lowestCursor root (hf + 1) (loc ++ [j + 1])
                  (S ++ [(loc, ((j + 1 : Nat) : Int))]), R⟩ := by
            unfold iterCont
            rw [show (S ++ [(loc, (j : Int))]).length + 2 * root.heightOf + 4 =
              (S.length + 2 * root.heightOf + 4) + 1 from by simp [List.length_append]; omega]
            rw [stepForwardLoop_step, hat]
            rw [if_pos (by
              show (j : Int) + 1 < ((Node.branch (hf + 1 + 1) ks cs).branchLen : Int)
              simp only [Node.branchLen, Node.branchKeys]
              omega)]
            rw [if_pos (by
              simp only [Node.hasBranches, decide_eq_true_eq]
              omega)]
            rw [show ((j : Int) + 1) = ((j + 1 : Nat) : Int) from by omega,
              show (((j + 1 : Nat) : Int)).toNat = j + 1 from by omega]
            rw [stepLoop_desc hf (loc ++ [j + 1]) (cs.getD (j + 1) nullNode) hcm2 hcg2
              F2 lloc2 hF2 (S ++ [(loc, ((j + 1 : Nat) : Int))])
              (S.length + 2 * root.heightOf + 4) (by omega)]
            rw [hF2 (S ++ [(loc, ((j + 1 : Nat) : Int))]) (hf + 1) (le_refl _)]
          rw [hpop]
          rw [ihd (j + 1) (by omega) (by omega)
            (fuel - (entriesF (hf + 1) (cs.getD j nullNode)).length)
            (by rw [hflat, List.length_append] at hfl; omega)]
          rw [hflat, List.append_assoc]
          have harith : fuel - (entriesF (hf + 1) (cs.getD j nullNode)).length -
              (((cs.drop (j + 1)).map (entriesF (hf + 1))).flatten).length =
              fuel - (((cs.drop j).map (entriesF (hf + 1))).flatten).length := by
            rw [hflat, List.length_append]
            omega
          rw [harith, ← hflat]
        · -- last child: pop out to the surrounding stack
          have hdone : cs.drop (j + 1) = [] := by
            apply List.drop_eq_nil_of_le
            omega
          rw [iterCont_pop root R _ S loc j (by
            rw [hat]
            show ¬ ((j : Int) + 1 < ((Node.branch (hf + 1 + 1) ks cs).branchLen : Int))
            simp only [Node.branchLen, Node.branchKeys]
            omega)]
          rw [hflat, hdone]
          simp only [List.map_nil, List.flatten_nil, List.append_nil, List.length_append]
    have hstart := inner cs.length 0 (by omega) (by omega) fuel
      (by rw [show ((cs.drop 0).map (entriesF (hf + 1))).flatten =
        entriesF (hf + 1 + 1) (.branch (hf + 1 + 1) ks cs) from by rw [List.drop_zero]; rfl]
          exact hfuel)
    rw [hlow]
    rw [show ((0 : Nat) : Int) = (0 : Int) from rfl] at hstart
    rw [hstart]
    rw [show ((cs.drop 0).map (entriesF (hf + 1))).flatten =
      entriesF (hf + 1 + 1) (.branch (hf + 1 + 1) ks cs) from by rw [List.drop_zero]; rfl]

/-- The forward iteration across the good subtree that holds the
iteration's final entry (its highest key is the right cursor's key): it
emits exactly the subtree's entries and stops. -/
theorem branchRunLast {Lcap Bcap : Nat} {root : Node} {R : Cursor} {rloc : List Nat}
    (hR : R.leaf = some rloc) {rk : Nat}
    (hrk : (leafAt root rloc).keys.getD R.slot 0 = rk) :
    ∀ (hf : Nat) (loc : List Nat) (c : Node),
      nodeAt root loc = c →
      wfNodeB Lcap Bcap (hf + 1) c = true →
      lastKeyF (hf + 1) c = rk →
      hf + 1 ≤ root.heightOf →
      ∀ (S : List (List Nat × Int)) (fuel : Nat),
        (entriesF (hf + 1) c).length ≤ fuel →
        riterCollect root fuel ⟨lowestCursor root (hf + 1) loc S, R⟩ =
          entriesF (hf + 1) c := by
  intro hf
  induction hf with
  | zero =>
    intro loc c hat hg hhk hH S fuel hfuel
    obtain ⟨ks, cs, rfl⟩ := wfNode_branch_shape hg
    obtain ⟨-, hlen, hsort, hne, -, -, hcb⟩ := wfNodeB_branch.mp hg
    have hrkl : lastKeyF 0 (cs.getD (cs.length - 1) nullNode) = rk := hhk
    have hlow : lowestCursor root 1 loc S = ⟨S ++ [(loc, (0 : Int))], some (loc ++ [0]), 0⟩ := by
      show (if (nodeAt root loc).branchIsEmpty = true then nullCursor
        else if (nodeAt root loc).hasBranches = true then
          lowestCursor root 0 (loc ++ [0]) (S ++ [(loc, (0 : Int))])
        else ⟨S ++ [(loc, (0 : Int))], some (loc ++ [0]), 0⟩) = _
      rw [hat,
        if_neg (by
          simp only [Node.branchIsEmpty, Node.branchLen, Node.branchKeys, decide_eq_true_eq]
          omega),
        if_neg (by simp [Node.hasBranches])]
    have inner : ∀ (d j : Nat), j + d = cs.length → j < cs.length →
        ∀ fuel, (((cs.drop j).map (entriesF 0)).flatten).length ≤ fuel →
        riterCollect root fuel ⟨⟨S ++ [(loc, (j : Int))], some (loc ++ [j]), 0⟩, R⟩ =
          ((cs.drop j).map (entriesF 0)).flatten := by
      intro d
      induction d with
      | zero =>
        intro j hjd hj _ _
        omega
      | succ d ihd =>
        intro j hjd hj fuel hfl
        have hcm : nodeAt root (loc ++ [j]) = cs.getD j nullNode := by
          rw [nodeAt_append, hat]
          rfl
        have hcg : wfNodeB Lcap Bcap 0 (cs.getD j nullNode) = true := wfNode_child hg hj
        obtain ⟨l, hleq⟩ : ∃ l, cs.getD j nullNode = .leaf l := by
          cases hcc : cs.getD j nullNode with
          | leaf l => exact ⟨l, rfl⟩
          | branch _ _ _ =>
            rw [hcc] at hcg
            simp [wfNodeB] at hcg
        rw [hleq] at hcm hcg
        obtain ⟨hllen, hlsort, hl1, -⟩ := wfNodeB_leaf.mp hcg
        have hjk : j < ks.length := by omega
        have hflat : ((cs.drop j).map (entriesF 0)).flatten =
            (l.keys.zip l.values) ++ ((cs.drop (j + 1)).map (entriesF 0)).flatten := by
          rw [cs_drop_cons hj, hleq]
          rfl
        have hlenflat : (((cs.drop j).map (entriesF 0)).flatten).length =
            l.len + (((cs.drop (j + 1)).map (entriesF 0)).flatten).length := by
          rw [hflat, List.length_append, List.length_zip]
          have : l.len = l.keys.length := rfl
          omega
        by_cases hlast2 : j + 1 < cs.length
        · -- an earlier leaf: all keys strictly below the final key
          have hlkeys : ∀ x ∈ l.keys, x < rk := by
            intro x hx
            have hup := childBoundsB_upper ks cs 0 none hcb j hjk x
              (by rw [List.getD_eq_getElem cs nullNode (by omega), ← List.getD_eq_getElem cs nullNode (by omega), hleq, nodeKeysF_leaf 0 (le_of_eq hllen)]; exact hx)
            have hic2 : cs.length - 1 < cs.length := by omega
            have hmem := lastKeyF_mem 0 _ (wfNode_child hg hic2)
            have hmem2 : lastKeyF 0 (cs.getD (cs.length - 1) nullNode) ∈
                nodeKeysF 0 (cs.getD (ks.length - 2 + 1) nullNode) := by
              rw [show ks.length - 2 + 1 = cs.length - 1 from by omega]
              exact hmem
            have hlow2 := childBoundsB_lower ks cs 0 none hcb (ks.length - 2)
              (by omega) _ hmem2
            have hmono : ks.getD j 0 ≤ ks.getD (ks.length - 2) 0 :=
              sorted_getD_le hsort (by omega) (by omega)
            omega
          have hlf := leafRun hR hrk fuel l (loc ++ [j]) (S ++ [(loc, (j : Int))]) 0
            hcm hllen hlkeys (by omega) (by omega)
          rw [hlf, List.drop_zero]
          have hpop : iterCont root R (fuel - (l.len - 0)) (S ++ [(loc, (j : Int))]) =
              riterCollect root (fuel - l.len)
                ⟨⟨S ++ [(loc, ((j + 1 : Nat) : Int))], some (loc ++ [j + 1]), 0⟩, R⟩ := by
            unfold iterCont
            rw [show (S ++ [(loc, (j : Int))]).length + 2 * root.heightOf + 4 =
              (S.length + 2 * root.heightOf + 4) + 1 from by simp [List.length_append]; omega]
            rw [stepForwardLoop_step, hat]
            rw [if_pos (by
              show (j : Int) + 1 < ((Node.branch (0 + 1) ks cs).branchLen : Int)
              simp only [Node.branchLen, Node.branchKeys]
              omega)]
            rw [if_neg (by simp [Node.hasBranches])]
            rw [show ((j : Int) + 1) = ((j + 1 : Nat) : Int) from by omega,
              show (((j + 1 : Nat) : Int)).toNat = j + 1 from by omega]
            simp
          rw [hpop]
          rw [ihd (j + 1) (by omega) (by omega) (fuel - l.len) (by omega)]
          rw [hflat]
        · -- the final leaf: emit and stop at the key equality
          have hjlast : j = ks.length - 1 := by omega
          have hlastkey : l.keys.getD (l.len - 1) 0 = rk := by
            show l.highest = rk
            rw [← hrkl, show cs.length - 1 = j from by omega, hleq]
            rfl
          have hlf := leafRunLast hR hrk fuel l (loc ++ [j]) (S ++ [(loc, (j : Int))]) 0
            hcm hllen hlsort hlastkey (by omega) (by omega)
          rw [hlf, List.drop_zero, hflat]
          rw [show cs.drop (j + 1) = [] from List.drop_eq_nil_of_le (by omega)]
          simp
    have hstart := inner cs.length 0 (by omega) (by omega) fuel
      (by rw [show ((cs.drop 0).map (entriesF 0)).flatten = entriesF (0 + 1)
        (.branch (0 + 1) ks cs) from by rw [List.drop_zero]; rfl]; exact hfuel)
    rw [hlow]
    rw [show ((0 : Nat) : Int) = (0 : Int) from rfl] at hstart
    rw [hstart]
    rw [show ((cs.drop 0).map (entriesF 0)).flatten = entriesF (0 + 1)
      (.branch (0 + 1) ks cs) from by rw [List.drop_zero]; rfl]
  | succ hf ih =>
    intro loc c hat hg hhk hH S fuel hfuel
    obtain ⟨ks, cs, rfl⟩ := wfNode_branch_shape hg
    obtain ⟨-, hlen, hsort, hne, -, -, hcb⟩ := wfNodeB_branch.mp hg
    have hrkl : lastKeyF (hf + 1) (cs.getD (cs.length - 1) nullNode) = rk := hhk
    have hlow : lowestCursor root (hf + 1 + 1) loc S =
        lowestCursor root (hf + 1) (loc ++ [0]) (S ++ [(loc, (0 : Int))]) := by
      show (if (nodeAt root loc).branchIsEmpty = true then nullCursor
        else if (nodeAt root loc).hasBranches = true then
          lowestCursor root (hf + 1) (loc ++ [0]) (S ++ [(loc, (0 : Int))])
        else ⟨S ++ [(loc, (0 : Int))], some (loc ++ [0]), 0⟩) = _
      rw [hat,
        if_neg (by
          simp only [Node.branchIsEmpty, Node.branchLen, Node.branchKeys, decide_eq_true_eq]
          omega),
        if_pos (by
          simp only [Node.hasBranches, decide_eq_true_eq]
          omega)]
    have inner : ∀ (d j : Nat), j + d = cs.length → j < cs.length →
        ∀ fuel, (((cs.drop j).map (entriesF (hf + 1))).flatten).length ≤ fuel →
        riterCollect root fuel
            ⟨lowestCursor root (hf + 1) (loc ++ [j]) (S ++ [(loc, (j : Int))]), R⟩ =
          ((cs.drop j).map (entriesF (hf + 1))).flatten := by
      intro d
      induction d with
      | zero =>
        intro j hjd hj _ _
        omega
      | succ d ihd =>
        intro j hjd hj fuel hfl
        have hcm : nodeAt root (loc ++ [j]) = cs.getD j nullNode := by
          rw [nodeAt_append, hat]
          rfl
        have hcg : wfNodeB Lcap Bcap (hf + 1) (cs.getD j nullNode) = true :=
          wfNode_child hg hj
        have hjk : j < ks.length := by omega
        have hflat : ((cs.drop j).map (entriesF (hf + 1))).flatten =
            entriesF (hf + 1) (cs.getD j nullNode) ++
              ((cs.drop (j + 1)).map (entriesF (hf + 1))).flatten := by
          rw [cs_drop_cons hj]
          rfl
        by_cases hlast2 : j + 1 < cs.length
        · -- an earlier subtree: all keys strictly below the final key
          have hckeys : ∀ k ∈ nodeKeysF (hf + 1) (cs.getD j nullNode), k < rk := by
            intro k hk
            have hup := childBoundsB_upper ks cs (hf + 1) none hcb j hjk k hk
            have hic2 : cs.length - 1 < cs.length := by omega
            have hmem := lastKeyF_mem (hf + 1) _ (wfNode_child hg hic2)
            have hmem2 : lastKeyF (hf + 1) (cs.getD (cs.length - 1) nullNode) ∈
                nodeKeysF (hf + 1) (cs.getD (ks.length - 2 + 1) nullNode) := by
              rw [show ks.length - 2 + 1 = cs.length - 1 from by omega]
              exact hmem
            have hlow2 := childBoundsB_lower ks cs (hf + 1) none hcb (ks.length - 2)
              (by omega) _ hmem2
            have hmono : ks.getD j 0 ≤ ks.getD (ks.length - 2) 0 :=
              sorted_getD_le hsort (by omega) (by omega)
            omega
          have hrun := branchRun hR hrk hf (loc ++ [j]) (cs.getD j nullNode) hcm hcg hckeys
            (by omega) (S ++ [(loc, (j : Int))]) fuel
            (by rw [hflat, List.length_append] at hfl; omega)
          rw [hrun]
          have hcm2 : nodeAt root (loc ++ [j + 1]) = cs.getD (j + 1) nullNode := by
            rw [nodeAt_append, hat]
            rfl
          have hcg2 : wfNodeB Lcap Bcap (hf + 1) (cs.getD (j + 1) nullNode) = true :=
            wfNode_child hg hlast2
          obtain ⟨F2, lloc2, hF2⟩ :=
            lowestCursor_form hf (loc ++ [j + 1]) (cs.getD (j + 1) nullNode) hcm2 hcg2
          have hpop : iterCont root R
              (fuel - (entriesF (hf + 1) (cs.getD j nullNode)).length)
              (S ++ [(loc, (j : Int))]) =
              riterCollect root (fuel - (entriesF (hf + 1) (cs.getD j nullNode)).length)
                ⟨lowestCursor root (hf + 1) (loc ++ [j + 1])
                  (S ++ [(loc, ((j + 1 : Nat) : Int))]), R⟩ := by
            unfold iterCont
            rw [show (S ++ [(loc, (j : Int))]).length + 2 * root.heightOf + 4 =
              (S.length + 2 * root.heightOf + 4) + 1 from by simp [List.length_append]; omega]
            rw [stepForwardLoop_step, hat]
            rw [if_pos (by
              show (j : Int) + 1 < ((Node.branch (hf + 1 + 1) ks cs).branchLen : Int)
              simp only [Node.branchLen, Node.branchKeys]
              omega)]
            rw [if_pos (by
              simp only [Node.hasBranches, decide_eq_true_eq]
              omega)]
            rw [show ((j : Int) + 1) = ((j + 1 : Nat) : Int) from by omega,
              show (((j + 1 : Nat) : Int)).toNat = j + 1 from by omega]
            rw [stepLoop_desc hf (loc ++ [j + 1]) (cs.getD (j + 1) nullNode) hcm2 hcg2
              F2 lloc2 hF2 (S ++ [(loc, ((j + 1 : Nat) : Int))])
              (S.length + 2 * root.heightOf + 4) (by omega)]
            rw [hF2 (S ++ [(loc, ((j + 1 : Nat) : Int))]) (hf + 1) (le_refl _)]
          rw [hpop]
          rw [ihd (j + 1) (by omega) (by omega)
            (fuel - (entriesF (hf + 1) (cs.getD j nullNode)).length)
            (by rw [hflat, List.length_append] at hfl; omega)]
          rw [hflat]
        · -- the final subtree: recurse with the same final key
          have hjlast : j = ks.length - 1 := by omega
          have hchigh : lastKeyF (hf + 1) (cs.getD j nullNode) = rk := by
            rw [show j = cs.length - 1 from by omega]
            exact hrkl
          have hrun := ih (loc ++ [j]) (cs.getD j nullNode) hcm hcg hchigh (by omega)
            (S ++ [(loc, (j : Int))]) fuel
            (by rw [hflat, List.length_append] at hfl; omega)
          rw [hrun, hflat]
          rw [show cs.drop (j + 1) = [] from List.drop_eq_nil_of_le (by omega)]
          simp
    have hstart := inner cs.length 0 (by omega) (by omega) fuel
      (by rw [show ((cs.drop 0).map (entriesF (hf + 1))).flatten =
        entriesF (hf + 1 + 1) (.branch (hf + 1 + 1) ks cs) from by rw [List.drop_zero]; rfl]
          exact hfuel)
    rw [hlow]
    rw [show ((0 : Nat) : Int) = (0 : Int) from rfl] at hstart
    rw [hstart]
    rw [show ((cs.drop 0).map (entriesF (hf + 1))).flatten =
      entriesF (hf + 1 + 1) (.branch (hf + 1 + 1) ks cs) from by rw [List.drop_zero]; rfl]

theorem wfTreeB_some {Lcap Bcap : Nat} {t : PTree} {r : Node} (hroot : t.root = some r)
    (hw : wfTreeB Lcap Bcap t = true) :
    1 ≤ r.heightOf ∧ t.size = (entriesOf r).length ∧
      (wfNodeB Lcap Bcap r.heightOf r = true ∨
        (r.branchKeys.length = 0 ∧ r.childrenOf.length = 0)) := by
  unfold wfTreeB at hw
  rw [hroot] at hw
  simp only [Bool.and_eq_true, Bool.or_eq_true, decide_eq_true_eq] at hw
  exact ⟨hw.1.1, hw.1.2, hw.2⟩

/-- On a bound-form well-formed tree the full-range reference iterator
collects exactly the tree's entries, in storage order.  The high-key
equality invariant is not needed: the iterator descends and steps by
structure alone, and terminates on the rightmost leaf's last key. -/
theorem treeIterList_wf {Lcap Bcap : Nat} {t : PTree}
    (hw : wfTreeB Lcap Bcap t = true) :
    treeIterList t = treeEntries t := by
  cases hroot : t.root with
  | none =>
    have hpaths : pathsFromRange t .unbounded .unbounded = .ok none := by
      simp only [pathsFromRange, hroot]
      rw [if_neg (by simp), if_neg (by simp)]
    have hnew : riterNew t .unbounded .unbounded = .ok ⟨nullCursor, nullCursor⟩ := by
      unfold riterNew
      rw [hpaths]
      rfl
    unfold treeIterList
    rw [hnew, hroot]
    show ([] : List (Nat × Nat)) = treeEntries t
    unfold treeEntries
    rw [hroot]
  | some r =>
    obtain ⟨h1r, hsz, hwf2⟩ := wfTreeB_some hroot hw
    cases hwf2 with
    | inl hrg =>
      obtain ⟨hf, hhf⟩ : ∃ hf, r.heightOf = hf + 1 := ⟨r.heightOf - 1, by omega⟩
      rw [hhf] at hrg
      obtain ⟨F, lloc, hFlow⟩ := lowestCursor_form hf [] r rfl hrg
      obtain ⟨FR, rloc, l, hFhigh, hrleaf, hlg, hkey⟩ := highestCursor_form hf [] r rfl hrg
      have hpaths : pathsFromRange t .unbounded .unbounded =
          .ok (some (⟨F, some lloc, 0⟩, ⟨FR, some rloc, l.len - 1⟩)) := by
        simp only [pathsFromRange, hroot]
        rw [if_neg (by simp), if_neg (by simp)]
        rw [hFlow [] (r.heightOf + 1) (by omega), hFhigh [] (r.heightOf + 1) (by omega)]
        simp
      have hnew : riterNew t .unbounded .unbounded =
          .ok ⟨⟨F, some lloc, 0⟩, ⟨FR, some rloc, l.len - 1⟩⟩ := by
        unfold riterNew
        rw [hpaths]
        rfl
      have hrk2 : (leafAt r rloc).keys.getD
          ((⟨FR, some rloc, l.len - 1⟩ : Cursor).slot) 0 = lastKeyF (hf + 1) r := by
        show (leafAt r rloc).keys.getD (l.len - 1) 0 = lastKeyF (hf + 1) r
        rw [leafAt_eq hrleaf]
        exact hkey
      have hrun := branchRunLast
        (rfl : (⟨FR, some rloc, l.len - 1⟩ : Cursor).leaf = some rloc)
        hrk2 hf [] r rfl hrg rfl (by omega) [] (t.size + 1)
        (by
          have hlen2 : (entriesOf r).length = (entriesF (hf + 1) r).length := by
            unfold entriesOf
            rw [hhf]
          omega)
      unfold treeIterList
      rw [hnew, hroot]
      show riterCollect r (t.size + 1) ⟨⟨F, some lloc, 0⟩, ⟨FR, some rloc, l.len - 1⟩⟩ =
        treeEntries t
      rw [show (⟨⟨F, some lloc, 0⟩, ⟨FR, some rloc, l.len - 1⟩⟩ : RIter) =
        ⟨lowestCursor r (hf + 1) [] [], ⟨FR, some rloc, l.len - 1⟩⟩ from by
          rw [hFlow [] (hf + 1) (le_refl _)]
          simp]
      rw [hrun]
      unfold treeEntries
      rw [hroot]
      show entriesF (hf + 1) r = entriesF (r.heightOf + 1) r
      rw [hhf, entriesF_stable (hf + 1) r hrg (hf + 1 + 1) (by omega)]
    | inr hempty =>
      obtain ⟨hk0, hc0⟩ := hempty
      obtain ⟨hh, ks, cs, rfl⟩ : ∃ hh ks cs, r = .branch hh ks cs := by
        cases r with
        | leaf l => simp [Node.heightOf] at h1r
        | branch hh ks cs => exact ⟨hh, ks, cs, rfl⟩
      have hks : ks = [] := List.length_eq_zero.mp hk0
      have hcs : cs = [] := List.length_eq_zero.mp hc0
      subst hks
      subst hcs
      have hlow : ∀ fuel, lowestCursor (Node.branch hh [] []) (fuel + 1) [] []
          = nullCursor := by
        intro fuel
        show (if (nodeAt (Node.branch hh [] []) []).branchIsEmpty = true then nullCursor
          else if (nodeAt (Node.branch hh [] []) []).hasBranches = true then
            lowestCursor (Node.branch hh [] []) fuel ([] ++ [0])
              ([] ++ [(([] : List Nat), (0 : Int))])
          else ⟨[] ++ [(([] : List Nat), (0 : Int))], some ([] ++ [0]), 0⟩) = nullCursor
        rw [if_pos (by simp [Node.branchIsEmpty, Node.branchLen, Node.branchKeys, nodeAt])]
      have hpaths : pathsFromRange t .unbounded .unbounded = .ok none := by
        simp only [pathsFromRange, hroot]
        rw [if_neg (by simp), if_neg (by simp)]
        rw [hlow _]
        rfl
      have hnew : riterNew t .unbounded .unbounded = .ok ⟨nullCursor, nullCursor⟩ := by
        unfold riterNew
        rw [hpaths]
        rfl
      unfold treeIterList
      rw [hnew, hroot]
      show riterCollect (Node.branch hh [] []) (t.size + 1) ⟨nullCursor, nullCursor⟩ =
        treeEntries t
      rw [riterCollect_noLeft _ _ _ rfl]
      unfold treeEntries
      rw [hroot]
      rfl

/-- On a bound-form well-formed tree the cached length is the length of
the entry list. -/
theorem treeLen_wf {Lcap Bcap : Nat} {t : PTree}
    (hw : wfTreeB Lcap Bcap t = true) :
    treeLen t = (treeEntries t).length := by
  cases hroot : t.root with
  | none =>
    have h2 : t.size = 0 := by
      unfold wfTreeB at hw
      rw [hroot] at hw
      simpa using hw
    show t.size = (treeEntries t).length
    unfold treeEntries
    rw [hroot, h2]
    rfl
  | some r =>
    obtain ⟨h1r, hsz, hwf2⟩ := wfTreeB_some hroot hw
    show t.size = (treeEntries t).length
    unfold treeEntries
    rw [hroot]
    cases hwf2 with
    | inl hrg =>
      obtain ⟨hf, hhf⟩ : ∃ hf, r.heightOf = hf + 1 := ⟨r.heightOf - 1, by omega⟩
      rw [hhf] at hrg
      show t.size = (entriesF (r.heightOf + 1) r).length
      rw [hhf, entriesF_stable (hf + 1) r hrg (hf + 1 + 1) (by omega), hsz]
      unfold entriesOf
      rw [hhf]
    | inr hempty =>
      obtain ⟨hk0, hc0⟩ := hempty
      obtain ⟨hh, ks, cs, rfl⟩ : ∃ hh ks cs, r = .branch hh ks cs := by
        cases r with
        | leaf l => simp [Node.heightOf] at h1r
        | branch hh ks cs => exact ⟨hh, ks, cs, rfl⟩
      have hks : ks = [] := List.length_eq_zero.mp hk0
      have hcs : cs = [] := List.length_eq_zero.mp hc0
      subst hks
      subst hcs
      have h1r2 : 1 ≤ hh := h1r
      obtain ⟨h3, rfl⟩ : ∃ h3, hh = h3 + 1 := ⟨hh - 1, by omega⟩
      rw [hsz]
      rfl

/-- C10: tree equality is purely extensional.  For every pair of trees,
`t1 == t2` holds exactly when the lengths agree and the ascending
iterations yield the same sequence (first conjunct, unconditional); and
for bound-form well-formed trees — a hypothesis that, unlike the
high-key equality invariant, also admits `remove`-history trees with
stale ancestor high keys — regardless of fanout parameters or internal
node structure, `==` is exactly equality of the entry sequences. -/
theorem tree_partial_eq_extensional {Lcap1 Bcap1 Lcap2 Bcap2 : Nat} {t1 t2 : PTree}
    (h1 : wfTreeB Lcap1 Bcap1 t1 = true) (h2 : wfTreeB Lcap2 Bcap2 t2 = true) :
    (∀ u1 u2 : PTree, treeEqModel u1 u2 = true ↔
      (treeLen u1 = treeLen u2 ∧ treeIterList u1 = treeIterList u2)) ∧
    (treeEqModel t1 t2 = true ↔ treeEntries t1 = treeEntries t2) := by
  have hdef : ∀ u1 u2 : PTree, treeEqModel u1 u2 = true ↔
      (treeLen u1 = treeLen u2 ∧ treeIterList u1 = treeIterList u2) := by
    intro u1 u2
    simp [treeEqModel, Bool.and_eq_true]
  refine ⟨hdef, (hdef t1 t2).trans ?_⟩
  rw [treeIterList_wf h1, treeIterList_wf h2, treeLen_wf h1, treeLen_wf h2]
  constructor
  · exact fun h => h.2
  · intro h
    exact ⟨by rw [h], h⟩

/-- Witness for `tree_partial_eq_extensional`: a load-built tree and an
insert-and-delete-history tree (`load` five entries, then `remove` key 4,
which leaves a stale high key 4 over the leaf now ending at 3, violating
the high-key equality invariant — third conjunct) hold the same entries
with different node structure and compare equal. -/
theorem tree_partial_eq_extensional_witness :
    wfTreeB 4 4 (load 4 4 [(1, 10), (2, 20), (3, 30), (5, 50)]) = true ∧
    wfTreeB 4 4
      (treeRemove (load 4 4 [(1, 10), (2, 20), (3, 30), (4, 40), (5, 50)]) 4).2 = true ∧
    (match (treeRemove (load 4 4 [(1, 10), (2, 20), (3, 30), (4, 40), (5, 50)]) 4).2.root
        with
      | some r => highKeyEqB r.heightOf r
      | none => true) = false ∧
    treeEqModel (load 4 4 [(1, 10), (2, 20), (3, 30), (5, 50)])
      (treeRemove (load 4 4 [(1, 10), (2, 20), (3, 30), (4, 40), (5, 50)]) 4).2 = true :=
  ⟨by decide, by decide, by decide,
    (tree_partial_eq_extensional
      (show wfTreeB 4 4 (load 4 4 [(1, 10), (2, 20), (3, 30), (5, 50)]) = true by decide)
      (show wfTreeB 4 4
          (treeRemove (load 4 4 [(1, 10), (2, 20), (3, 30), (4, 40), (5, 50)]) 4).2 = true
        by decide)).2.mpr (by decide)⟩

/-! ## Helper lemmas for the insert/remove roundtrip -/

theorem getD_set_self_lt {α : Type} {l : List α} {i : Nat} (a d : α) (h : i < l.length) :
    (l.set i a).getD i d = a := by
  rw [List.getD_eq_getElem?_getD, List.getElem?_set_self h]
  rfl

theorem getD_set_ne2 {α : Type} {l : List α} {i j : Nat} (h : i ≠ j) (a d : α) :
    (l.set i a).getD j d = l.getD j d := by
  rw [List.getD_eq_getElem?_getD, List.getElem?_set_ne h, ← List.getD_eq_getElem?_getD]

theorem set_getD_self {α : Type} {l : List α} {i : Nat} (d : α) (h : i < l.length) :
    l.set i (l.getD i d) = l := by
  induction l generalizing i with
  | nil => simp at h
  | cons x xs ih =>
    cases i with
    | zero => simp
    | succ i =>
      simp only [List.getD_cons_succ, List.set_cons_succ]
      rw [ih (by simpa using h)]

theorem getD_append_at {α : Type} (xs ys : List α) (y d : α) (n : Nat)
    (h : n = xs.length) : (xs ++ y :: ys).getD n d = y := by
  subst h
  induction xs with
  | nil => rfl
  | cons x xs ih => simpa using ih

theorem insertIdx_eq_append {α : Type} (a : α) (l : List α) (n : Nat) (hn : n ≤ l.length) :
    l.insertIdx n a = l.take n ++ a :: l.drop n := by
  induction l generalizing n with
  | nil =>
    have : n = 0 := Nat.le_zero.mp (by simpa using hn)
    subst this
    rfl
  | cons x xs ih =>
    cases n with
    | zero => rfl
    | succ n =>
      simp only [List.insertIdx_succ_cons, List.take_succ_cons, List.drop_succ_cons,
        List.cons_append]
      rw [ih n (by simpa using hn)]

theorem takeWhile_self_all {α : Type} (p : α → Bool) (l : List α) :
    ∀ a ∈ l.takeWhile p, p a = true := by
  induction l with
  | nil => intro a ha; simp at ha
  | cons x xs ih =>
    intro a ha
    rw [List.takeWhile_cons] at ha
    by_cases hp : p x = true
    · rw [if_pos hp] at ha
      rcases List.mem_cons.mp ha with h1 | h2
      · rw [h1]; exact hp
      · exact ih a h2
    · rw [if_neg hp] at ha
      simp at ha

theorem nodeAt_cons (n : Node) (i : Nat) (rest : List Nat) :
    nodeAt n (i :: rest) = nodeAt (n.childrenOf.getD i nullNode) rest := rfl

theorem updateAt_heightOf (root : Node) (p : List Nat) (f : Node → Node) (h : p ≠ []) :
    (updateAt root p f).heightOf = root.heightOf := by
  cases p with
  | nil => exact absurd rfl h
  | cons i rest =>
    cases root with
    | leaf l => rfl
    | branch hh ks cs => rfl

theorem updateAt_self (root : Node) (p : List Nat) :
    updateAt root p (fun _ => nodeAt root p) = root := by
  induction p generalizing root with
  | nil => cases root <;> rfl
  | cons i rest ih =>
    cases root with
    | leaf l => rfl
    | branch h ks cs =>
      show Node.branch h ks (cs.set i (updateAt (cs.getD i nullNode) rest
          (fun _ => nodeAt (Node.branch h ks cs) (i :: rest)))) = Node.branch h ks cs
      have hsub : nodeAt (Node.branch h ks cs) (i :: rest)
          = nodeAt (cs.getD i nullNode) rest := rfl
      rw [hsub, ih (cs.getD i nullNode)]
      by_cases hi : i < cs.length
      · rw [set_getD_self nullNode hi]
      · rw [List.set_eq_of_length_le (by omega)]

theorem updateAt_updateAt (root : Node) (p : List Nat) (f g : Node → Node) :
    updateAt (updateAt root p f) p g = updateAt root p (fun n => g (f n)) := by
  induction p generalizing root with
  | nil => simp only [updateAt]
  | cons i rest ih =>
    cases root with
    | leaf l => rfl
    | branch h ks cs =>
      simp only [updateAt]
      by_cases hi : i < cs.length
      · rw [getD_set_self_lt _ nullNode hi, List.set_set, ih]
      · have hle : cs.length ≤ i := Nat.le_of_not_lt hi
        have hnoop : ∀ Y : Node, cs.set i Y = cs := fun Y => List.set_eq_of_length_le hle
        rw [hnoop, hnoop, hnoop]

theorem nodeAt_updateAt_self (root : Node) (p : List Nat) (f : Node → Node)
    (h : pathOkB root p = true) :
    nodeAt (updateAt root p f) p = f (nodeAt root p) := by
  induction p generalizing root with
  | nil => cases root <;> rfl
  | cons i rest ih =>
    cases root with
    | leaf l => simp [pathOkB, Node.childrenOf] at h
    | branch hh ks cs =>
      simp only [pathOkB, Bool.and_eq_true, decide_eq_true_eq, Node.childrenOf] at h
      obtain ⟨hi, hrest⟩ := h
      show nodeAt ((cs.set i (updateAt (cs.getD i nullNode) rest f)).getD i nullNode) rest
          = f (nodeAt (cs.getD i nullNode) rest)
      rw [getD_set_self_lt _ nullNode hi]
      exact ih (cs.getD i nullNode) hrest

theorem skeleton_updateAt_leaf (x : LeafN) (root : Node) (p : List Nat) (l0 : LeafN)
    (hp : nodeAt root p = .leaf l0) (q : List Nat) :
    (nodeAt (updateAt root p (fun _ => .leaf x)) q).branchKeys
        = (nodeAt root q).branchKeys ∧
    (nodeAt (updateAt root p (fun _ => .leaf x)) q).hasBranches
        = (nodeAt root q).hasBranches := by
  induction p generalizing root q with
  | nil =>
    have hr : root = .leaf l0 := hp
    subst hr
    cases q with
    | nil => exact ⟨rfl, rfl⟩
    | cons j qrest => exact ⟨rfl, rfl⟩
  | cons i rest ih =>
    cases root with
    | leaf l => exact ⟨rfl, rfl⟩
    | branch h ks cs =>
      have hp' : nodeAt (cs.getD i nullNode) rest = .leaf l0 := hp
      cases q with
      | nil => exact ⟨rfl, rfl⟩
      | cons j qrest =>
        show (nodeAt ((cs.set i (updateAt (cs.getD i nullNode) rest
                (fun _ => Node.leaf x))).getD j nullNode) qrest).branchKeys
              = (nodeAt (cs.getD j nullNode) qrest).branchKeys ∧
            (nodeAt ((cs.set i (updateAt (cs.getD i nullNode) rest
                (fun _ => Node.leaf x))).getD j nullNode) qrest).hasBranches
              = (nodeAt (cs.getD j nullNode) qrest).hasBranches
        by_cases hij : i = j
        · subst hij
          by_cases hi : i < cs.length
          · rw [getD_set_self_lt _ nullNode hi]
            exact ih (cs.getD i nullNode) hp' qrest
          · rw [List.set_eq_of_length_le (by omega)]
            exact ⟨rfl, rfl⟩
        · rw [getD_set_ne2 hij]
          exact ⟨rfl, rfl⟩

theorem walkPath_congr (root1 root2 : Node) (key : Nat)
    (hsk : ∀ q, (nodeAt root1 q).branchKeys = (nodeAt root2 q).branchKeys ∧
                (nodeAt root1 q).hasBranches = (nodeAt root2 q).hasBranches)
    (fuel : Nat) :
    ∀ (loc : List Nat) (stack : List (List Nat × Int)),
    walkPath root1 key fuel loc stack = walkPath root2 key fuel loc stack := by
  induction fuel with
  | zero => intro loc stack; rfl
  | succ fuel ih =>
    intro loc stack
    conv_lhs => rw [walkPath]
    conv_rhs => rw [walkPath]
    rw [(hsk loc).1, (hsk loc).2]
    cases hfk : find_key (nodeAt root2 loc).branchKeys key with
    | none => rfl
    | some i =>
      dsimp only
      by_cases hb : (nodeAt root2 loc).hasBranches
      · rw [if_pos hb, if_pos hb, ih]
      · rw [if_neg hb, if_neg hb]

theorem walkPath_loc_ne_nil (root : Node) (key : Nat) (fuel : Nat) :
    ∀ (loc : List Nat) (stack s : List (List Nat × Int)) (ll : List Nat),
    walkPath root key fuel loc stack = some (s, ll) → ll ≠ [] := by
  induction fuel with
  | zero => intro loc stack s ll h; exact absurd h (by simp [walkPath])
  | succ fuel ih =>
    intro loc stack s ll h
    rw [walkPath] at h
    cases hfk : find_key (nodeAt root loc).branchKeys key with
    | none => rw [hfk] at h; cases h
    | some i =>
      rw [hfk] at h
      dsimp only at h
      by_cases hb : (nodeAt root loc).hasBranches
      · rw [if_pos hb] at h
        exact ih _ _ _ _ h
      · rw [if_neg hb] at h
        injection h with h
        have hll : ll = loc ++ [i] := (congrArg Prod.snd h).symm
        rw [hll]
        simp

/-- Even with `k` absent the insert/remove roundtrip law fails once the
insertion leaves the in-place path: at the admissible odd leaf fanout
`L = 5`, inserting the absent key 25 into the full leaf of
`load [(10,1)..(50,5)]` goes through `Leaf::split`, which duplicates entry
(30,3) and loses (50,5); the subsequent remove returns (25,99) and the
size, but the iteration differs from the original's.  This is why the
amended roundtrip theorem is scoped to the in-place insertion path. -/
theorem insert_remove_absent_fails_at_odd_leaf_fanout :
    treeGet (load 5 4 [(10, 1), (20, 2), (30, 3), (40, 4), (50, 5)]) 25 = none ∧
    treeInsert 5 4 (load 5 4 [(10, 1), (20, 2), (30, 3), (40, 4), (50, 5)]) 25 99
      = some (none, ⟨6, some (.branch 1 [30, 50]
          [.leaf ⟨[10, 20, 25, 30], [1, 2, 99, 3]⟩, .leaf ⟨[30, 40], [3, 4]⟩])⟩) ∧
    treeRemove ⟨6, some (.branch 1 [30, 50]
        [.leaf ⟨[10, 20, 25, 30], [1, 2, 99, 3]⟩, .leaf ⟨[30, 40], [3, 4]⟩])⟩ 25
      = (some (25, 99), ⟨5, some (.branch 1 [30, 50]
          [.leaf ⟨[10, 20, 30], [1, 2, 3]⟩, .leaf ⟨[30, 40], [3, 4]⟩])⟩) ∧
    treeLen (⟨5, some (.branch 1 [30, 50]
        [.leaf ⟨[10, 20, 30], [1, 2, 3]⟩, .leaf ⟨[30, 40], [3, 4]⟩])⟩ : PTree)
      = treeLen (load 5 4 [(10, 1), (20, 2), (30, 3), (40, 4), (50, 5)]) ∧
    treeIterList (⟨5, some (.branch 1 [30, 50]
        [.leaf ⟨[10, 20, 30], [1, 2, 3]⟩, .leaf ⟨[30, 40], [3, 4]⟩])⟩ : PTree)
      = [(10, 1), (20, 2), (30, 3), (30, 3), (40, 4)] ∧
    treeIterList (load 5 4 [(10, 1), (20, 2), (30, 3), (40, 4), (50, 5)])
      = [(10, 1), (20, 2), (30, 3), (40, 4), (50, 5)] :=
  ⟨rfl, rfl, rfl, rfl, rfl, rfl⟩

/-- C3 (amended, scoped to the in-place insertion path): `T.insert(k, v)`
followed by `T.remove(&k)` returns `(k, v)` and restores the original
tree exactly — hence a map equal by iteration, with `len` restored —
whenever `k` is absent and the insertion stays in place: `exact_key`
lands on a vacant slot of an existing, non-empty, non-full target leaf
reached through an in-bounds path.  The spec's unconditional law is
refuted on both sides of this scope: with `k` present the counterexample
theorem shows the roundtrip deletes the pre-existing entry, and with a
full target leaf the split path loses and duplicates entries at odd leaf
fanouts (the odd-fanout theorem above), so not even the absent-key law
holds unconditionally. -/
theorem insert_remove_roundtrip_when_absent (Lcap Bcap : Nat)
    (t : PTree) (root : Node) (key value slot : Nat)
    (stack : List (List Nat × Int)) (leafLoc : List Nat)
    (hroot : t.root = some root) (hsz : 1 ≤ t.size)
    (hwalk : walkPath root key (root.heightOf + 1) [] [] = some (stack, leafLoc))
    (hbs : binarySearch (leafAt root leafLoc).keys key = .error slot)
    (hpok : pathOkB root leafLoc = true)
    (hlen : (leafAt root leafLoc).keys.length = (leafAt root leafLoc).values.length)
    (hne : 1 ≤ (leafAt root leafLoc).len)
    (hnf : (leafAt root leafLoc).isFull Lcap = false) :
    ∃ t', treeInsert Lcap Bcap t key value = some (none, t') ∧
      treeLen t' = treeLen t + 1 ∧
      treeRemove t' key = (some (key, value), t) := by
  obtain ⟨l, hl⟩ : ∃ l, nodeAt root leafLoc = Node.leaf l := by
    cases hnl : nodeAt root leafLoc with
    | leaf l0 => exact ⟨l0, rfl⟩
    | branch hb ks cs =>
      exfalso
      have hnull : leafAt root leafLoc = nullLeaf := by unfold leafAt; rw [hnl]
      rw [hnull] at hne
      simp [nullLeaf, LeafN.len] at hne
  have hlf : leafAt root leafLoc = l := by unfold leafAt; rw [hl]
  rw [hlf] at hbs hlen hne hnf
  have hne' : 1 ≤ l.keys.length := hne
  have hbs' : firstGE l.keys key = slot ∧
      ¬ (slot < l.keys.length ∧ l.keys.getD slot 0 = key) := by
    unfold binarySearch at hbs
    by_cases hc : firstGE l.keys key < l.keys.length ∧
        l.keys.getD (firstGE l.keys key) 0 = key
    · rw [if_pos hc] at hbs; cases hbs
    · rw [if_neg hc] at hbs
      injection hbs with hbs
      refine ⟨hbs, ?_⟩
      rw [← hbs]
      exact hc
  have hslotle : slot ≤ l.keys.length := by
    rw [← hbs'.1]; exact firstGE_le_length l.keys key
  have hkeys' : (l.insertAt slot key value).keys
      = l.keys.take slot ++ key :: l.keys.drop slot :=
    insertIdx_eq_append key l.keys slot hslotle
  have hvals' : (l.insertAt slot key value).values
      = l.values.take slot ++ value :: l.values.drop slot :=
    insertIdx_eq_append value l.values slot (by omega)
  have htake : l.keys.takeWhile (fun x => decide (x < key)) = l.keys.take slot := by
    have hpre : l.keys.takeWhile (fun x => decide (x < key)) <+: l.keys :=
      List.takeWhile_prefix _
    have heq := List.prefix_iff_eq_take.mp hpre
    rw [heq]
    have hlentw : (l.keys.takeWhile (fun x => decide (x < key))).length = slot := by
      rw [← hbs'.1]; rfl
    rw [hlentw]
  have hlentake : (l.keys.take slot).length = slot := by
    rw [List.length_take]; omega
  have hfge' : firstGE (l.insertAt slot key value).keys key = slot := by
    unfold firstGE
    rw [hkeys', ← htake]
    have hall := takeWhile_self_all (fun x => decide (x < key)) l.keys
    rw [List.takeWhile_append_of_pos hall]
    have hcons : (key :: l.keys.drop slot).takeWhile (fun x => decide (x < key)) = [] := by
      simp [List.takeWhile_cons]
    rw [hcons, List.append_nil, htake, hlentake]
  have hgetD : (l.insertAt slot key value).keys.getD slot 0 = key := by
    rw [hkeys']
    exact getD_append_at _ _ key 0 slot hlentake.symm
  have hlen1 : (l.insertAt slot key value).keys.length = l.keys.length + 1 := by
    rw [hkeys']
    simp only [List.length_append, List.length_cons, List.length_take, List.length_drop]
    omega
  have hbs2 : binarySearch (l.insertAt slot key value).keys key = .ok slot := by
    unfold binarySearch
    rw [hfge']
    rw [if_pos ⟨by omega, hgetD⟩]
  have hek : exactKeyR root key = (false, ⟨stack, some leafLoc, slot⟩) := by
    unfold exactKeyR
    rw [hwalk]
    dsimp only
    rw [hlf, hbs]
  have hcur : cursorInsert Lcap Bcap root ⟨stack, some leafLoc, slot⟩ key value
      (insertFuel root)
      = .ok (updateAt root leafLoc (fun _ => .leaf (l.insertAt slot key value))) := by
    unfold cursorInsert
    dsimp only
    rw [hlf]
    rw [if_pos (by simp [hnf])]
  have hvac : vacantInsert Lcap Bcap (root.heightOf + 4) t ⟨stack, some leafLoc, slot⟩
      key value
      = some ⟨t.size + 1,
          some (updateAt root leafLoc (fun _ => .leaf (l.insertAt slot key value)))⟩ := by
    show vacantInsert Lcap Bcap (root.heightOf + 3 + 1) t ⟨stack, some leafLoc, slot⟩
      key value = _
    conv_lhs => rw [vacantInsert]
    rw [if_neg (by omega : ¬ t.size = 0), hroot]
    dsimp only
    rw [if_neg (by simp)]
    rw [hcur]
  have hins : treeInsert Lcap Bcap t key value
      = some (none, ⟨t.size + 1,
          some (updateAt root leafLoc (fun _ => .leaf (l.insertAt slot key value)))⟩) := by
    unfold treeInsert
    rw [hroot]
    dsimp only
    rw [hek]
    dsimp only
    rw [hvac]
  have hll0 : leafLoc ≠ [] :=
    walkPath_loc_ne_nil root key (root.heightOf + 1) [] [] stack leafLoc hwalk
  have hh' : (updateAt root leafLoc
      (fun _ => Node.leaf (l.insertAt slot key value))).heightOf = root.heightOf :=
    updateAt_heightOf root leafLoc _ hll0
  have hskel := skeleton_updateAt_leaf (l.insertAt slot key value) root leafLoc l hl
  have hwalk2 : walkPath
      (updateAt root leafLoc (fun _ => Node.leaf (l.insertAt slot key value))) key
      ((updateAt root leafLoc
        (fun _ => Node.leaf (l.insertAt slot key value))).heightOf + 1) [] []
      = some (stack, leafLoc) := by
    rw [hh']
    rw [walkPath_congr _ root key hskel (root.heightOf + 1) [] []]
    exact hwalk
  have hupd := nodeAt_updateAt_self root leafLoc
    (fun _ => Node.leaf (l.insertAt slot key value)) hpok
  have hlf2 : leafAt
      (updateAt root leafLoc (fun _ => Node.leaf (l.insertAt slot key value))) leafLoc
      = l.insertAt slot key value := by
    unfold leafAt
    rw [hupd]
  have hek2 : exactKeyR
      (updateAt root leafLoc (fun _ => Node.leaf (l.insertAt slot key value))) key
      = (true, ⟨stack, some leafLoc, slot⟩) := by
    unfold exactKeyR
    rw [hwalk2]
    dsimp only
    rw [hlf2, hbs2]
  have hremAt : (l.insertAt slot key value).removeAt slot = ((key, value), l) := by
    unfold LeafN.removeAt
    rw [hgetD]
    have hgv : (l.insertAt slot key value).values.getD slot 0 = value := by
      rw [hvals']
      exact getD_append_at _ _ value 0 slot (by rw [List.length_take]; omega)
    rw [hgv]
    have hek1 : (l.insertAt slot key value).keys.eraseIdx slot = l.keys :=
      List.eraseIdx_insertIdx slot l.keys
    have hev : (l.insertAt slot key value).values.eraseIdx slot = l.values :=
      List.eraseIdx_insertIdx slot l.values
    rw [hek1, hev]
  have hfin : updateAt
      (updateAt root leafLoc (fun _ => Node.leaf (l.insertAt slot key value)))
      leafLoc (fun _ => Node.leaf l) = root := by
    rw [updateAt_updateAt]
    have hx := updateAt_self root leafLoc
    rw [hl] at hx
    exact hx
  have hrem : cursorRemove
      (updateAt root leafLoc (fun _ => Node.leaf (l.insertAt slot key value)))
      ⟨stack, some leafLoc, slot⟩ = ((key, value), root) := by
    unfold cursorRemove
    dsimp only
    rw [hlf2, hremAt]
    dsimp only
    rw [if_neg (by simp only [LeafN.isEmpty, LeafN.len, decide_eq_true_eq]; omega)]
    rw [hfin]
  refine ⟨⟨t.size + 1,
    some (updateAt root leafLoc (fun _ => Node.leaf (l.insertAt slot key value)))⟩,
    hins, rfl, ?_⟩
  unfold treeRemove
  dsimp only
  rw [hek2]
  dsimp only
  rw [hrem]
  cases t with
  | mk sz rt =>
    obtain rfl : rt = some root := hroot
    rfl


/-- Witness for `insert_remove_roundtrip_when_absent`: inserting the
absent key 15 into a two-leaf tree and then removing it restores the
original tree, with the removed pair returned. -/
theorem insert_remove_roundtrip_when_absent_witness :
    ∃ t', treeInsert 4 4
        ⟨2, some (.branch 1 [10, 20] [.leaf ⟨[10], [1]⟩, .leaf ⟨[20], [2]⟩])⟩ 15 99
        = some (none, t') ∧
      treeLen t' = treeLen
        (⟨2, some (.branch 1 [10, 20] [.leaf ⟨[10], [1]⟩, .leaf ⟨[20], [2]⟩])⟩ : PTree) + 1 ∧
      treeRemove t' 15 = (some (15, 99),
        ⟨2, some (.branch 1 [10, 20] [.leaf ⟨[10], [1]⟩, .leaf ⟨[20], [2]⟩])⟩) :=
  insert_remove_roundtrip_when_absent 4 4
    ⟨2, some (.branch 1 [10, 20] [.leaf ⟨[10], [1]⟩, .leaf ⟨[20], [2]⟩])⟩
    (.branch 1 [10, 20] [.leaf ⟨[10], [1]⟩, .leaf ⟨[20], [2]⟩])
    15 99 0 [([], 1)] [1] rfl (by decide) rfl rfl rfl rfl (by decide) rfl

/-- C4 (amended): the high-key equality invariant — every branch key
`keys[i]` equals `highest(children[i])`, which is the maximum key of the
subtree `children[i]` and occurs in it — holds for every tree built by
`load` from a strictly ascending stream (and vacuously for `new()`),
but not for every tree reachable by public operations: `remove` leaves
stale ancestor high keys (see the counterexample theorem). -/
theorem high_key_invariant_load (Lcap Bcap : Nat) (hL : 1 ≤ Lcap) (hB : 2 ≤ Bcap)
    (input : List (Nat × Nat)) (hsort : (input.map Prod.fst).Pairwise (· < ·)) :
    (match (load Lcap Bcap input).root with
     | none => true
     | some r => highKeyEqB r.heightOf r) = true := by
  have hg := (load_good hL hB input hsort).1
  unfold goodTree at hg
  cases hroot : (load Lcap Bcap input).root with
  | none => rfl
  | some r =>
    rw [hroot] at hg
    obtain ⟨-, hgood, -⟩ := hg
    simp only [goodNode, Bool.and_eq_true] at hgood
    exact hgood.2

/-- Witness for `high_key_invariant_load` at a concrete sorted stream. -/
theorem high_key_invariant_load_witness :
    (match (load 4 4 [(2, 1), (4, 2), (6, 3), (8, 4), (10, 5), (12, 6)]).root with
     | none => true
     | some r => highKeyEqB r.heightOf r) = true :=
  high_key_invariant_load 4 4 (by decide) (by decide)
    [(2, 1), (4, 2), (6, 3), (8, 4), (10, 5), (12, 6)] (by decide)

end Palmtree
